import Mathlib

/-!
# JIMM catalog store: offer access, machine and application records, read ACLs, monitor lease

A shallow embedding of the parts of `internal/jem/jimmdb/database.go` and of the
in-memory JEM shim of `internal/monitor/shim_test.go` that the properties below are
about.  A MongoDB collection is a list of documents in natural order; every mgo
operation is a pure function from the collection to the new collection (or to an
error), applied atomically.
-/

namespace Jimm

/-! ## Errors -/

/-- Error causes of package `params` (and `jem.ErrLeaseUnavailable`).  `ErrOther`
stands for an error whose cause carries no error code (a masked error). -/
inductive ErrorCode where
  | ErrNotFound
  | ErrUnauthorized
  | ErrAlreadyExists
  | ErrBadRequest
  | ErrLeaseUnavailable
  | ErrOther
  deriving DecidableEq, Repr

/-- Errors returned by the mgo driver itself. -/
inductive MgoError where
  | ErrNotFound
  | Dup
  | Other
  deriving DecidableEq, Repr

/-! ## Generic mgo collection operations -/

/-- The mgo call `Collection.UpdateAll(selector, update)`: every document matching the selector is
modified in place; mgo reports no error when nothing matches. -/
def UpdateAll {α : Type} (sel : α → Bool) (upd : α → α) (c : List α) :
    Except MgoError (List α) :=
  .ok (c.map fun d => if sel d then upd d else d)

/-- The mgo call `Collection.FindId(id).One(&doc)`: the first document whose `_id` is `id`. -/
def FindId {α : Type} (idOf : α → String) (id : String) (c : List α) : Option α :=
  c.find? fun d => idOf d == id

/-- Replace the first document satisfying `p` by its image under `f`. -/
def updateFirst {α : Type} (p : α → Bool) (f : α → α) : List α → List α
  | [] => []
  | d :: ds => if p d then f d :: ds else d :: updateFirst p f ds

/-- The mgo call `Collection.RemoveId(id)`: removes the document whose `_id` is `id`, and fails with
`ErrNotFound` when there is none. -/
def RemoveId {α : Type} (idOf : α → String) (id : String) (c : List α) :
    Except MgoError (List α) :=
  if c.any (fun d => idOf d == id) then .ok (c.eraseP fun d => idOf d == id)
  else .error MgoError.ErrNotFound

/-- The mgo call `Collection.UpsertId(id, update)`: applies the update `upd` to the document whose
`_id` is `id`, or inserts the document `ins` that the update yields from an empty document
with that `_id` when there is none. -/
def UpsertId {α : Type} (idOf : α → String) (id : String) (upd : α → α) (ins : α)
    (c : List α) : Except MgoError (List α) :=
  if c.any (fun d => idOf d == id) then .ok (updateFirst (fun d => idOf d == id) upd c)
  else .ok (c ++ [ins])

/-- The invariant of a collection: no two documents share an `_id`. -/
def UniqueIds {α : Type} (idOf : α → String) (c : List α) : Prop :=
  (c.map idOf).Nodup

instance {α : Type} (idOf : α → String) (c : List α) : Decidable (UniqueIds idOf c) := by
  unfold UniqueIds; infer_instance

/-! ## Application offers -/

abbrev User := String

/-- The pseudo-user `identchecker.Everyone`. -/
def Everyone : User := "everyone"

/-- Modelled from the spec: `mongodoc.ApplicationOfferAccessPermission` is declared in
package `mongodoc`, which is not among the sources.  It is an integer type whose four
levels are ordered `none < read < consume < admin`. -/
abbrev ApplicationOfferAccessPermission := Int

/-- Modelled from the spec: the level `none` of `mongodoc`. -/
def ApplicationOfferNoAccess : ApplicationOfferAccessPermission := 0

/-- Modelled from the spec: the level `read` of `mongodoc`. -/
def ApplicationOfferReadAccess : ApplicationOfferAccessPermission := 1

/-- Modelled from the spec: the level `consume` of `mongodoc`. -/
def ApplicationOfferConsumeAccess : ApplicationOfferAccessPermission := 2

/-- Modelled from the spec: the level `admin` of `mongodoc`. -/
def ApplicationOfferAdminAccess : ApplicationOfferAccessPermission := 3

/-- The four access levels of the offer-local ACL. -/
def IsAccessLevel (a : ApplicationOfferAccessPermission) : Prop :=
  ApplicationOfferNoAccess ≤ a ∧ a ≤ ApplicationOfferAdminAccess

instance (a : ApplicationOfferAccessPermission) : Decidable (IsAccessLevel a) := by
  unfold IsAccessLevel; infer_instance

/-- An element of the embedded `users` array: `mongodoc.OfferUserDetails`. -/
structure OfferUserDetails where
  user : User
  access : ApplicationOfferAccessPermission
  deriving DecidableEq, Repr

/-- An element of the embedded `endpoints` array. -/
structure RemoteEndpoint where
  name : String
  role : String
  interface : String
  deriving DecidableEq, Repr

/-- The document `mongodoc.ApplicationOffer`, keyed by `offerUUID` (its `_id`). -/
structure ApplicationOffer where
  offerUUID : String
  offerURL : String
  ownerName : String
  modelName : String
  offerName : String
  applicationName : String
  applicationDescription : String
  endpoints : List RemoteEndpoint
  spaces : List String
  bindings : List (String × String)
  users : List OfferUserDetails
  charmURL : String
  connections : List String
  deriving DecidableEq, Repr

/-- The zero value of `mongodoc.ApplicationOffer`. -/
def ApplicationOffer.zero : ApplicationOffer :=
  { offerUUID := "", offerURL := "", ownerName := "", modelName := "", offerName := "",
    applicationName := "", applicationDescription := "", endpoints := [], spaces := [],
    bindings := [], users := [], charmURL := "", connections := [] }

/-- Selector of update A:
`{_id: offerUUID, users: {$not: {$elemMatch: {user: user, access: access}}}}`. -/
def selectorA (user : User) (offerUUID : String) (access : ApplicationOfferAccessPermission)
    (o : ApplicationOffer) : Bool :=
  o.offerUUID == offerUUID && !(o.users.any fun e => e.user == user && e.access == access)

/-- Modifier of update A: `{$push: {users: {user: user, access: access}}}`. -/
def pushUser (user : User) (access : ApplicationOfferAccessPermission)
    (o : ApplicationOffer) : ApplicationOffer :=
  { o with users := o.users ++ [{ user := user, access := access }] }

/-- Selector of update B: `{_id: offerUUID, users: {user: user, access: access}}`, an
exact match of an array element against the embedded document. -/
def selectorB (user : User) (offerUUID : String) (access : ApplicationOfferAccessPermission)
    (o : ApplicationOffer) : Bool :=
  o.offerUUID == offerUUID && o.users.any fun e => e == { user := user, access := access }

/-- Modifier of update B: `{$pull: {users: {user: user, access: {$ne: access}}}}`. -/
def pullOtherAccess (user : User) (access : ApplicationOfferAccessPermission)
    (o : ApplicationOffer) : ApplicationOffer :=
  { o with users := o.users.filter fun e => !(e.user == user && e.access != access) }

/-- Update A of `SetApplicationOfferAccess` (insert if absent), one atomic store update. -/
def updateA (user : User) (offerUUID : String) (access : ApplicationOfferAccessPermission)
    (db : List ApplicationOffer) : Except MgoError (List ApplicationOffer) :=
  UpdateAll (selectorA user offerUUID access) (pushUser user access) db

/-- Update B of `SetApplicationOfferAccess` (guarded prune), one atomic store update. -/
def updateB (user : User) (offerUUID : String) (access : ApplicationOfferAccessPermission)
    (db : List ApplicationOffer) : Except MgoError (List ApplicationOffer) :=
  UpdateAll (selectorB user offerUUID access) (pullOtherAccess user access) db

/-- The method `Database.SetApplicationOfferAccess`: update A, then update B.  Returns the new
collection, or the error cause. -/
def SetApplicationOfferAccess (user : User) (offerUUID : String)
    (access : ApplicationOfferAccessPermission) (db : List ApplicationOffer) :
    Except ErrorCode (List ApplicationOffer) :=
  match updateA user offerUUID access db with
  | .error e =>
    if e = MgoError.ErrNotFound then .error ErrorCode.ErrNotFound else .error ErrorCode.ErrOther
  | .ok db1 =>
    match updateB user offerUUID access db1 with
    | .error _ => .error ErrorCode.ErrOther
    | .ok db2 => .ok db2

/-- The loop of `getApplicationOfferAccess`. -/
def getApplicationOfferAccess (user : User) (offer : ApplicationOffer) :
    ApplicationOfferAccessPermission :=
  offer.users.foldl
    (fun access u =>
      if (u.user == user || u.user == Everyone) && decide (u.access > access) then u.access
      else access)
    ApplicationOfferNoAccess

/-- The method `Database.GetApplicationOfferAccess`: a missing offer leaves the zero offer in place. -/
def GetApplicationOfferAccess (user : User) (offerUUID : String) (db : List ApplicationOffer) :
    Except ErrorCode ApplicationOfferAccessPermission :=
  match FindId ApplicationOffer.offerUUID offerUUID db with
  | some offer => .ok (getApplicationOfferAccess user offer)
  | none => .ok (getApplicationOfferAccess user ApplicationOffer.zero)

/-- The entries of a users list that belong to `user`. -/
def entriesOf (user : User) (us : List OfferUserDetails) : List OfferUserDetails :=
  us.filter fun e => e.user == user

/-- The users list after update A has been applied to a matching offer. -/
def usersAfterA (user : User) (access : ApplicationOfferAccessPermission)
    (us : List OfferUserDetails) : List OfferUserDetails :=
  if us.any (fun e => e.user == user && e.access == access) then us
  else us ++ [{ user := user, access := access }]

/-- The users list after update B has been applied to a matching offer. -/
def usersAfterB (user : User) (access : ApplicationOfferAccessPermission)
    (us : List OfferUserDetails) : List OfferUserDetails :=
  if us.any (fun e => e == { user := user, access := access }) then
    us.filter fun e => !(e.user == user && e.access != access)
  else us

/-- The property of one settled `SetApplicationOfferAccess` call: the call succeeds and
the stored offer then holds exactly one entry of `user`, with the access `access`. -/
def SettlesToOneEntry (db : List ApplicationOffer) (offerUUID : String) (user : User)
    (access : ApplicationOfferAccessPermission) : Prop :=
  ∃ db2 o2, SetApplicationOfferAccess user offerUUID access db = .ok db2 ∧
    FindId ApplicationOffer.offerUUID offerUUID db2 = some o2 ∧
    entriesOf user o2.users = [{ user := user, access := access }]

/-- An offer with the users list `us` and the UUID `uuid`, other fields empty. -/
def offerWithUsers (uuid : String) (us : List OfferUserDetails) : ApplicationOffer :=
  { ApplicationOffer.zero with offerUUID := uuid, users := us }

/-- An offer that already holds the entry (bob, read) twice. -/
def duplicateOffer : ApplicationOffer :=
  offerWithUsers "o1" [⟨"bob", ApplicationOfferReadAccess⟩, ⟨"bob", ApplicationOfferReadAccess⟩]

/-- An offer with two entries of bob and one of everyone. -/
def sampleOffer : ApplicationOffer :=
  offerWithUsers "o1" [⟨"bob", ApplicationOfferReadAccess⟩,
    ⟨"everyone", ApplicationOfferReadAccess⟩, ⟨"bob", ApplicationOfferAdminAccess⟩]

/-! ## Interleaved `SetApplicationOfferAccess` calls -/

/-- The two store updates of one `SetApplicationOfferAccess` call. -/
inductive Phase where
  | A
  | B
  deriving DecidableEq, Repr

/-- One store update of an interleaving: the index of the call and which of its two
updates is applied. -/
abbrev Event := Nat × Phase

/-- Apply one store update of the interleaving; call `i` sets the access `calls[i]`. -/
def runEvent (user : User) (uuid : String) (calls : List ApplicationOfferAccessPermission)
    (e : Event) (db : List ApplicationOffer) : Except MgoError (List ApplicationOffer) :=
  match calls[e.1]? with
  | none => .ok db
  | some a =>
    match e.2 with
    | Phase.A => updateA user uuid a db
    | Phase.B => updateB user uuid a db

/-- Apply the store updates of an interleaving in order. -/
def runSchedule (user : User) (uuid : String) (calls : List ApplicationOfferAccessPermission) :
    List Event → List ApplicationOffer → Except MgoError (List ApplicationOffer)
  | [], db => .ok db
  | e :: es, db =>
    match runEvent user uuid calls e db with
    | .error err => .error err
    | .ok db2 => runSchedule user uuid calls es db2

/-- An interleaving of the updates of `n` calls: every update A and B of every call
occurs exactly once, nothing else occurs, and each call's A comes before its B. -/
def ValidSchedule (n : Nat) (s : List Event) : Prop :=
  s.Nodup ∧ (∀ e ∈ s, e.1 < n) ∧ ∀ i, i < n → [(i, Phase.A), (i, Phase.B)].Sublist s

/-- The effect of one store update on the users list of the addressed offer. -/
def stepUsers (user : User) (calls : List ApplicationOfferAccessPermission) (e : Event)
    (us : List OfferUserDetails) : List OfferUserDetails :=
  match calls[e.1]? with
  | none => us
  | some a =>
    match e.2 with
    | Phase.A => usersAfterA user a us
    | Phase.B => usersAfterB user a us

/-- The effect of an interleaving on the users list of the addressed offer. -/
def runUsers (user : User) (calls : List ApplicationOfferAccessPermission) :
    List Event → List OfferUserDetails → List OfferUserDetails
  | [], us => us
  | e :: es, us => runUsers user calls es (stepUsers user calls e us)

/-- Whether the update is an update B that finds its own entry in the users list, that
is, whose selector matches the offer. -/
def effectivePrune (user : User) (calls : List ApplicationOfferAccessPermission) (e : Event)
    (us : List OfferUserDetails) : Bool :=
  match calls[e.1]? with
  | none => false
  | some a =>
    match e.2 with
    | Phase.A => false
    | Phase.B => us.any fun x => x == { user := user, access := a }

/-- The index of the call whose update B is the last one of the interleaving to find
its own entry in the users list; `last` when no update B of the interleaving does. -/
def lastEffectivePrune (user : User) (calls : List ApplicationOfferAccessPermission) :
    List Event → List OfferUserDetails → Option Nat → Option Nat
  | [], _, last => last
  | e :: es, us, last =>
    lastEffectivePrune user calls es (stepUsers user calls e us)
      (if effectivePrune user calls e us then some e.1 else last)

/-- Some update B that is still to run belongs to a call setting the access `x`. -/
def Backed (calls : List ApplicationOfferAccessPermission) (rest : List Event)
    (x : ApplicationOfferAccessPermission) : Prop :=
  ∃ i, (i, Phase.B) ∈ rest ∧ calls[i]? = some x

/-- What remains of a valid schedule after some of its updates have run. -/
def OrderedSuffix (n : Nat) (rest : List Event) : Prop :=
  rest.Nodup ∧ (∀ e ∈ rest, e.1 < n) ∧
    ∀ i, (i, Phase.A) ∈ rest → [(i, Phase.A), (i, Phase.B)].Sublist rest

/-- Invariant of a run: `es` are the entries of the user, `last` the call of the last
effective prune so far, `rest` the updates still to run. -/
structure RunInv (user : User) (calls : List ApplicationOfferAccessPermission)
    (es : List OfferUserDetails) (last : Option Nat) (rest : List Event) : Prop where
  owner : ∀ e ∈ es, e.user = user
  fresh : last = none →
    (∀ i, i < calls.length → (i, Phase.B) ∈ rest) ∧
      ∀ i a, calls[i]? = some a → (i, Phase.A) ∉ rest →
        ({ user := user, access := a } : OfferUserDetails) ∈ es
  pruned : ∀ j, last = some j →
    ∃ a, calls[j]? = some a ∧ ({ user := user, access := a } : OfferUserDetails) ∈ es ∧
      ∀ e ∈ es, e ≠ { user := user, access := a } → Backed calls rest e.access

/-- The property C2 claims of an interleaving: it runs to the end and the stored offer
then holds exactly one entry of the user. -/
def EndsWithOneEntry (db : List ApplicationOffer) (uuid : String) (user : User)
    (calls : List ApplicationOfferAccessPermission) (s : List Event) : Prop :=
  ∃ db2 o2, runSchedule user uuid calls s db = .ok db2 ∧
    FindId ApplicationOffer.offerUUID uuid db2 = some o2 ∧
    (entriesOf user o2.users).length = 1

/-- The property C3 claims of an interleaving: the run completes, an entry of the user
survives, and what survives of the user carries the access of call `j`. -/
def SurvivorIsCall (db : List ApplicationOffer) (uuid : String) (user : User)
    (calls : List ApplicationOfferAccessPermission) (s : List Event) (j : Nat) : Prop :=
  ∃ db2 o2 a, runSchedule user uuid calls s db = .ok db2 ∧
    FindId ApplicationOffer.offerUUID uuid db2 = some o2 ∧
    calls[j]? = some a ∧ ({ user := user, access := a } : OfferUserDetails) ∈ o2.users ∧
    ∀ e ∈ o2.users, e.user = user → e.access = a

/-- The call whose store update is applied last in the interleaving. -/
def lastToReachStore (s : List Event) : Option Nat :=
  s.getLast?.map Prod.fst

instance (n : Nat) (s : List Event) : Decidable (ValidSchedule n s) := by
  unfold ValidSchedule; infer_instance

/-- An offer readable by everyone, with one entry of bob. -/
def publicOffer : ApplicationOffer :=
  offerWithUsers "o1" [⟨"everyone", ApplicationOfferReadAccess⟩, ⟨"bob", ApplicationOfferReadAccess⟩]

/-- Three calls interleaved as 1A, 2A, 3A, 2B, 1B, 3B. -/
def crossedSchedule : List Event :=
  [(0, Phase.A), (1, Phase.A), (2, Phase.A), (1, Phase.B), (0, Phase.B), (2, Phase.B)]

/-! ## Reading the access of a user -/

/-- The entry counts for `user`: it names the user or the pseudo-user everyone. -/
def AppliesTo (user : User) (e : OfferUserDetails) : Prop :=
  e.user = user ∨ e.user = Everyone

/-- The value `r` is the higher of `a` and the highest access held by an entry of `es`. -/
def IsHigherOf (r a : ApplicationOfferAccessPermission) (es : List OfferUserDetails) : Prop :=
  a ≤ r ∧ (∀ e ∈ es, e.access ≤ r) ∧ (r = a ∨ ∃ e ∈ es, e.access = r)

/-! ## Listing offers: the query of `IterApplicationOffers` -/

/-- The type `jujuparams.EndpointFilterAttributes`. -/
structure EndpointFilterAttributes where
  role : String
  interface : String
  name : String
  deriving DecidableEq, Repr

/-- The type `jujuparams.OfferFilter`. -/
structure OfferFilter where
  ownerName : String
  modelName : String
  offerName : String
  applicationName : String
  applicationDescription : String
  applicationUser : String
  endpoints : List EndpointFilterAttributes
  allowedConsumerTags : List String
  deriving DecidableEq, Repr

/-- A condition on one field of an offer document: a `bson.DocElem` other than `$or`. -/
inductive Cond where
  /-- The condition `{field: value}`. -/
  | eq (field : String) (value : String)
  /-- The condition `{field: {$regex: pattern}}`. -/
  | regex (field : String) (pattern : String)
  /-- The condition `{endpoints: {$elemMatch: {k1: v1, ...}}}`. -/
  | endpointsElemMatch (conds : List (String × String))
  /-- The condition `{users: {$elemMatch: {user: user, access: {$gte: min}}}}`. -/
  | usersElemMatch (user : User) (min : ApplicationOfferAccessPermission)
  /-- The condition `{users: {$elemMatch: {no-such-field: {$exists: true}}}}`. -/
  | usersNoSuchField
  deriving DecidableEq, Repr

/-- One element of a filter query document: a condition, or `{$or: [{c1}, {c2}, ...]}`. -/
inductive Clause where
  | cond (c : Cond)
  | or (cs : List Cond)
  deriving DecidableEq, Repr

/-- A filter query document (`bson.D`): all of its elements must hold. -/
abbrev FilterQuery := List Clause

/-- One element of the query document of `IterApplicationOffers`. -/
inductive TopClause where
  /-- The element `{users: {$elemMatch: {user: {$in: users}, access: {$gte: min}}}}`. -/
  | usersElemMatchIn (users : List User) (min : ApplicationOfferAccessPermission)
  /-- The element `{$or: filterQueries}`. -/
  | or (qs : List FilterQuery)
  deriving DecidableEq, Repr

/-- The string fields of an offer document, by bson name. -/
def offerField (o : ApplicationOffer) (field : String) : Option String :=
  if field = "owner-name" then some o.ownerName
  else if field = "model-name" then some o.modelName
  else if field = "application-name" then some o.applicationName
  else if field = "offer-name" then some o.offerName
  else if field = "application-description" then some o.applicationDescription
  else if field = "offer-url" then some o.offerURL
  else if field = "charm-url" then some o.charmURL
  else none

/-- The fields of an endpoint sub-document, by bson name. -/
def endpointField (ep : RemoteEndpoint) (field : String) : Option String :=
  if field = "interface" then some ep.interface
  else if field = "name" then some ep.name
  else if field = "role" then some ep.role
  else none

/-- Whether an offer document satisfies a condition; `regexMatch pattern s` is the
regular-expression match of the store. -/
def evalCond (regexMatch : String → String → Bool) (o : ApplicationOffer) : Cond → Bool
  | Cond.eq field value => offerField o field == some value
  | Cond.regex field pattern =>
    match offerField o field with
    | some s => regexMatch pattern s
    | none => false
  | Cond.endpointsElemMatch conds =>
    o.endpoints.any fun ep => conds.all fun kv => endpointField ep kv.1 == some kv.2
  | Cond.usersElemMatch user min =>
    o.users.any fun e => e.user == user && decide (e.access ≥ min)
  | Cond.usersNoSuchField => o.users.any fun _ => false

/-- Whether an offer document satisfies one element of a filter query. -/
def evalClause (regexMatch : String → String → Bool) (o : ApplicationOffer) : Clause → Bool
  | Clause.cond c => evalCond regexMatch o c
  | Clause.or cs => cs.any (evalCond regexMatch o)

/-- Whether an offer document satisfies a filter query document. -/
def evalFilterQuery (regexMatch : String → String → Bool) (o : ApplicationOffer)
    (q : FilterQuery) : Bool :=
  q.all (evalClause regexMatch o)

/-- Whether an offer document satisfies one element of the query of `IterApplicationOffers`. -/
def evalTopClause (regexMatch : String → String → Bool) (o : ApplicationOffer) :
    TopClause → Bool
  | TopClause.usersElemMatchIn users min =>
    o.users.any fun e => users.contains e.user && decide (e.access ≥ min)
  | TopClause.or qs => qs.any (evalFilterQuery regexMatch o)

/-- The conditions on one endpoint collected by `makeApplicationOfferFilterQuery`. -/
def endpointMatch (ep : EndpointFilterAttributes) : List (String × String) :=
  let m : List (String × String) := []
  let m := if ep.interface != "" then m ++ [("interface", ep.interface)] else m
  let m := if ep.name != "" then m ++ [("name", ep.name)] else m
  let m := if ep.role != "" then m ++ [("role", ep.role)] else m
  m

/-- The function `makeApplicationOfferFilterQuery`; `parseUserTag` is `conv.ParseUserTag` (none when
the tag does not parse) and `quoteMeta` is `regexp.QuoteMeta`. -/
def makeApplicationOfferFilterQuery (parseUserTag : String → Option User)
    (quoteMeta : String → String) (filter : OfferFilter) : FilterQuery :=
  let query : FilterQuery := []
  let query :=
    if filter.ownerName != "" then query ++ [Clause.cond (Cond.eq "owner-name" filter.ownerName)]
    else query
  let query :=
    if filter.modelName != "" then query ++ [Clause.cond (Cond.eq "model-name" filter.modelName)]
    else query
  let query :=
    if filter.applicationName != "" then
      query ++ [Clause.cond (Cond.eq "application-name" filter.applicationName)]
    else query
  let query :=
    if filter.offerName != "" then
      query ++ [Clause.cond (Cond.regex "offer-name" (".*" ++ filter.offerName ++ ".*"))]
    else query
  let query :=
    if filter.applicationDescription != "" then
      query ++ [Clause.cond (Cond.regex "application-description"
        (".*" ++ quoteMeta filter.applicationDescription ++ ".*"))]
    else query
  let query :=
    if filter.endpoints.length > 0 then
      let endpoints := filter.endpoints.filterMap fun ep =>
        if (endpointMatch ep).length == 0 then none
        else some (Cond.endpointsElemMatch (endpointMatch ep))
      match endpoints with
      | [] => query
      | [c] => query ++ [Clause.cond c]
      | cs => query ++ [Clause.or cs]
    else query
  let query :=
    if filter.allowedConsumerTags.length > 0 then
      let users := filter.allowedConsumerTags.map fun userTag =>
        match parseUserTag userTag with
        | none => Cond.usersNoSuchField
        | some user => Cond.usersElemMatch user ApplicationOfferConsumeAccess
      match users with
      | [] => query
      | [c] => query ++ [Clause.cond c]
      | cs => query ++ [Clause.or cs]
    else query
  query

/-- The query document built by `IterApplicationOffers`. -/
def iterApplicationOffersQuery (parseUserTag : String → Option User)
    (quoteMeta : String → String) (user : User) (access : ApplicationOfferAccessPermission)
    (filters : List OfferFilter) : List TopClause :=
  let q : List TopClause := [TopClause.usersElemMatchIn [user, Everyone] access]
  let filterQueries := filters.map (makeApplicationOfferFilterQuery parseUserTag quoteMeta)
  if filterQueries.length > 0 then q ++ [TopClause.or filterQueries] else q

/-- The method `Database.IterApplicationOffers`: the documents the returned iterator yields. -/
def IterApplicationOffers (regexMatch : String → String → Bool)
    (parseUserTag : String → Option User) (quoteMeta : String → String)
    (user : User) (access : ApplicationOfferAccessPermission) (filters : List OfferFilter)
    (db : List ApplicationOffer) : List ApplicationOffer :=
  db.filter fun o =>
    (iterApplicationOffersQuery parseUserTag quoteMeta user access filters).all
      (evalTopClause regexMatch o)

/-- The offer matches the filter: it satisfies the query document built for it. -/
def matchesFilter (regexMatch : String → String → Bool) (parseUserTag : String → Option User)
    (quoteMeta : String → String) (f : OfferFilter) (o : ApplicationOffer) : Prop :=
  evalFilterQuery regexMatch o (makeApplicationOfferFilterQuery parseUserTag quoteMeta f) = true

/-- The property C6 claims: the query selects exactly the stored offers to which the
user has at least the given access and that match one of the filters, if there is any. -/
def SelectsByAccessAndFilters (regexMatch : String → String → Bool)
    (parseUserTag : String → Option User) (quoteMeta : String → String)
    (user : User) (access : ApplicationOfferAccessPermission) (filters : List OfferFilter)
    (db : List ApplicationOffer) : Prop :=
  ∀ o, o ∈ IterApplicationOffers regexMatch parseUserTag quoteMeta user access filters db ↔
    o ∈ db ∧ access ≤ getApplicationOfferAccess user o ∧
      (filters = [] ∨ ∃ f ∈ filters, matchesFilter regexMatch parseUserTag quoteMeta f o)

/-- A filter on the model name alone. -/
def modelFilter (model : String) : OfferFilter :=
  { ownerName := "", modelName := model, offerName := "", applicationName := "",
    applicationDescription := "", applicationUser := "", endpoints := [],
    allowedConsumerTags := [] }

/-! ## Machines and applications -/

/-- The type `jujuparams.MachineInfo`: the fields the store reads, and `status` for the
rest of the info blob. -/
structure MachineInfo where
  modelUUID : String
  id : String
  life : String
  status : String
  deriving DecidableEq, Repr

/-- The document `mongodoc.Machine`; `id` is its `_id`. -/
structure Machine where
  id : String
  controller : String
  cloud : String
  region : String
  info : MachineInfo
  deriving DecidableEq, Repr

/-- The type `jujuparams.ApplicationInfo`: the fields the store reads, and `status` for
the rest of the info blob. -/
structure ApplicationInfo where
  modelUUID : String
  name : String
  life : String
  status : String
  deriving DecidableEq, Repr

/-- The document `mongodoc.Application`; `id` is its `_id`. -/
structure Application where
  id : String
  controller : String
  cloud : String
  region : String
  info : ApplicationInfo
  deriving DecidableEq, Repr

/-- The composite id `<controller> <modelUUID> <id>` assigned by `UpdateMachineInfo`. -/
def machineId (m : Machine) : String :=
  m.controller ++ " " ++ m.info.modelUUID ++ " " ++ m.info.id

/-- The composite id `<controller> <modelUUID> <name>` assigned by `UpdateApplicationInfo`. -/
def applicationId (app : Application) : String :=
  app.controller ++ " " ++ app.info.modelUUID ++ " " ++ app.info.name

/-- The method `Database.UpdateMachineInfo`. -/
def UpdateMachineInfo (m : Machine) (db : List Machine) : Except ErrorCode (List Machine) :=
  let id := machineId m
  if m.info.life == "dead" then
    match RemoveId Machine.id id db with
    | .error e => if e = MgoError.ErrNotFound then .ok db else .error ErrorCode.ErrOther
    | .ok db2 => .ok db2
  else
    match UpsertId Machine.id id
        (fun d => { d with info := m.info, controller := m.controller, cloud := m.cloud,
                           region := m.region })
        { id := id, info := m.info, controller := m.controller, cloud := m.cloud,
          region := m.region } db with
    | .error _ => .error ErrorCode.ErrOther
    | .ok db2 => .ok db2

/-- The method `Database.MachinesForModel`: the documents with `info.modeluuid` equal to the given
UUID, sorted by `_id`. -/
def MachinesForModel (modelUUID : String) (db : List Machine) : Except ErrorCode (List Machine) :=
  .ok ((db.filter fun d => d.info.modelUUID == modelUUID).insertionSort fun a b => a.id ≤ b.id)

/-- The method `Database.UpdateApplicationInfo`. -/
def UpdateApplicationInfo (app : Application) (db : List Application) :
    Except ErrorCode (List Application) :=
  let id := applicationId app
  if app.info.life == "dead" then
    match RemoveId Application.id id db with
    | .error e => if e = MgoError.ErrNotFound then .ok db else .error ErrorCode.ErrOther
    | .ok db2 => .ok db2
  else
    match UpsertId Application.id id
        (fun d => { d with info := app.info, controller := app.controller, cloud := app.cloud,
                           region := app.region })
        { id := id, info := app.info, controller := app.controller, cloud := app.cloud,
          region := app.region } db with
    | .error _ => .error ErrorCode.ErrOther
    | .ok db2 => .ok db2

/-- The method `Database.ApplicationsForModel`: the documents with `info.modeluuid` equal to the given
UUID, sorted by `_id`. -/
def ApplicationsForModel (modelUUID : String) (db : List Application) :
    Except ErrorCode (List Application) :=
  .ok ((db.filter fun d => d.info.modelUUID == modelUUID).insertionSort fun a b => a.id ≤ b.id)

/-- The rule of C7 for machines: the update succeeds, keeps the ids of the collection
distinct, and `MachinesForModel` then holds a record with the composite id exactly when
the machine is not dead; that record is then the only one with this id and carries the id,
info, controller, cloud and region of the update. -/
def MachineUpdateRule (m : Machine) (db : List Machine) : Prop :=
  ∃ db2 docs, UpdateMachineInfo m db = .ok db2 ∧ UniqueIds Machine.id db2 ∧
    MachinesForModel m.info.modelUUID db2 = .ok docs ∧
    ((∃ d ∈ docs, d.id = machineId m) ↔ m.info.life ≠ "dead") ∧
    (m.info.life ≠ "dead" →
      docs.filter (fun d => d.id == machineId m) =
        [{ id := machineId m, info := m.info, controller := m.controller, cloud := m.cloud,
           region := m.region }]) ∧
    ((m.info.life = "dead" ∧ ¬ ∃ d ∈ db, d.id = machineId m) → db2 = db)

/-- The rule of C7 for applications. -/
def ApplicationUpdateRule (app : Application) (db : List Application) : Prop :=
  ∃ db2 docs, UpdateApplicationInfo app db = .ok db2 ∧ UniqueIds Application.id db2 ∧
    ApplicationsForModel app.info.modelUUID db2 = .ok docs ∧
    ((∃ d ∈ docs, d.id = applicationId app) ↔ app.info.life ≠ "dead") ∧
    (app.info.life ≠ "dead" →
      docs.filter (fun d => d.id == applicationId app) =
        [{ id := applicationId app, info := app.info, controller := app.controller,
           cloud := app.cloud, region := app.region }]) ∧
    ((app.info.life = "dead" ∧ ¬ ∃ d ∈ db, d.id = applicationId app) → db2 = db)

/-- A machine delta of controller bob/c1. -/
def sampleMachine (life : String) : Machine :=
  { id := "", controller := "bob/c1", cloud := "dummy", region := "dummy-region",
    info := { modelUUID := "uuid-1", id := "0", life := life, status := "started" } }

/-- An application delta of controller bob/c1. -/
def sampleApplication (life : String) : Application :=
  { id := "", controller := "bob/c1", cloud := "dummy", region := "dummy-region",
    info := { modelUUID := "uuid-1", name := "wordpress", life := life, status := "active" } }

/-- The stored form of `sampleMachine "alive"`. -/
def storedMachine : Machine :=
  { sampleMachine "alive" with id := "bob/c1 uuid-1 0" }

/-- The stored form of `sampleApplication "alive"`. -/
def storedApplication : Application :=
  { sampleApplication "alive" with id := "bob/c1 uuid-1 wordpress" }

/-! ## Read ACLs -/

/-- The type `params.EntityPath`. -/
structure EntityPath where
  user : User
  name : String
  deriving DecidableEq, Repr

/-- The method `EntityPath.String`: the path rendered as `<user>/<name>`, the `_id` of its document. -/
def EntityPath.String (p : EntityPath) : String :=
  p.user ++ "/" ++ p.name

/-- The type `params.ACL`. -/
structure ACL where
  read : List String
  write : List String
  admin : List String
  deriving DecidableEq, Repr

/-- The zero value of `params.ACL`. -/
def ACL.zero : ACL :=
  { read := [], write := [], admin := [] }

/-- A document of a collection of entities, as `GetACL` reads it: its `_id` and its ACL. -/
structure ACLDoc where
  id : String
  acl : ACL
  deriving DecidableEq, Repr

/-- The checks of package `auth` that `CheckReadACL` calls; the package is not among the
sources, so both are taken as given.  `CheckIsUser id user` succeeds when the identity can
act as `user`; `CheckACL id acl` succeeds when the identity is allowed by the list `acl`. -/
structure Auth (Identity : Type) where
  CheckIsUser : Identity → User → Except ErrorCode Unit
  CheckACL : Identity → List String → Except ErrorCode Unit

/-- The cause `errgo.Cause(err)` of the error of a result; `none` for a nil error. -/
def cause {α : Type} : Except ErrorCode α → Option ErrorCode
  | .ok _ => none
  | .error e => some e

/-- The method `Database.GetACL`: the ACL of the document at `path`, or an error with the cause
`ErrNotFound`. -/
def GetACL (coll : List ACLDoc) (path : EntityPath) : Except ErrorCode ACL :=
  match FindId ACLDoc.id path.String coll with
  | none => .error ErrorCode.ErrNotFound
  | some doc => .ok doc.acl

/-- The method `Database.CheckReadACL`. -/
def CheckReadACL {Identity : Type} (auth : Auth Identity) (id : Identity)
    (c : List ACLDoc) (path : EntityPath) : Except ErrorCode Unit :=
  match auth.CheckIsUser id path.user with
  | .ok _ => .ok ()
  | .error _ =>
    let r := GetACL c path
    if cause r = some ErrorCode.ErrNotFound then .error ErrorCode.ErrUnauthorized
    else
      let acl := match r with
        | .ok a => a
        | .error _ => ACL.zero
      match auth.CheckACL id acl.read with
      | .error e =>
        if e = ErrorCode.ErrUnauthorized then .error ErrorCode.ErrUnauthorized
        else .error ErrorCode.ErrOther
      | .ok _ => .ok ()

/-- An identity checker for the examples: the identity is a user name, it can act as
itself only, and a list allows it when it holds the name or "everyone". -/
def nameAuth : Auth String :=
  { CheckIsUser := fun id user =>
      if id = user then .ok () else .error ErrorCode.ErrUnauthorized
    CheckACL := fun id acl =>
      if acl.contains id || acl.contains Everyone then .ok ()
      else .error ErrorCode.ErrUnauthorized }

/-- A collection with one entity of bob that alice may read. -/
def sampleEntities : List ACLDoc :=
  [{ id := "bob/m1", acl := { read := ["alice"], write := [], admin := [] } }]

/-! ## The in-memory JEM shim: monitor lease -/

/-- The type `time.Time`: the instant, in nanoseconds since the zero time, and the
location the time is presented in. -/
structure Time where
  instant : Int
  loc : String
  deriving DecidableEq, Repr

/-- The zero value of `time.Time`. -/
def Time.zero : Time :=
  { instant := 0, loc := "UTC" }

/-- The method `Time.UTC`: the same instant, presented in UTC. -/
def Time.UTC (t : Time) : Time :=
  { t with loc := "UTC" }

/-- The method `Time.Equal`: whether the two times are the same instant. -/
def Time.Equal (t u : Time) : Bool :=
  t.instant == u.instant

/-- The method `Time.IsZero`: whether the time is the zero instant. -/
def Time.IsZero (t : Time) : Bool :=
  t.instant == 0

/-- The fields of `mongodoc.Controller` that the shim reads and writes. -/
structure Controller where
  path : EntityPath
  unavailableSince : Time
  monitorLeaseOwner : String
  monitorLeaseExpiry : Time
  deriving DecidableEq, Repr

/-- The state of `jemShimInMemory`: the map from controller path to controller. -/
structure jemShimInMemory where
  controllers : EntityPath → Option Controller

/-- The method `jemShimInMemory.AcquireMonitorLease`; `mongodocTime` is the conversion
`mongodoc.Time`.  Returns the new state and the result of the call. -/
def jemShimInMemory.AcquireMonitorLease (mongodocTime : Time → Time) (s : jemShimInMemory)
    (ctlPath : EntityPath) (oldExpiry : Time) (oldOwner : String) (newExpiry : Time)
    (newOwner : String) : jemShimInMemory × Except ErrorCode Time :=
  match s.controllers ctlPath with
  | none => (s, .error ErrorCode.ErrNotFound)
  | some ctl =>
    if ctl.monitorLeaseOwner != oldOwner ||
        !(ctl.monitorLeaseExpiry.UTC.Equal oldExpiry.UTC) then
      (s, .error ErrorCode.ErrLeaseUnavailable)
    else
      let ctl1 := { ctl with monitorLeaseOwner := newOwner }
      let ctl2 :=
        if newOwner == "" then { ctl1 with monitorLeaseExpiry := Time.zero }
        else { ctl1 with monitorLeaseExpiry := mongodocTime newExpiry }
      ({ s with controllers := fun p => if p = ctlPath then some ctl2 else s.controllers p },
        .ok ctl2.monitorLeaseExpiry)

/-- The stored lease of a controller: its owner and its expiry. -/
def jemShimInMemory.lease (s : jemShimInMemory) (ctlPath : EntityPath) :
    Option (String × Time) :=
  (s.controllers ctlPath).map fun ctl => (ctl.monitorLeaseOwner, ctl.monitorLeaseExpiry)

/-- A shim holding the controller bob/c1, whose lease is held by `owner` until `expiry`. -/
def shimWithLease (owner : String) (expiry : Time) : jemShimInMemory :=
  { controllers := fun p =>
      if p = { user := "bob", name := "c1" } then
        some { path := { user := "bob", name := "c1" }, unavailableSince := Time.zero,
               monitorLeaseOwner := owner, monitorLeaseExpiry := expiry }
      else none }

/-- One `AcquireMonitorLease` call: its arguments. -/
structure LeaseCall where
  ctlPath : EntityPath
  oldExpiry : Time
  oldOwner : String
  newExpiry : Time
  newOwner : String
  deriving DecidableEq, Repr

/-- Make one `AcquireMonitorLease` call on the shim. -/
def jemShimInMemory.acquire (mongodocTime : Time → Time) (s : jemShimInMemory)
    (c : LeaseCall) : jemShimInMemory × Except ErrorCode Time :=
  s.AcquireMonitorLease mongodocTime c.ctlPath c.oldExpiry c.oldOwner c.newExpiry c.newOwner

/-- The state of the shim after a sequence of `AcquireMonitorLease` calls. -/
def runLeaseCalls (mongodocTime : Time → Time) :
    jemShimInMemory → List LeaseCall → jemShimInMemory
  | s, [] => s
  | s, c :: cs => runLeaseCalls mongodocTime (s.acquire mongodocTime c).1 cs

/-- No call of the sequence that is made on controller `p` with oldOwner = `owner`
succeeds, when the calls are made in order from the state `s`. -/
def NoCallByOwnerSucceeds (mongodocTime : Time → Time) (p : EntityPath) (owner : String) :
    jemShimInMemory → List LeaseCall → Prop
  | _, [] => True
  | s, c :: cs =>
    (c.ctlPath = p → c.oldOwner = owner → cause (s.acquire mongodocTime c).2 ≠ none) ∧
      NoCallByOwnerSucceeds mongodocTime p owner (s.acquire mongodocTime c).1 cs

/-- The lease owner stored for a controller, if the controller exists. -/
def jemShimInMemory.leaseOwner (s : jemShimInMemory) (ctlPath : EntityPath) : Option String :=
  (s.controllers ctlPath).map fun ctl => ctl.monitorLeaseOwner

/-- The method `jemShimInMemory.SetControllerAvailable`. -/
def jemShimInMemory.SetControllerAvailable (s : jemShimInMemory) (ctlPath : EntityPath) :
    jemShimInMemory × Except ErrorCode Unit :=
  match s.controllers ctlPath with
  | some ctl =>
    ({ s with controllers := fun p =>
        if p = ctlPath then some { ctl with unavailableSince := Time.zero }
        else s.controllers p }, .ok ())
  | none => (s, .ok ())

/-- The method `jemShimInMemory.SetControllerUnavailableAt`; `mongodocTime` is the
conversion `mongodoc.Time`. -/
def jemShimInMemory.SetControllerUnavailableAt (mongodocTime : Time → Time)
    (s : jemShimInMemory) (ctlPath : EntityPath) (t : Time) :
    jemShimInMemory × Except ErrorCode Unit :=
  match s.controllers ctlPath with
  | some ctl =>
    if ctl.unavailableSince.IsZero then
      ({ s with controllers := fun p =>
          if p = ctlPath then some { ctl with unavailableSince := mongodocTime t }
          else s.controllers p }, .ok ())
    else (s, .ok ())
  | none => (s, .ok ())

/-- The state after a sequence of `SetControllerUnavailableAt` calls on one controller,
with no other call in between. -/
def setUnavailableSeq (mongodocTime : Time → Time) (ctlPath : EntityPath) :
    jemShimInMemory → List Time → jemShimInMemory
  | s, [] => s
  | s, t :: ts =>
    setUnavailableSeq mongodocTime ctlPath (s.SetControllerUnavailableAt mongodocTime ctlPath t).1 ts

/-- The time since which a controller is unavailable, if the controller exists. -/
def jemShimInMemory.unavailableSince (s : jemShimInMemory) (ctlPath : EntityPath) :
    Option Time :=
  (s.controllers ctlPath).map fun ctl => ctl.unavailableSince

/-- A shim holding the controller bob/c1, unavailable since `since`. -/
def shimUnavailableSince (since : Time) : jemShimInMemory :=
  { controllers := fun p =>
      if p = { user := "bob", name := "c1" } then
        some { path := { user := "bob", name := "c1" }, unavailableSince := since,
               monitorLeaseOwner := "", monitorLeaseExpiry := Time.zero }
      else none }

/-- The call by which jimm-1 takes the free lease of bob/c1. -/
def jimm1Acquires : LeaseCall :=
  { ctlPath := { user := "bob", name := "c1" }, oldExpiry := Time.zero, oldOwner := "",
    newExpiry := { instant := 9000, loc := "UTC" }, newOwner := "jimm-1" }

/-- A renewal by jimm-1 that names an expiry which is not the stored one. -/
def jimm1StaleRenewal : LeaseCall :=
  { ctlPath := { user := "bob", name := "c1" }, oldExpiry := { instant := 5000, loc := "UTC" },
    oldOwner := "jimm-1", newExpiry := { instant := 12000, loc := "UTC" }, newOwner := "jimm-1" }

/-- The call by which jimm-2 tries to take the lease of bob/c1 as if it were free. -/
def jimm2Acquires : LeaseCall :=
  { ctlPath := { user := "bob", name := "c1" }, oldExpiry := Time.zero, oldOwner := "",
    newExpiry := { instant := 9500, loc := "UTC" }, newOwner := "jimm-2" }

/-! ## More mgo operations -/

/-- The mgo call `Collection.UpdateId(id, update)`: applies the update to the document
whose `_id` is `id`, and fails with `ErrNotFound` when there is none. -/
def UpdateId {α : Type} (idOf : α → String) (id : String) (upd : α → α) (c : List α) :
    Except MgoError (List α) :=
  if c.any (fun d => idOf d == id) then .ok (updateFirst (fun d => idOf d == id) upd c)
  else .error MgoError.ErrNotFound

/-- The mgo call `Collection.Insert(doc)` on a collection with the given unique indexes
(each the list of the values of its key fields): fails with a duplicate-key error when a
stored document has the `_id` of `doc` or agrees with it on a unique index. -/
def Insert {α : Type} (idOf : α → String) (uniqueIndexes : List (α → List String)) (doc : α)
    (c : List α) : Except MgoError (List α) :=
  if c.any (fun d => idOf d == idOf doc || uniqueIndexes.any fun key => key d == key doc) then
    .error MgoError.Dup
  else .ok (c ++ [doc])

/-- The mgo call `Collection.RemoveAll(selector)`: removes every matching document. -/
def RemoveAll {α : Type} (sel : α → Bool) (c : List α) : Except MgoError (List α) :=
  .ok (c.filter fun d => !sel d)

/-- The array modifier `$addToSet`: appends the value unless the array holds it. -/
def addToSet {β : Type} [DecidableEq β] (x : β) (l : List β) : List β :=
  if x ∈ l then l else l ++ [x]

/-- The array modifier `$pull`: removes every element equal to the value. -/
def pull {β : Type} [DecidableEq β] (x : β) (l : List β) : List β :=
  l.filter fun y => y != x

/-! ## Credentials -/

/-- The type `mongodoc.CredentialPath`: a cloud and the entity path (user, name). -/
structure CredentialPath where
  cloud : String
  user : User
  name : String
  deriving DecidableEq, Repr

/-- Modelled from the spec: `CredentialPath.String` is declared in package `mongodoc`,
which is not among the sources; a path is rendered with `/` between its parts, here
`<cloud>/<user>/<name>`. -/
def CredentialPath.String (p : CredentialPath) : String :=
  p.cloud ++ "/" ++ p.user ++ "/" ++ p.name

/-- The document `mongodoc.Credential`; `id` is its `_id`. -/
structure Credential where
  id : String
  path : CredentialPath
  type : String
  label : String
  attributes : List (String × String)
  controllers : List EntityPath
  acl : ACL
  revoked : Bool
  attributesInVault : Bool
  deriving DecidableEq, Repr

/-- The method `Database.UpdateCredential`: an upsert by the id `cred.Path.String()` that
sets type, label, attributes, revoked and attributesinvault, sets acl only when the read
list of the ACL is not empty, and sets path only on insert. -/
def UpdateCredential (cred : Credential) (db : List Credential) :
    Except ErrorCode (List Credential) :=
  let id := cred.path.String
  match UpsertId Credential.id id
      (fun d =>
        let d1 := { d with type := cred.type, label := cred.label,
                           attributes := cred.attributes, revoked := cred.revoked,
                           attributesInVault := cred.attributesInVault }
        if cred.acl.read.length > 0 then { d1 with acl := cred.acl } else d1)
      { id := id, path := cred.path, type := cred.type, label := cred.label,
        attributes := cred.attributes, controllers := [],
        acl := if cred.acl.read.length > 0 then cred.acl else ACL.zero,
        revoked := cred.revoked, attributesInVault := cred.attributesInVault } db with
  | .error _ => .error ErrorCode.ErrOther
  | .ok db2 => .ok db2

/-- The method `Database.GetCredential`: the credential stored under the id
`cred.Path.String()`, or an error with the cause `ErrNotFound`. -/
def GetCredential (cred : Credential) (db : List Credential) : Except ErrorCode Credential :=
  match FindId Credential.id cred.path.String db with
  | none => .error ErrorCode.ErrNotFound
  | some d => .ok d

/-- The method `Database.CredentialsRemoveController`. -/
def CredentialsRemoveController (controller : EntityPath) (db : List Credential) :
    Except ErrorCode (List Credential) :=
  match UpdateAll (fun _ => true)
      (fun d => { d with controllers := pull controller d.controllers }) db with
  | .error _ => .error ErrorCode.ErrOther
  | .ok db2 => .ok db2

/-- The property C13 claims: the update succeeds and `GetCredential` on the path of `c`
then returns a credential equal to `c` in path, type, label, attributes, revoked flag,
attributes-in-vault flag and ACL. -/
def CredentialRoundTrip (c : Credential) (db : List Credential) : Prop :=
  ∃ db2 r, UpdateCredential c db = .ok db2 ∧ GetCredential c db2 = .ok r ∧
    r.path = c.path ∧ r.type = c.type ∧ r.label = c.label ∧ r.attributes = c.attributes ∧
    r.revoked = c.revoked ∧ r.attributesInVault = c.attributesInVault ∧ r.acl = c.acl

/-- A credential of bob on the cloud dummy with the given ACL. -/
def sampleCredential (label : String) (acl : ACL) : Credential :=
  { id := "dummy/bob/cred1", path := { cloud := "dummy", user := "bob", name := "cred1" },
    type := "userpass", label := label, attributes := [("username", "bob")],
    controllers := [], acl := acl, revoked := false, attributesInVault := false }

/-! ## Cloud regions -/

/-- The document `mongodoc.CloudRegion`; `id` is its `_id`. -/
structure CloudRegion where
  id : String
  cloud : String
  region : String
  providerType : String
  authTypes : List String
  endpoint : String
  identityEndpoint : String
  storageEndpoint : String
  caCertificates : List String
  acl : ACL
  primaryControllers : List EntityPath
  secondaryControllers : List EntityPath
  deriving DecidableEq, Repr

/-- The id `<cloud>/<region>` that `InsertCloudRegion` and `UpdateCloudRegions` assign. -/
def cloudRegionId (cloud region : String) : String :=
  cloud ++ "/" ++ region

/-- The method `Database.InsertCloudRegion`. -/
def InsertCloudRegion (cr : CloudRegion) (db : List CloudRegion) :
    Except ErrorCode (List CloudRegion) :=
  match Insert CloudRegion.id [] { cr with id := cloudRegionId cr.cloud cr.region } db with
  | .error e =>
    if e = MgoError.Dup then .error ErrorCode.ErrAlreadyExists else .error ErrorCode.ErrOther
  | .ok db2 => .ok db2

/-- The method `Database.DeleteControllerFromCloudRegions`. -/
def DeleteControllerFromCloudRegions (ctlPath : EntityPath) (db : List CloudRegion) :
    Except ErrorCode (List CloudRegion) :=
  match UpdateAll (fun _ => true)
      (fun d => { d with primaryControllers := pull ctlPath d.primaryControllers,
                         secondaryControllers := pull ctlPath d.secondaryControllers }) db with
  | .error _ => .error ErrorCode.ErrOther
  | .ok db2 => .ok db2

/-- Apply an array modifier to the ACL lists named by the update document. -/
def updateACLFields (fields : List String) (f : List String → List String) (acl : ACL) : ACL :=
  { read := if fields.contains "acl.read" then f acl.read else acl.read
    write := if fields.contains "acl.write" then f acl.write else acl.write
    admin := if fields.contains "acl.admin" then f acl.admin else acl.admin }

/-- The switch of `GrantCloud`: the ACL fields the access level adds the user to, or none
for a level that is not valid. -/
def grantCloudFields (access : String) : Option (List String) :=
  if access = "admin" then some ["acl.admin", "acl.write", "acl.read"]
  else if access = "add-model" then some ["acl.read"]
  else none

/-- The switch of `RevokeCloud`: the ACL fields the access level removes the user from, or
none for a level that is not valid. -/
def revokeCloudFields (access : String) : Option (List String) :=
  if access = "add-model" then some ["acl.read", "acl.admin", "acl.write"]
  else if access = "admin" then some ["acl.admin", "acl.write"]
  else none

/-- The method `Database.GrantCloud`; an access level that is not valid yields an error
made by `errgo.Newf`, which carries no error code. -/
def GrantCloud (cloud : String) (user : User) (access : String) (db : List CloudRegion) :
    Except ErrorCode (List CloudRegion) :=
  match grantCloudFields access with
  | none => .error ErrorCode.ErrOther
  | some aclUpdates =>
    match UpdateAll (fun d => d.cloud == cloud)
        (fun d => { d with acl := updateACLFields aclUpdates (addToSet user) d.acl }) db with
    | .error _ => .error ErrorCode.ErrOther
    | .ok db2 => .ok db2

/-- The method `Database.RevokeCloud`; an access level that is not valid yields an error
made by `errgo.Newf`, which carries no error code. -/
def RevokeCloud (cloud : String) (user : User) (access : String) (db : List CloudRegion) :
    Except ErrorCode (List CloudRegion) :=
  match revokeCloudFields access with
  | none => .error ErrorCode.ErrOther
  | some aclUpdates =>
    match UpdateAll (fun d => d.cloud == cloud)
        (fun d => { d with acl := updateACLFields aclUpdates (pull user) d.acl }) db with
    | .error _ => .error ErrorCode.ErrOther
    | .ok db2 => .ok db2

/-- A cloud-region record of the cloud dummy. -/
def sampleCloudRegion (region : String) (acl : ACL) : CloudRegion :=
  { id := cloudRegionId "dummy" region, cloud := "dummy", region := region,
    providerType := "dummy", authTypes := ["empty"], endpoint := "", identityEndpoint := "",
    storageEndpoint := "", caCertificates := [], acl := acl,
    primaryControllers := [{ user := "bob", name := "c1" }],
    secondaryControllers := [{ user := "bob", name := "c2" }, { user := "bob", name := "c1" }] }

/-! ## Models, controllers and ACL updates -/

/-- The document `mongodoc.Model`; `id` is its `_id`, the string of its path. -/
structure Model where
  id : String
  path : EntityPath
  uuid : String
  controller : EntityPath
  life : String
  unitCount : Int
  deriving DecidableEq, Repr

/-- The fields of the stored document `mongodoc.Controller` that the credential-update
operations read and write; `id` is its `_id`, the string of its path. -/
structure ControllerDoc where
  id : String
  path : EntityPath
  uuid : String
  updateCredentials : List CredentialPath
  deriving DecidableEq, Repr

/-- The method `Database.SetModelController`. -/
def SetModelController (model : EntityPath) (newController : EntityPath) (db : List Model) :
    Except ErrorCode (List Model) :=
  match UpdateId Model.id model.String (fun d => { d with controller := newController }) db with
  | .error e =>
    if e = MgoError.ErrNotFound then .error ErrorCode.ErrNotFound else .error ErrorCode.ErrOther
  | .ok db2 => .ok db2

/-- The method `Database.SetCredentialUpdates`. -/
def SetCredentialUpdates (ctlPaths : List EntityPath) (credPath : CredentialPath)
    (db : List ControllerDoc) : Except ErrorCode (List ControllerDoc) :=
  match UpdateAll (fun d => ctlPaths.contains d.path)
      (fun d => { d with updateCredentials := addToSet credPath d.updateCredentials }) db with
  | .error _ => .error ErrorCode.ErrOther
  | .ok db2 => .ok db2

/-- The method `Database.ClearCredentialUpdate`. -/
def ClearCredentialUpdate (ctlPath : EntityPath) (credPath : CredentialPath)
    (db : List ControllerDoc) : Except ErrorCode (List ControllerDoc) :=
  match UpdateId ControllerDoc.id ctlPath.String
      (fun d => { d with updateCredentials := pull credPath d.updateCredentials }) db with
  | .error e =>
    if e = MgoError.ErrNotFound then .error ErrorCode.ErrNotFound else .error ErrorCode.ErrOther
  | .ok db2 => .ok db2

/-- The method `Database.SetACL`. -/
def SetACL (c : List ACLDoc) (path : EntityPath) (acl : ACL) : Except ErrorCode (List ACLDoc) :=
  match UpdateId ACLDoc.id path.String (fun d => { d with acl := acl }) c with
  | .error e =>
    if e = MgoError.ErrNotFound then .error ErrorCode.ErrNotFound else .error ErrorCode.ErrOther
  | .ok c2 => .ok c2

/-- The method `Database.Grant`. -/
def Grant (c : List ACLDoc) (path : EntityPath) (user : User) : Except ErrorCode (List ACLDoc) :=
  match UpdateId ACLDoc.id path.String
      (fun d => { d with acl := { d.acl with read := addToSet user d.acl.read } }) c with
  | .error e =>
    if e = MgoError.ErrNotFound then .error ErrorCode.ErrNotFound else .error ErrorCode.ErrOther
  | .ok c2 => .ok c2

/-- The method `Database.Revoke`. -/
def Revoke (c : List ACLDoc) (path : EntityPath) (user : User) : Except ErrorCode (List ACLDoc) :=
  match UpdateId ACLDoc.id path.String
      (fun d => { d with acl := { d.acl with read := pull user d.acl.read } }) c with
  | .error e =>
    if e = MgoError.ErrNotFound then .error ErrorCode.ErrNotFound else .error ErrorCode.ErrOther
  | .ok c2 => .ok c2

/-! ## Adding, updating and removing records -/

/-- The unique indexes that `EnsureIndexes` declares on the application offers: one on
`offer-url`, one on (`owner-name`, `model-name`, `offer-name`). -/
def applicationOfferUniqueIndexes : List (ApplicationOffer → List String) :=
  [fun o => [o.offerURL], fun o => [o.ownerName, o.modelName, o.offerName]]

/-- The method `Database.AddApplicationOffer`. -/
def AddApplicationOffer (offer : ApplicationOffer) (db : List ApplicationOffer) :
    Except ErrorCode (List ApplicationOffer) :=
  match Insert ApplicationOffer.offerUUID applicationOfferUniqueIndexes offer db with
  | .error e =>
    if e = MgoError.Dup then .error ErrorCode.ErrAlreadyExists else .error ErrorCode.ErrOther
  | .ok db2 => .ok db2

/-- The method `Database.UpdateApplicationOffer`. -/
def UpdateApplicationOffer (offer : ApplicationOffer) (db : List ApplicationOffer) :
    Except ErrorCode (List ApplicationOffer) :=
  match UpdateId ApplicationOffer.offerUUID offer.offerUUID
      (fun d => { d with offerURL := offer.offerURL, offerName := offer.offerName,
                         ownerName := offer.ownerName,
                         applicationName := offer.applicationName,
                         applicationDescription := offer.applicationDescription,
                         endpoints := offer.endpoints, spaces := offer.spaces,
                         bindings := offer.bindings, users := offer.users,
                         charmURL := offer.charmURL, connections := offer.connections,
                         modelName := offer.modelName }) db with
  | .error e =>
    if e = MgoError.ErrNotFound then .error ErrorCode.ErrNotFound else .error ErrorCode.ErrOther
  | .ok db2 => .ok db2

/-- The method `Database.RemoveControllerMachines`. -/
def RemoveControllerMachines (ctlPath : EntityPath) (db : List Machine) :
    Except ErrorCode (List Machine) :=
  match RemoveAll (fun d => d.controller == ctlPath.String) db with
  | .error _ => .error ErrorCode.ErrOther
  | .ok db2 => .ok db2

/-- The method `Database.RemoveControllerApplications`. -/
def RemoveControllerApplications (ctlPath : EntityPath) (db : List Application) :
    Except ErrorCode (List Application) :=
  match RemoveAll (fun d => d.controller == ctlPath.String) db with
  | .error _ => .error ErrorCode.ErrOther
  | .ok db2 => .ok db2

/-- The catalog collections that the removal of a controller touches. -/
structure Catalog where
  credentials : List Credential
  cloudRegions : List CloudRegion
  machines : List Machine
  applications : List Application
  deriving DecidableEq, Repr

/-- The four clean-up calls made for a removed controller, in the order of C18; the first
error ends the sequence. -/
def removeControllerCascade (c : EntityPath) (cat : Catalog) : Except ErrorCode Catalog :=
  match CredentialsRemoveController c cat.credentials with
  | .error e => .error e
  | .ok creds =>
    match DeleteControllerFromCloudRegions c cat.cloudRegions with
    | .error e => .error e
    | .ok regions =>
      match RemoveControllerMachines c cat.machines with
      | .error e => .error e
      | .ok machines =>
        match RemoveControllerApplications c cat.applications with
        | .error e => .error e
        | .ok applications =>
          .ok { credentials := creds, cloudRegions := regions, machines := machines,
                applications := applications }

/-- A stored controller with the given credentials waiting to be pushed. -/
def sampleController (name : String) (updates : List CredentialPath) : ControllerDoc :=
  { id := "bob/" ++ name, path := { user := "bob", name := name }, uuid := "uuid-" ++ name,
    updateCredentials := updates }

/-- An offer with the given UUID, URL and name in the model bob/m1. -/
def namedOffer (uuid url name : String) : ApplicationOffer :=
  { ApplicationOffer.zero with offerUUID := uuid, offerURL := url, ownerName := "bob",
                               modelName := "m1", offerName := name }

/-- The collection that is stored after a call: the new collection when the call
succeeded, the collection as it was when the call returned an error. -/
def storedAfter {α : Type} (r : Except ErrorCode (List α)) (db : List α) : List α :=
  match r with
  | .ok db2 => db2
  | .error _ => db

/-- No two stored offers share a URL. -/
def UniqueURLs (db : List ApplicationOffer) : Prop :=
  (db.map ApplicationOffer.offerURL).Nodup

instance (db : List ApplicationOffer) : Decidable (UniqueURLs db) := by
  unfold UniqueURLs; infer_instance

/-- The stored offer collides with the new one: same UUID, same URL, or same
(owner, model, offer-name) triple. -/
def OfferCollides (d offer : ApplicationOffer) : Prop :=
  d.offerUUID = offer.offerUUID ∨ d.offerURL = offer.offerURL ∨
    (d.ownerName = offer.ownerName ∧ d.modelName = offer.modelName ∧
      d.offerName = offer.offerName)

instance (d offer : ApplicationOffer) : Decidable (OfferCollides d offer) := by
  unfold OfferCollides; infer_instance

/-- The controller `d2` is `d` with the credential marked exactly once as needing an
update, its other fields and its other marked credentials as in `d`. -/
def MarkedFor (cred : CredentialPath) (d d2 : ControllerDoc) : Prop :=
  d2.id = d.id ∧ d2.path = d.path ∧ d2.uuid = d.uuid ∧
    d2.updateCredentials.count cred = 1 ∧
    d2.updateCredentials.filter (fun x => decide (x ≠ cred)) =
      d.updateCredentials.filter (fun x => decide (x ≠ cred))

/-- The controller `d2` is `d` with the credential no longer marked, its other fields and
its other marked credentials as in `d`. -/
def ClearedOf (cred : CredentialPath) (d d2 : ControllerDoc) : Prop :=
  d2.id = d.id ∧ d2.path = d.path ∧ d2.uuid = d.uuid ∧ cred ∉ d2.updateCredentials ∧
    d2.updateCredentials = d.updateCredentials.filter (fun x => decide (x ≠ cred))

/-! ## OpenFGA tags -/

/-- The library call `strings.Split` for a separator of one character, on the characters
of the string: the pieces between the separators, one more than there are separators. -/
def splitChars (sep : Char) : List Char → List (List Char)
  | [] => [[]]
  | c :: cs =>
    if c = sep then [] :: splitChars sep cs
    else
      match splitChars sep cs with
      | [] => [[c]]
      | tok :: toks => (c :: tok) :: toks

/-- The library call `strings.Split(s, sep)` for a separator of one character. -/
def Split (s : String) (sep : Char) : List String :=
  (splitChars sep s.data).map String.mk

/-- The type `Relation` of package `names`: a string. -/
abbrev Relation := String

/-- The type `Tag` of package `names`. -/
structure Tag where
  kind : String
  id : String
  relation : Relation
  deriving DecidableEq, Repr

/-- The tag kinds that `TagFromString` accepts: `names.UserTagKind`,
`jimmnames.GroupTagKind`, `names.ControllerTagKind`, `names.ModelTagKind`,
`names.ApplicationOfferTagKind` and `names.CloudTagKind`. -/
def tagKinds : List String :=
  ["user", "group", "controller", "model", "applicationoffer", "cloud"]

/-- The function `TagFromString`; an error is the message given to `errors.E`. -/
def TagFromString (t : String) : Except String Tag :=
  let tokens := Split t ':'
  if tokens.length != 2 then .error "unexpected tag format"
  else
    let idTokens := Split (tokens.getD 1 "") '#'
    if tagKinds.contains (tokens.getD 0 "") then
      if idTokens.length == 1 then
        .ok { kind := tokens.getD 0 "", id := tokens.getD 1 "", relation := "" }
      else if idTokens.length == 2 then
        .ok { kind := tokens.getD 0 "", id := idTokens.getD 0 "", relation := idTokens.getD 1 "" }
      else .error "invalid relation specifier"
    else .error "unknown tag kind"

/-- The number of occurrences of a character in a string. -/
def occurrences (c : Char) (s : String) : Nat :=
  s.data.count c

/-- The text of a string before the first occurrence of a character (all of it when the
character does not occur). -/
def textBefore (c : Char) (s : String) : String :=
  String.mk (s.data.takeWhile fun x => decide (x ≠ c))

/-- The text of a string after the first occurrence of a character (empty when the
character does not occur). -/
def textAfter (c : Char) (s : String) : String :=
  String.mk ((s.data.dropWhile fun x => decide (x ≠ c)).drop 1)

/-- The method `Tag.String`. -/
def Tag.String (t : Tag) : String :=
  if t.relation == "" then t.kind ++ ":" ++ t.id
  else t.kind ++ ":" ++ t.id ++ "#" ++ t.relation

/-- The relation constants of package `names`. -/
def MemberRelation : Relation := "member"

def AdministratorRelation : Relation := "administrator"

def ControllerRelation : Relation := "controller"

def ModelRelation : Relation := "model"

def ConsumerRelation : Relation := "consumer"

def ReaderRelation : Relation := "reader"

def WriterRelation : Relation := "writer"

def CanAddModelRelation : Relation := "can_addmodel"

def AuditLogViewerRelation : Relation := "audit_log_viewer"

def NoRelation : Relation := ""

/-- The access levels of the library package `permission` that `ConvertJujuRelation`
compares with, as strings. -/
def AdminAccess : String := "admin"

def ReadAccess : String := "read"

def WriteAccess : String := "write"

def ConsumeAccess : String := "consume"

def AddModelAccess : String := "add-model"

def LoginAccess : String := "login"

def SuperuserAccess : String := "superuser"

/-- The function `ConvertJujuRelation`: the relation returned and the error (`none` for
nil), whose message is the one given to `errors.E`. -/
def ConvertJujuRelation (relation : String) : Relation × Option String :=
  if relation = AdminAccess then (AdministratorRelation, none)
  else if relation = ReadAccess then (ReaderRelation, none)
  else if relation = WriteAccess then (WriterRelation, none)
  else if relation = ConsumeAccess then (ConsumerRelation, none)
  else if relation = AddModelAccess then (CanAddModelRelation, none)
  else if relation = LoginAccess then (NoRelation, some "login access unused")
  else if relation = SuperuserAccess then (NoRelation, some "superuser access unused")
  else (NoRelation, some "unknown relation")

/-- The function `ParseRelation`: the relation returned and the error (`none` for nil). -/
def ParseRelation (relationString : String) : Relation × Option String :=
  if relationString = "" then ("", none)
  else if relationString = MemberRelation then (MemberRelation, none)
  else if relationString = AdministratorRelation then (AdministratorRelation, none)
  else if relationString = ConsumerRelation then (ConsumerRelation, none)
  else if relationString = ReaderRelation then (ReaderRelation, none)
  else if relationString = WriterRelation then (WriterRelation, none)
  else if relationString = CanAddModelRelation then (CanAddModelRelation, none)
  else ("", some "unknown relation")

/-- The relation names that the authorization model lists for some type. -/
def modelRelations : List Relation :=
  [MemberRelation, AdministratorRelation, ControllerRelation, CanAddModelRelation,
    WriterRelation, ReaderRelation, ModelRelation, ConsumerRelation]

/-- The relation names that `ParseRelation` has a case for. -/
def parsedRelations : List Relation :=
  [MemberRelation, AdministratorRelation, ConsumerRelation, ReaderRelation, WriterRelation,
    CanAddModelRelation]

/-- A string ends with the character `c`. -/
def endsWith (c : Char) (s : String) : Prop :=
  s.data.getLast? = some c

instance (c : Char) (s : String) : Decidable (endsWith c s) := by
  unfold endsWith; infer_instance

/-! ## Indexes -/

/-- An index declaration handed to `EnsureIndex`: the collection and the fields `Key` and
`Unique` of `mgo.Index`. -/
structure Index where
  collection : String
  key : List String
  unique : Bool
  deriving DecidableEq, Repr

/-- The index declarations of `Database.EnsureIndexes`, in the order of the source. -/
def EnsureIndexes : List Index :=
  [ { collection := "controllers", key := ["uuid"], unique := false },
    { collection := "machines", key := ["info.uuid"], unique := false },
    { collection := "applications", key := ["info.uuid"], unique := false },
    { collection := "models", key := ["uuid"], unique := true },
    { collection := "models", key := ["credential"], unique := false },
    { collection := "credentials", key := ["path.entitypath.user", "path.cloud"],
      unique := false },
    { collection := "application_offers", key := ["offer-url"], unique := true },
    { collection := "application_offers", key := ["owner-name", "model-name", "offer-name"],
      unique := true },
    { collection := "application_offers", key := ["users.user", "users.access"],
      unique := false } ]

/-- The keys of the indexes that `EnsureIndexes` declares on a collection. -/
def indexKeys (collection : String) : List (List String) :=
  (EnsureIndexes.filter fun i => i.collection == collection).map Index.key

/-- The selector document of the `Find` of `Database.MachinesForModel`. -/
def machinesForModelSelector (modelUUID : String) : List (String × String) :=
  [("info.modeluuid", modelUUID)]

/-- The selector document of the `Find` of `Database.ApplicationsForModel`. -/
def applicationsForModelSelector (modelUUID : String) : List (String × String) :=
  [("info.modeluuid", modelUUID)]

/-- The fields a selector document filters on. -/
def selectorFields (selector : List (String × String)) : List String :=
  selector.map Prod.fst

/-! ## The iterator over readable items -/

/-- An error value as the iterator hands it on: its message and the error code of its
cause (`ErrOther` when the cause carries none). -/
structure IterError where
  message : String
  cause : ErrorCode
  deriving DecidableEq, Repr

/-- The library call `errgo.Mask`: the same error with its cause hidden. -/
def Mask (e : IterError) : IterError :=
  { e with cause := ErrorCode.ErrOther }

/-- The underlying `mgo.Iter`: the results not yet delivered, whether `Close` was called,
and the error that `Err` reports. -/
structure MgoIter (Item : Type) where
  items : List Item
  closed : Bool
  err : Option IterError

/-- The type `CanReadIter` (its `db` is used by `Err` for the session check only). -/
structure CanReadIter (Identity Item : Type) where
  id : Identity
  iter : MgoIter Item
  err : Option IterError
  n : Nat

/-- The method `Database.NewCanReadIter`. -/
def NewCanReadIter {Identity Item : Type} (id : Identity) (iter : MgoIter Item) :
    CanReadIter Identity Item :=
  { id := id, iter := iter, err := none, n := 0 }

/-- The loop of `CanReadIter.Next` over the results that the underlying iterator still
delivers.  `CheckCanRead` is the check of package `auth`, which is not among the sources:
it is taken as given, `none` standing for a nil error. -/
def CanReadIter.scan {Identity Item : Type} (CheckCanRead : Identity → Item → Option IterError)
    (it : CanReadIter Identity Item) : List Item → Option Item × CanReadIter Identity Item
  | [] => (none, { it with iter := { it.iter with items := [] } })
  | item :: rest =>
    match CheckCanRead it.id item with
    | none => (some item, { it with iter := { it.iter with items := rest }, n := it.n + 1 })
    | some err =>
      if err.cause = ErrorCode.ErrUnauthorized then
        CanReadIter.scan CheckCanRead { it with n := it.n + 1 } rest
      else
        (none, { it with iter := { it.iter with items := rest, closed := true },
                         err := some (Mask err), n := it.n + 1 })

/-- The method `CanReadIter.Next`: the item read, or `none` when it returns false, and the
iterator afterwards. -/
def CanReadIter.Next {Identity Item : Type} (CheckCanRead : Identity → Item → Option IterError)
    (it : CanReadIter Identity Item) : Option Item × CanReadIter Identity Item :=
  if it.err.isSome then (none, it)
  else if it.iter.closed then (none, it)
  else it.scan CheckCanRead it.iter.items

/-- The method `CanReadIter.Err`. -/
def CanReadIter.Err {Identity Item : Type} (it : CanReadIter Identity Item) :
    Option IterError :=
  match it.err with
  | some e => some e
  | none => it.iter.err

/-- The method `CanReadIter.Count`. -/
def CanReadIter.Count {Identity Item : Type} (it : CanReadIter Identity Item) : Nat :=
  it.n

/-- The first `k` successive calls of `Next`: the items of the calls that returned true,
in order, and the iterator afterwards. -/
def CanReadIter.NextN {Identity Item : Type}
    (CheckCanRead : Identity → Item → Option IterError) :
    Nat → CanReadIter Identity Item → List Item × CanReadIter Identity Item
  | 0, it => ([], it)
  | k + 1, it =>
    let r := it.Next CheckCanRead
    let rs := CanReadIter.NextN CheckCanRead k r.2
    (match r.1 with
      | some item => item :: rs.1
      | none => rs.1, rs.2)

/-- The identity is allowed to read the item: the read check returns no error. -/
def canRead {Identity Item : Type} (CheckCanRead : Identity → Item → Option IterError)
    (id : Identity) (item : Item) : Bool :=
  (CheckCanRead id item).isNone

/-- The read check of the item fails with an error other than Unauthorized. -/
def failsOtherwise {Identity Item : Type} (CheckCanRead : Identity → Item → Option IterError)
    (id : Identity) (item : Item) : Bool :=
  match CheckCanRead id item with
  | none => false
  | some e => decide (e.cause ≠ ErrorCode.ErrUnauthorized)

/-- The underlying items before the first read check that fails with an error other than
Unauthorized. -/
def checkedItems {Identity Item : Type} (CheckCanRead : Identity → Item → Option IterError)
    (id : Identity) (items : List Item) : List Item :=
  items.takeWhile fun item => !failsOtherwise CheckCanRead id item

/-- The underlying items that the identity is allowed to read, in order, up to the first
read check that fails with an error other than Unauthorized. -/
def readableItems {Identity Item : Type} (CheckCanRead : Identity → Item → Option IterError)
    (id : Identity) (items : List Item) : List Item :=
  (checkedItems CheckCanRead id items).filter (canRead CheckCanRead id)

/-- The error that `Err` reports once `Next` has returned false: the masked error of the
first read check that fails with an error other than Unauthorized, or the error `err` of
the underlying iterator when there is no such check. -/
def finalErr {Identity Item : Type} (CheckCanRead : Identity → Item → Option IterError)
    (id : Identity) (items : List Item) (err : Option IterError) : Option IterError :=
  match items.dropWhile fun item => !failsOtherwise CheckCanRead id item with
  | [] => err
  | item :: _ => (CheckCanRead id item).map Mask

/-- What `k` successive calls of `Next` on an iterator `it` over the underlying items `l`
have done when they end in the pair `r` of returned items and iterator: the returned items
are the first `k` readable items; the calls consumed a prefix of `l`, of the length by
which the count grew, the returned items are the readable items of that prefix and the
rest of `l` is still to be delivered; and once a call has returned false, `Next` keeps
returning false and changes nothing, `Err` reports the final error, and every item up to
and including the first failing check has been counted. -/
def Traversal {Identity Item : Type} (CheckCanRead : Identity → Item → Option IterError)
    (it : CanReadIter Identity Item) (l : List Item) (k : Nat)
    (r : List Item × CanReadIter Identity Item) : Prop :=
  r.1 = (readableItems CheckCanRead it.id l).take k ∧
    (∃ m, m ≤ l.length ∧ r.2.Count = it.Count + m ∧ r.2.iter.items = l.drop m ∧
      r.1 = (l.take m).filter (canRead CheckCanRead it.id)) ∧
    ((readableItems CheckCanRead it.id l).length < k →
      r.2.Next CheckCanRead = (none, r.2) ∧
        r.2.Err = finalErr CheckCanRead it.id l it.iter.err ∧
        r.2.Count = it.Count + min l.length ((checkedItems CheckCanRead it.id l).length + 1))

/-- A read check for the examples: the identity is a user name and an item a pair of an
owner and a name; the owner may read it, an item named "broken" makes the check fail
with an error that is not Unauthorized, any other item is refused as Unauthorized. -/
def sampleCheckCanRead (id : String) (item : String × String) : Option IterError :=
  if item.2 = "broken" then some { message := "cannot check", cause := ErrorCode.ErrOther }
  else if item.1 = id then none
  else some { message := "unauthorized", cause := ErrorCode.ErrUnauthorized }

/-- The ACL lists are nested as sets of users: every admin is a writer and every writer a
reader. -/
def ACLNested (acl : ACL) : Prop :=
  acl.admin ⊆ acl.write ∧ acl.write ⊆ acl.read

instance (acl : ACL) : Decidable (ACLNested acl) := by
  unfold ACLNested; infer_instance

/-! ## The authorization core -/

/-- The type `ofga.Tuple`, as the tests build it: the subject (`Object`, a tag that may
carry a relation and then names a userset), the relation and the target. -/
structure Tuple where
  object : Tag
  relation : Relation
  target : Tag
  deriving DecidableEq, Repr

/-- The tag of the user with the given name. -/
def userTag (name : User) : Tag :=
  { kind := "user", id := name, relation := "" }

/-- The tag of the group with the given id. -/
def groupTag (id : String) : Tag :=
  { kind := "group", id := id, relation := "" }

/-- The userset of a tag: the subject `type:id#relation`. -/
def Tag.userset (t : Tag) (relation : Relation) : Tag :=
  { t with relation := relation }

/-- The object a userset is taken of: the tag without its relation. -/
def Tag.bare (t : Tag) : Tag :=
  { t with relation := "" }

/-- What a check asks for: a relation to a target. -/
abbrev Goal := Relation × Tag

/-- Modelled from the spec: the authorization model is not among the sources.  The
inherited relations of rule 3: the relations that directly imply `relation` on a target
of the given kind (administrator ⇒ writer ⇒ reader on models, administrator ⇒ consumer ⇒
reader on offers, administrator ⇒ can_addmodel on clouds). -/
def inheritedFrom (kind : String) (relation : Relation) : List Relation :=
  if kind = "model" then
    if relation = WriterRelation then [AdministratorRelation]
    else if relation = ReaderRelation then [WriterRelation]
    else []
  else if kind = "applicationoffer" then
    if relation = ConsumerRelation then [AdministratorRelation]
    else if relation = ReaderRelation then [ConsumerRelation]
    else []
  else if kind = "cloud" then
    if relation = CanAddModelRelation then [AdministratorRelation]
    else []
  else []

/-- Modelled from the spec: rule 2, userset tuples.  A stored tuple `(X#r, relation,
target)` grants the relation to every subject that holds `r` on `X`; for a group `G` and
`r = member` these are the members of `G`, nested groups included. -/
def usersetPremises (store : List Tuple) (g : Goal) : List Goal :=
  store.filterMap fun t =>
    if t.relation = g.1 ∧ t.target = g.2 ∧ t.object.relation ≠ "" then
      some (t.object.relation, t.object.bare)
    else none

/-- Modelled from the spec: rule 4.  An administrator of a controller is an administrator
of every model and cloud linked to it by a `(controller, controller, X)` tuple, and an
administrator of a model is an administrator of every offer linked to it by a
`(model, model, X)` tuple. -/
def linkPremises (store : List Tuple) (g : Goal) : List Goal :=
  if g.1 = AdministratorRelation then
    store.filterMap fun t =>
      if t.target = g.2 ∧
          ((t.relation = ControllerRelation ∧ t.object.kind = "controller" ∧
              (g.2.kind = "model" ∨ g.2.kind = "cloud")) ∨
            (t.relation = ModelRelation ∧ t.object.kind = "model" ∧
              g.2.kind = "applicationoffer")) then
        some (AdministratorRelation, t.object)
      else none
  else []

/-- Modelled from the spec: the goals any one of which, held by a subject, gives the
subject the goal `g` (rules 2, 3 and 4). -/
def premises (store : List Tuple) (g : Goal) : List Goal :=
  usersetPremises store g ++ (inheritedFrom g.2.kind g.1).map (fun r => (r, g.2)) ++
    linkPremises store g

/-- Modelled from the spec: rule 1, a direct tuple `(subject, relation, target)`. -/
def direct (store : List Tuple) (subject : Tag) (g : Goal) : Bool :=
  store.contains { object := subject, relation := g.1, target := g.2 }

/-- Modelled from the spec: the transitive closure of rules 1 to 4, as a derivation. -/
inductive Holds (store : List Tuple) (subject : Tag) : Goal → Prop where
  | direct (g : Goal) : direct store subject g = true → Holds store subject g
  | step (g p : Goal) : p ∈ premises store g → Holds store subject p → Holds store subject g

/-- Modelled from the spec: the goals a subject can hold at all under rules 1 to 4, a
relation that is stored or inherited, to a target of a stored tuple. -/
def goalsOf (store : List Tuple) : List Goal :=
  List.product
    ([AdministratorRelation, WriterRelation, ReaderRelation, ConsumerRelation,
      CanAddModelRelation] ++ store.map Tuple.relation).dedup
    (store.map Tuple.target).dedup

/-- Modelled from the spec: one round of the closure, the goals that follow by one of
the rules 1 to 4 from the goals `held`. -/
def saturateStep (store : List Tuple) (subject : Tag) (held : List Goal) : List Goal :=
  (goalsOf store).filter fun g =>
    direct store subject g || (premises store g).any fun p => held.contains p

/-- Modelled from the spec: the goals held after `n` rounds of the closure. -/
def saturate (store : List Tuple) (subject : Tag) : Nat → List Goal
  | 0 => []
  | n + 1 => saturateStep store subject (saturate store subject n)

/-- Modelled from the spec: `Check(subject, relation, object)`, true iff the subject
appears in the transitive closure of rules 1 to 4.  The closure is computed in rounds, one
round for each goal that can be held, after which no round adds a goal. -/
def Check (store : List Tuple) (subject : Tag) (relation : Relation) (object : Tag) : Bool :=
  (saturate store subject (goalsOf store).length).contains (relation, object)

/-- The users that occur as the subject of a stored tuple, by name. -/
def storedUsers (store : List Tuple) : List User :=
  ((store.filter fun t => t.object.kind == "user" && t.object.relation == "").map
    fun t => t.object.id).dedup

/-- Modelled from the spec: `ListUsersWithAccess(object, relation)`, the concrete users
that hold the relation to the object, group memberships expanded. -/
def ListUsersWithAccess (store : List Tuple) (object : Tag) (relation : Relation) :
    List User :=
  (storedUsers store).filter fun u => Check store (userTag u) relation object

/-- The subject is nested in the groups of the chain, listed from the innermost: it is a
member of the first group, whose members are members of the second, and so on. -/
def NestedIn (store : List Tuple) : Tag → List String → Prop
  | _, [] => True
  | subject, g :: gs =>
    { object := subject, relation := MemberRelation, target := groupTag g } ∈ store ∧
      NestedIn store ((groupTag g).userset MemberRelation) gs

/-- The tuples of the test `TestListRelatedUsers`. -/
def relatedUsersStore : List Tuple :=
  [ ⟨userTag "eve", MemberRelation, groupTag "3"⟩,
    ⟨(groupTag "3").userset MemberRelation, AdministratorRelation, ⟨"controller", "c1", ""⟩⟩,
    ⟨⟨"controller", "c1", ""⟩, ControllerRelation, ⟨"model", "m1", ""⟩⟩,
    ⟨userTag "alice", WriterRelation, ⟨"model", "m1", ""⟩⟩,
    ⟨⟨"model", "m1", ""⟩, ModelRelation, ⟨"applicationoffer", "o1", ""⟩⟩,
    ⟨userTag "alice", ReaderRelation, ⟨"applicationoffer", "o1", ""⟩⟩,
    ⟨userTag "adam", MemberRelation, groupTag "4"⟩,
    ⟨(groupTag "4").userset MemberRelation, MemberRelation, groupTag "3"⟩ ]

/-- The tuples of the test `TestModelAccess`. -/
def modelAccessStore : List Tuple :=
  [ ⟨userTag "eve", MemberRelation, groupTag "3"⟩,
    ⟨(groupTag "3").userset MemberRelation, AdministratorRelation, ⟨"controller", "c1", ""⟩⟩,
    ⟨⟨"controller", "c1", ""⟩, ControllerRelation, ⟨"model", "m1", ""⟩⟩,
    ⟨userTag "alice", WriterRelation, ⟨"model", "m1", ""⟩⟩ ]

/-! # Theorems -/

/-! ## Offer access: one settled call -/

theorem find?_map_of_pred_eq {α : Type} (p : α → Bool) (f : α → α)
    (hf : ∀ d, p (f d) = p d) (c : List α) :
    (c.map f).find? p = (c.find? p).map f := by
  induction c with
  | nil => rfl
  | cons d c ih =>
    simp only [List.map_cons, List.find?_cons, hf]
    cases p d <;> simp [ih]

theorem FindId_UpdateAll (sel : ApplicationOffer → Bool) (upd : ApplicationOffer → ApplicationOffer)
    (hupd : ∀ o, (upd o).offerUUID = o.offerUUID) (uuid : String) (db : List ApplicationOffer) :
    ∃ db2, UpdateAll sel upd db = .ok db2 ∧
      FindId ApplicationOffer.offerUUID uuid db2 =
        (FindId ApplicationOffer.offerUUID uuid db).map fun o => if sel o then upd o else o := by
  refine ⟨_, rfl, ?_⟩
  unfold FindId
  apply find?_map_of_pred_eq
  intro d
  by_cases h : sel d = true <;> simp [h, hupd]

theorem FindId_uuid {uuid : String} {db : List ApplicationOffer} {o : ApplicationOffer}
    (h : FindId ApplicationOffer.offerUUID uuid db = some o) : o.offerUUID = uuid := by
  unfold FindId at h
  have := List.find?_some h
  simpa using this

theorem updateA_FindId (user : User) (uuid : String) (access : ApplicationOfferAccessPermission)
    (db : List ApplicationOffer) (o : ApplicationOffer)
    (h : FindId ApplicationOffer.offerUUID uuid db = some o) :
    ∃ db2, updateA user uuid access db = .ok db2 ∧
      FindId ApplicationOffer.offerUUID uuid db2 =
        some { o with users := usersAfterA user access o.users } := by
  obtain ⟨db2, h1, h2⟩ := FindId_UpdateAll (selectorA user uuid access) (pushUser user access)
    (fun _ => rfl) uuid db
  refine ⟨db2, h1, ?_⟩
  rw [h2, h]
  have hu : (o.offerUUID == uuid) = true := by simp [FindId_uuid h]
  simp only [Option.map_some', selectorA, usersAfterA, pushUser, hu, Bool.true_and]
  by_cases hc : (o.users.any fun e => e.user == user && e.access == access) = true
  · simp [hc]
  · simp only [Bool.not_eq_true] at hc
    simp [hc]

theorem updateB_FindId (user : User) (uuid : String) (access : ApplicationOfferAccessPermission)
    (db : List ApplicationOffer) (o : ApplicationOffer)
    (h : FindId ApplicationOffer.offerUUID uuid db = some o) :
    ∃ db2, updateB user uuid access db = .ok db2 ∧
      FindId ApplicationOffer.offerUUID uuid db2 =
        some { o with users := usersAfterB user access o.users } := by
  obtain ⟨db2, h1, h2⟩ := FindId_UpdateAll (selectorB user uuid access)
    (pullOtherAccess user access) (fun _ => rfl) uuid db
  refine ⟨db2, h1, ?_⟩
  rw [h2, h]
  have hu : (o.offerUUID == uuid) = true := by simp [FindId_uuid h]
  simp only [Option.map_some', selectorB, usersAfterB, pullOtherAccess, hu, Bool.true_and]
  by_cases hc : (o.users.any fun e => e == { user := user, access := access }) = true
  · simp [hc]
  · simp only [Bool.not_eq_true] at hc
    simp [hc]

theorem mem_usersAfterA (user : User) (access : ApplicationOfferAccessPermission)
    (us : List OfferUserDetails) :
    ({ user := user, access := access } : OfferUserDetails) ∈ usersAfterA user access us := by
  unfold usersAfterA
  by_cases hc : (us.any fun e => e.user == user && e.access == access) = true
  · rw [if_pos hc]
    rw [List.any_eq_true] at hc
    obtain ⟨e, he, hp⟩ := hc
    simp only [Bool.and_eq_true, beq_iff_eq] at hp
    obtain ⟨e1, e2⟩ := e
    simp only at hp
    rw [← hp.1, ← hp.2]
    exact he
  · rw [if_neg hc]
    simp

theorem count_usersAfterA (user : User) (access : ApplicationOfferAccessPermission)
    (us : List OfferUserDetails) :
    (usersAfterA user access us).count { user := user, access := access } =
      max 1 (us.count { user := user, access := access }) := by
  unfold usersAfterA
  by_cases hc : (us.any fun e => e.user == user && e.access == access) = true
  · rw [if_pos hc]
    rw [List.any_eq_true] at hc
    obtain ⟨e, he, hp⟩ := hc
    simp only [Bool.and_eq_true, beq_iff_eq] at hp
    obtain ⟨e1, e2⟩ := e
    simp only at hp
    rw [hp.1, hp.2] at he
    have := List.count_pos_iff.mpr he
    omega
  · rw [if_neg hc]
    have h0 : us.count { user := user, access := access } = 0 := by
      rw [List.count_eq_zero]
      intro hm
      apply hc
      rw [List.any_eq_true]
      exact ⟨_, hm, by simp⟩
    rw [List.count_append, h0]
    simp

theorem usersAfterB_of_mem (user : User) (access : ApplicationOfferAccessPermission)
    (us : List OfferUserDetails)
    (h : ({ user := user, access := access } : OfferUserDetails) ∈ us) :
    usersAfterB user access us = us.filter fun e => !(e.user == user && e.access != access) := by
  unfold usersAfterB
  rw [if_pos]
  rw [List.any_eq_true]
  exact ⟨_, h, by simp⟩

theorem entriesOf_prune (user : User) (access : ApplicationOfferAccessPermission)
    (us : List OfferUserDetails) :
    entriesOf user (us.filter fun e => !(e.user == user && e.access != access)) =
      List.replicate (us.count { user := user, access := access })
        { user := user, access := access } := by
  unfold entriesOf
  rw [List.filter_filter, ← List.filter_beq]
  apply List.filter_congr
  rintro ⟨eu, ea⟩ _
  have hb : (({ user := eu, access := ea } : OfferUserDetails) == { user := user, access := access })
      = decide (eu = user ∧ ea = access) := by
    rw [beq_eq_decide]
    simp
  rw [hb]
  by_cases h1 : eu = user <;> by_cases h2 : ea = access <;> simp [h1, h2]

theorem entriesOf_settled (user : User) (access : ApplicationOfferAccessPermission)
    (us : List OfferUserDetails) :
    entriesOf user (usersAfterB user access (usersAfterA user access us)) =
      List.replicate (max 1 (us.count { user := user, access := access }))
        { user := user, access := access } := by
  rw [usersAfterB_of_mem _ _ _ (mem_usersAfterA user access us), entriesOf_prune,
    count_usersAfterA]

theorem SetApplicationOfferAccess_FindId (user : User) (uuid : String)
    (access : ApplicationOfferAccessPermission) (db : List ApplicationOffer)
    (o : ApplicationOffer) (h : FindId ApplicationOffer.offerUUID uuid db = some o) :
    ∃ db2, SetApplicationOfferAccess user uuid access db = .ok db2 ∧
      FindId ApplicationOffer.offerUUID uuid db2 =
        some { o with users := usersAfterB user access (usersAfterA user access o.users) } := by
  obtain ⟨db1, hA, hA2⟩ := updateA_FindId user uuid access db o h
  obtain ⟨db2, hB, hB2⟩ := updateB_FindId user uuid access db1 _ hA2
  refine ⟨db2, ?_, hB2⟩
  simp [SetApplicationOfferAccess, hA, hB]

/-- C1 (as stated) fails: an offer that already holds the entry (bob, read) twice keeps
both copies after `SetApplicationOfferAccess(bob, offer, read)`. -/
theorem SetApplicationOfferAccess_duplicate_counterexample :
    FindId ApplicationOffer.offerUUID "o1" [duplicateOffer] = some duplicateOffer ∧
      ¬ SettlesToOneEntry [duplicateOffer] "o1" "bob" ApplicationOfferReadAccess := by
  refine ⟨by decide, ?_⟩
  rintro ⟨db2, o2, h1, h2, h3⟩
  obtain ⟨db3, h4, h5⟩ := SetApplicationOfferAccess_FindId "bob" "o1" ApplicationOfferReadAccess
    [duplicateOffer] duplicateOffer (by decide)
  rw [h1] at h4
  cases h4
  rw [h2] at h5
  cases h5
  rw [entriesOf_settled] at h3
  revert h3
  decide

/-- C1 (amended): for every stored offer whose users list holds the entry (u, a) at most
once, after one `SetApplicationOfferAccess(u, offer, a)` call has run both of its updates
the users list contains exactly one entry whose user is u, and its access is a. -/
theorem SetApplicationOfferAccess_settles (db : List ApplicationOffer) (uuid : String)
    (o : ApplicationOffer) (user : User) (access : ApplicationOfferAccessPermission)
    (hstored : FindId ApplicationOffer.offerUUID uuid db = some o)
    (hdup : o.users.count { user := user, access := access } ≤ 1) :
    SettlesToOneEntry db uuid user access := by
  obtain ⟨db2, h1, h2⟩ := SetApplicationOfferAccess_FindId user uuid access db o hstored
  refine ⟨db2, _, h1, h2, ?_⟩
  show entriesOf user (usersAfterB user access (usersAfterA user access o.users)) = _
  rw [entriesOf_settled]
  have : max 1 (o.users.count { user := user, access := access }) = 1 := by omega
  rw [this]
  rfl

theorem SetApplicationOfferAccess_settles_witness :
    FindId ApplicationOffer.offerUUID "o1" [sampleOffer] = some sampleOffer ∧
      sampleOffer.users.count { user := "bob", access := ApplicationOfferConsumeAccess } ≤ 1 ∧
      SettlesToOneEntry [sampleOffer] "o1" "bob" ApplicationOfferConsumeAccess :=
  ⟨by decide, by decide,
    SetApplicationOfferAccess_settles [sampleOffer] "o1" sampleOffer "bob"
      ApplicationOfferConsumeAccess (by decide) (by decide)⟩

/-! ## Offer access: interleaved calls -/

theorem any_user_access_iff (user : User) (access : ApplicationOfferAccessPermission)
    (us : List OfferUserDetails) :
    (us.any fun e => e.user == user && e.access == access) = true ↔
      ({ user := user, access := access } : OfferUserDetails) ∈ us := by
  rw [List.any_eq_true]
  constructor
  · rintro ⟨⟨eu, ea⟩, he, hp⟩
    simp only [Bool.and_eq_true, beq_iff_eq] at hp
    rw [← hp.1, ← hp.2]
    exact he
  · intro h
    exact ⟨_, h, by simp⟩

theorem any_beq_iff (x : OfferUserDetails) (us : List OfferUserDetails) :
    (us.any fun e => e == x) = true ↔ x ∈ us := by
  rw [List.any_eq_true]
  constructor
  · rintro ⟨e, he, hp⟩
    rw [beq_iff_eq] at hp
    rw [← hp]
    exact he
  · intro h
    exact ⟨_, h, by simp⟩

theorem mem_entriesOf (user : User) (us : List OfferUserDetails) (e : OfferUserDetails) :
    e ∈ entriesOf user us ↔ e ∈ us ∧ e.user = user := by
  simp [entriesOf]

theorem usersAfterA_of_mem (user : User) (access : ApplicationOfferAccessPermission)
    (us : List OfferUserDetails)
    (h : ({ user := user, access := access } : OfferUserDetails) ∈ us) :
    usersAfterA user access us = us := by
  unfold usersAfterA
  rw [if_pos ((any_user_access_iff user access us).mpr h)]

theorem usersAfterA_of_not_mem (user : User) (access : ApplicationOfferAccessPermission)
    (us : List OfferUserDetails)
    (h : ({ user := user, access := access } : OfferUserDetails) ∉ us) :
    usersAfterA user access us = us ++ [{ user := user, access := access }] := by
  unfold usersAfterA
  rw [if_neg (fun hc => h ((any_user_access_iff user access us).mp hc))]

theorem usersAfterB_of_not_mem (user : User) (access : ApplicationOfferAccessPermission)
    (us : List OfferUserDetails)
    (h : ({ user := user, access := access } : OfferUserDetails) ∉ us) :
    usersAfterB user access us = us := by
  unfold usersAfterB
  rw [if_neg (fun hc => h ((any_beq_iff _ us).mp hc))]

theorem entriesOf_usersAfterB_of_mem (user : User) (access : ApplicationOfferAccessPermission)
    (us : List OfferUserDetails)
    (h : ({ user := user, access := access } : OfferUserDetails) ∈ us)
    (hn : (entriesOf user us).Nodup) :
    entriesOf user (usersAfterB user access us) = [{ user := user, access := access }] := by
  rw [usersAfterB_of_mem user access us h, entriesOf_prune]
  have hc : (entriesOf user us).count { user := user, access := access } =
      us.count { user := user, access := access } := by
    unfold entriesOf
    exact List.count_filter (by simp)
  have h1 : (entriesOf user us).count { user := user, access := access } = 1 :=
    List.count_eq_one_of_mem hn ((mem_entriesOf user us _).mpr ⟨h, rfl⟩)
  rw [← hc, h1]
  rfl

theorem eq_singleton_of_nodup {α : Type} (l : List α) (x : α) (hn : l.Nodup) (hx : x ∈ l)
    (hall : ∀ e ∈ l, e = x) : l = [x] := by
  match l, hn, hx, hall with
  | [], _, hx, _ => simp at hx
  | [y], _, _, hall => rw [hall y (by simp)]
  | y :: z :: t, hn, _, hall =>
    have h1 := hall y (by simp)
    have h2 := hall z (by simp)
    rw [h1, h2] at hn
    simp at hn

theorem orderedSuffix_tail {n : Nat} {e : Event} {rest : List Event}
    (hs : OrderedSuffix n (e :: rest)) : OrderedSuffix n rest := by
  obtain ⟨hn, hb, ho⟩ := hs
  refine ⟨(List.nodup_cons.mp hn).2, fun x hx => hb x (List.mem_cons_of_mem _ hx), ?_⟩
  intro i hi
  have h := ho i (List.mem_cons_of_mem _ hi)
  cases h with
  | cons _ h2 => exact h2
  | cons₂ _ h2 => exact absurd hi (List.nodup_cons.mp hn).1

theorem orderedSuffix_A_head {n i : Nat} {rest : List Event}
    (hs : OrderedSuffix n ((i, Phase.A) :: rest)) : (i, Phase.B) ∈ rest := by
  obtain ⟨_, _, ho⟩ := hs
  have h := ho i (List.mem_cons_self _ _)
  cases h with
  | cons _ h2 => exact h2.subset (by simp)
  | cons₂ _ h2 => exact h2.subset (by simp)

theorem orderedSuffix_B_head {n i : Nat} {rest : List Event}
    (hs : OrderedSuffix n ((i, Phase.B) :: rest)) : (i, Phase.A) ∉ rest := by
  obtain ⟨hn, _, ho⟩ := hs
  intro hi
  have h := ho i (List.mem_cons_of_mem _ hi)
  cases h with
  | cons _ h2 => exact (List.nodup_cons.mp hn).1 (h2.subset (by simp))

theorem orderedSuffix_of_valid {n : Nat} {s : List Event} (h : ValidSchedule n s) :
    OrderedSuffix n s :=
  ⟨h.1, h.2.1, fun i hi => h.2.2 i (h.2.1 _ hi)⟩

theorem backed_tail_A {calls : List ApplicationOfferAccessPermission} {i : Nat}
    {rest : List Event} {x : ApplicationOfferAccessPermission}
    (h : Backed calls ((i, Phase.A) :: rest) x) : Backed calls rest x := by
  obtain ⟨k, hk, hc⟩ := h
  rcases List.mem_cons.mp hk with h1 | h1
  · cases h1
  · exact ⟨k, h1, hc⟩

theorem RunInv.stepA {user : User} {calls : List ApplicationOfferAccessPermission}
    {us : List OfferUserDetails} {last : Option Nat} {rest : List Event} {i : Nat}
    {a : ApplicationOfferAccessPermission}
    (hs : OrderedSuffix calls.length ((i, Phase.A) :: rest)) (ha : calls[i]? = some a)
    (inv : RunInv user calls (entriesOf user us) last ((i, Phase.A) :: rest)) :
    RunInv user calls (entriesOf user (usersAfterA user a us)) last rest := by
  have hB := orderedSuffix_A_head hs
  have hsub : ∀ e ∈ entriesOf user us, e ∈ entriesOf user (usersAfterA user a us) := by
    intro e he
    by_cases hm : ({ user := user, access := a } : OfferUserDetails) ∈ us
    · rw [usersAfterA_of_mem user a us hm]; exact he
    · rw [usersAfterA_of_not_mem user a us hm]
      rw [mem_entriesOf] at he ⊢
      exact ⟨List.mem_append_left _ he.1, he.2⟩
  have hnew : ({ user := user, access := a } : OfferUserDetails) ∈
      entriesOf user (usersAfterA user a us) :=
    (mem_entriesOf _ _ _).mpr ⟨mem_usersAfterA user a us, rfl⟩
  have hcases : ∀ e ∈ entriesOf user (usersAfterA user a us),
      e ∈ entriesOf user us ∨ e = { user := user, access := a } := by
    intro e he
    by_cases hm : ({ user := user, access := a } : OfferUserDetails) ∈ us
    · rw [usersAfterA_of_mem user a us hm] at he; exact Or.inl he
    · rw [usersAfterA_of_not_mem user a us hm] at he
      rw [mem_entriesOf] at he
      rcases List.mem_append.mp he.1 with h1 | h1
      · exact Or.inl ((mem_entriesOf _ _ _).mpr ⟨h1, he.2⟩)
      · exact Or.inr (by simpa using h1)
  refine ⟨?_, ?_, ?_⟩
  · intro e he
    exact ((mem_entriesOf _ _ _).mp he).2
  · intro hl
    obtain ⟨f1, f2⟩ := inv.fresh hl
    refine ⟨fun k hk => ?_, fun k b hb hk => ?_⟩
    · rcases List.mem_cons.mp (f1 k hk) with h1 | h1
      · cases h1
      · exact h1
    · by_cases hki : k = i
      · subst hki
        rw [ha] at hb
        cases hb
        exact hnew
      · apply hsub
        apply f2 k b hb
        intro hmem
        rcases List.mem_cons.mp hmem with h1 | h1
        · cases h1; exact hki rfl
        · exact hk h1
  · intro j hl
    obtain ⟨b, hb, hmem, hall⟩ := inv.pruned j hl
    refine ⟨b, hb, hsub _ hmem, fun e he hne => ?_⟩
    rcases hcases e he with h1 | h1
    · exact backed_tail_A (hall e h1 hne)
    · rw [h1]
      exact ⟨i, hB, ha⟩

theorem RunInv.stepB_hit {user : User} {calls : List ApplicationOfferAccessPermission}
    {us : List OfferUserDetails} {rest : List Event} {i : Nat}
    {a : ApplicationOfferAccessPermission} (ha : calls[i]? = some a)
    (hm : ({ user := user, access := a } : OfferUserDetails) ∈ us) :
    RunInv user calls (entriesOf user (usersAfterB user a us)) (some i) rest := by
  rw [usersAfterB_of_mem user a us hm, entriesOf_prune]
  refine ⟨?_, ?_, ?_⟩
  · intro e he
    rw [List.eq_of_mem_replicate he]
  · intro hl
    cases hl
  · intro j hl
    cases hl
    refine ⟨a, ha, ?_, fun e he hne => absurd (List.eq_of_mem_replicate he) hne⟩
    exact List.mem_replicate.mpr ⟨Nat.ne_of_gt (List.count_pos_iff.mpr hm), rfl⟩

theorem RunInv.stepB_miss {user : User} {calls : List ApplicationOfferAccessPermission}
    {us : List OfferUserDetails} {last : Option Nat} {rest : List Event} {i : Nat}
    {a : ApplicationOfferAccessPermission}
    (hs : OrderedSuffix calls.length ((i, Phase.B) :: rest)) (ha : calls[i]? = some a)
    (hm : ({ user := user, access := a } : OfferUserDetails) ∉ us)
    (inv : RunInv user calls (entriesOf user us) last ((i, Phase.B) :: rest)) :
    RunInv user calls (entriesOf user (usersAfterB user a us)) last rest := by
  rw [usersAfterB_of_not_mem user a us hm]
  have hA := orderedSuffix_B_head hs
  have hnotA : (i, Phase.A) ∉ (i, Phase.B) :: rest := by
    intro hmem
    rcases List.mem_cons.mp hmem with h1 | h1
    · cases h1
    · exact hA h1
  refine ⟨inv.owner, ?_, ?_⟩
  · intro hl
    obtain ⟨_, f2⟩ := inv.fresh hl
    exact absurd ((mem_entriesOf _ _ _).mp (f2 i a ha hnotA)).1 hm
  · intro j hl
    obtain ⟨b, hb, hmem, hall⟩ := inv.pruned j hl
    refine ⟨b, hb, hmem, fun e he hne => ?_⟩
    obtain ⟨k, hk, hc⟩ := hall e he hne
    rcases List.mem_cons.mp hk with h1 | h1
    · cases h1
      rw [ha] at hc
      cases hc
      have hu := inv.owner e he
      have hmem2 := ((mem_entriesOf _ _ _).mp he).1
      obtain ⟨eu, ea⟩ := e
      simp only at hu
      subst hu
      exact absurd hmem2 hm
    · exact ⟨k, h1, hc⟩

theorem run_core (user : User) (calls : List ApplicationOfferAccessPermission)
    (hpos : 0 < calls.length) :
    ∀ (rest : List Event) (us : List OfferUserDetails) (last : Option Nat),
      OrderedSuffix calls.length rest →
      RunInv user calls (entriesOf user us) last rest →
      ∃ j a, lastEffectivePrune user calls rest us last = some j ∧ calls[j]? = some a ∧
        ({ user := user, access := a } : OfferUserDetails) ∈
          entriesOf user (runUsers user calls rest us) ∧
        ∀ e ∈ entriesOf user (runUsers user calls rest us), e = { user := user, access := a } := by
  intro rest
  induction rest with
  | nil =>
    intro us last _ inv
    cases last with
    | none =>
      have := (inv.fresh rfl).1 0 hpos
      simp at this
    | some j =>
      obtain ⟨a, ha, hmem, hall⟩ := inv.pruned j rfl
      refine ⟨j, a, rfl, ha, hmem, ?_⟩
      intro e he
      by_contra hne
      obtain ⟨k, hk, _⟩ := hall e he hne
      simp at hk
  | cons e rest ih =>
    intro us last hs inv
    obtain ⟨i, ph⟩ := e
    have hi : i < calls.length := hs.2.1 (i, ph) (List.mem_cons_self _ _)
    have ha : calls[i]? = some calls[i] := List.getElem?_eq_getElem hi
    have hs2 := orderedSuffix_tail hs
    cases ph with
    | A =>
      have inv2 := RunInv.stepA hs ha inv
      obtain ⟨j, b, h1, h2, h3⟩ := ih (usersAfterA user calls[i] us) last hs2 inv2
      refine ⟨j, b, ?_, h2, ?_⟩
      · simpa [lastEffectivePrune, stepUsers, effectivePrune, ha] using h1
      · simpa only [runUsers, stepUsers, ha] using h3
    | B =>
      by_cases hm : ({ user := user, access := calls[i] } : OfferUserDetails) ∈ us
      · have inv2 : RunInv user calls _ (some i) rest := RunInv.stepB_hit ha hm
        obtain ⟨j, b, h1, h2, h3⟩ := ih (usersAfterB user calls[i] us) (some i) hs2 inv2
        refine ⟨j, b, ?_, h2, ?_⟩
        · have hany := (any_beq_iff _ us).mpr hm
          simpa [lastEffectivePrune, stepUsers, effectivePrune, ha, hany] using h1
        · simpa only [runUsers, stepUsers, ha] using h3
      · have inv2 := RunInv.stepB_miss hs ha hm inv
        obtain ⟨j, b, h1, h2, h3⟩ := ih (usersAfterB user calls[i] us) last hs2 inv2
        refine ⟨j, b, ?_, h2, ?_⟩
        · have hany : (us.any fun x => x == { user := user, access := calls[i] }) = false := by
            rw [← Bool.not_eq_true]
            exact fun hc => hm ((any_beq_iff _ us).mp hc)
          simpa [lastEffectivePrune, stepUsers, effectivePrune, ha, hany] using h1
        · simpa only [runUsers, stepUsers, ha] using h3

theorem runInv_start (user : User) (calls : List ApplicationOfferAccessPermission)
    (us : List OfferUserDetails) (s : List Event) (hv : ValidSchedule calls.length s) :
    RunInv user calls (entriesOf user us) none s := by
  refine ⟨fun e he => ((mem_entriesOf _ _ _).mp he).2, fun _ => ⟨?_, ?_⟩, ?_⟩
  · intro i hi
    exact (hv.2.2 i hi).subset (by simp)
  · intro i a ha hnot
    have hi : i < calls.length := by
      by_contra hge
      rw [List.getElem?_eq_none (by omega)] at ha
      cases ha
    exact absurd ((hv.2.2 i hi).subset (by simp)) hnot
  · intro j hl
    cases hl

theorem runSchedule_FindId (user : User) (uuid : String)
    (calls : List ApplicationOfferAccessPermission) :
    ∀ (s : List Event) (db : List ApplicationOffer) (o : ApplicationOffer),
      FindId ApplicationOffer.offerUUID uuid db = some o →
      ∃ db2, runSchedule user uuid calls s db = .ok db2 ∧
        FindId ApplicationOffer.offerUUID uuid db2 =
          some { o with users := runUsers user calls s o.users } := by
  intro s
  induction s with
  | nil =>
    intro db o h
    exact ⟨db, rfl, h⟩
  | cons e s ih =>
    intro db o h
    obtain ⟨i, ph⟩ := e
    cases hc : calls[i]? with
    | none =>
      obtain ⟨db2, h1, h2⟩ := ih db o h
      refine ⟨db2, ?_, ?_⟩
      · simpa [runSchedule, runEvent, hc] using h1
      · simpa [runUsers, stepUsers, hc] using h2
    | some a =>
      cases ph with
      | A =>
        obtain ⟨db1, hA, hA2⟩ := updateA_FindId user uuid a db o h
        obtain ⟨db2, h1, h2⟩ := ih db1 _ hA2
        refine ⟨db2, ?_, ?_⟩
        · simpa [runSchedule, runEvent, hc, hA] using h1
        · simpa [runUsers, stepUsers, hc] using h2
      | B =>
        obtain ⟨db1, hB, hB2⟩ := updateB_FindId user uuid a db o h
        obtain ⟨db2, h1, h2⟩ := ih db1 _ hB2
        refine ⟨db2, ?_, ?_⟩
        · simpa [runSchedule, runEvent, hc, hB] using h1
        · simpa [runUsers, stepUsers, hc] using h2

theorem nodup_of_length_le_one {α : Type} (l : List α) (h : l.length ≤ 1) : l.Nodup := by
  match l, h with
  | [], _ => exact List.nodup_nil
  | [x], _ => exact List.nodup_singleton x
  | _ :: _ :: _, h => simp at h

theorem nodup_entriesOf_stepUsers (user : User)
    (calls : List ApplicationOfferAccessPermission) (e : Event) (us : List OfferUserDetails)
    (hn : (entriesOf user us).Nodup) : (entriesOf user (stepUsers user calls e us)).Nodup := by
  unfold stepUsers
  cases calls[e.1]? with
  | none => exact hn
  | some a =>
    cases e.2 with
    | A =>
      show (entriesOf user (usersAfterA user a us)).Nodup
      by_cases hm : ({ user := user, access := a } : OfferUserDetails) ∈ us
      · rw [usersAfterA_of_mem user a us hm]; exact hn
      · rw [usersAfterA_of_not_mem user a us hm]
        have : entriesOf user (us ++ [{ user := user, access := a }]) =
            entriesOf user us ++ [{ user := user, access := a }] := by
          simp [entriesOf, List.filter_append]
        rw [this]
        apply List.Nodup.append hn (List.nodup_singleton _)
        intro x hx hx2
        rw [List.mem_singleton] at hx2
        rw [hx2, mem_entriesOf] at hx
        exact hm hx.1
    | B =>
      show (entriesOf user (usersAfterB user a us)).Nodup
      by_cases hm : ({ user := user, access := a } : OfferUserDetails) ∈ us
      · rw [entriesOf_usersAfterB_of_mem user a us hm hn]
        exact List.nodup_singleton _
      · rw [usersAfterB_of_not_mem user a us hm]; exact hn

theorem nodup_entriesOf_runUsers (user : User) (calls : List ApplicationOfferAccessPermission) :
    ∀ (s : List Event) (us : List OfferUserDetails),
      (entriesOf user us).Nodup → (entriesOf user (runUsers user calls s us)).Nodup := by
  intro s
  induction s with
  | nil => intro us hn; exact hn
  | cons e s ih =>
    intro us hn
    exact ih _ (nodup_entriesOf_stepUsers user calls e us hn)

theorem run_result (db : List ApplicationOffer) (uuid : String) (o : ApplicationOffer)
    (user : User) (calls : List ApplicationOfferAccessPermission) (s : List Event)
    (hstored : FindId ApplicationOffer.offerUUID uuid db = some o)
    (hcalls : 0 < calls.length) (hvalid : ValidSchedule calls.length s) :
    ∃ db2 j a, runSchedule user uuid calls s db = .ok db2 ∧
      FindId ApplicationOffer.offerUUID uuid db2 =
        some { o with users := runUsers user calls s o.users } ∧
      lastEffectivePrune user calls s o.users none = some j ∧ calls[j]? = some a ∧
      ({ user := user, access := a } : OfferUserDetails) ∈
        entriesOf user (runUsers user calls s o.users) ∧
      ∀ e ∈ entriesOf user (runUsers user calls s o.users),
        e = { user := user, access := a } := by
  obtain ⟨db2, h1, h2⟩ := runSchedule_FindId user uuid calls s db o hstored
  obtain ⟨j, a, h3, h4, h5, h6⟩ := run_core user calls hcalls s o.users none
    (orderedSuffix_of_valid hvalid) (runInv_start user calls o.users s hvalid)
  exact ⟨db2, j, a, h1, h2, h3, h4, h5, h6⟩

/-- C2: for every non-empty list of `SetApplicationOfferAccess` calls on the same
(offer, user), each modelled as update A then update B, and every interleaving of their
updates that keeps each call's A before its B, starting from a stored offer that holds
at most one entry for that user, the run completes and the users list at the end contains
exactly one entry for that user. -/
theorem interleaved_calls_end_with_one_entry (db : List ApplicationOffer) (uuid : String)
    (o : ApplicationOffer) (user : User) (calls : List ApplicationOfferAccessPermission)
    (s : List Event)
    (hstored : FindId ApplicationOffer.offerUUID uuid db = some o)
    (hstart : (entriesOf user o.users).length ≤ 1)
    (hcalls : 0 < calls.length) (hvalid : ValidSchedule calls.length s) :
    EndsWithOneEntry db uuid user calls s := by
  obtain ⟨db2, j, a, h1, h2, _, _, h5, h6⟩ := run_result db uuid o user calls s hstored
    hcalls hvalid
  have hn := nodup_entriesOf_runUsers user calls s o.users (nodup_of_length_le_one _ hstart)
  refine ⟨db2, _, h1, h2, ?_⟩
  show (entriesOf user (runUsers user calls s o.users)).length = 1
  rw [eq_singleton_of_nodup _ _ hn h5 h6]
  rfl

theorem interleaved_calls_end_with_one_entry_witness :
    FindId ApplicationOffer.offerUUID "o1" [publicOffer] = some publicOffer ∧
      (entriesOf "bob" publicOffer.users).length ≤ 1 ∧
      ValidSchedule 3 crossedSchedule ∧
      EndsWithOneEntry [publicOffer] "o1" "bob"
        [ApplicationOfferConsumeAccess, ApplicationOfferAdminAccess, ApplicationOfferNoAccess]
        crossedSchedule :=
  ⟨by decide, by decide, by decide,
    interleaved_calls_end_with_one_entry [publicOffer] "o1" publicOffer "bob"
      [ApplicationOfferConsumeAccess, ApplicationOfferAdminAccess, ApplicationOfferNoAccess]
      crossedSchedule (by decide) (by decide) (by decide) (by decide)⟩

/-- C3 (as stated) fails: with two calls (read, then admin) interleaved as 1A, 2A, 1B, 2B
the last update to reach the store is 2B, and the last update A is 2A, yet the surviving
entry carries the access of call 1 (read), not that of call 2 (admin). -/
theorem last_call_does_not_win_counterexample :
    ValidSchedule 2 [(0, Phase.A), (1, Phase.A), (0, Phase.B), (1, Phase.B)] ∧
      lastToReachStore [(0, Phase.A), (1, Phase.A), (0, Phase.B), (1, Phase.B)] = some 1 ∧
      SurvivorIsCall [offerWithUsers "o1" []] "o1" "bob"
        [ApplicationOfferReadAccess, ApplicationOfferAdminAccess]
        [(0, Phase.A), (1, Phase.A), (0, Phase.B), (1, Phase.B)] 0 ∧
      ¬ SurvivorIsCall [offerWithUsers "o1" []] "o1" "bob"
        [ApplicationOfferReadAccess, ApplicationOfferAdminAccess]
        [(0, Phase.A), (1, Phase.A), (0, Phase.B), (1, Phase.B)] 1 := by
  obtain ⟨db2, h1, h2⟩ := runSchedule_FindId "bob" "o1"
    [ApplicationOfferReadAccess, ApplicationOfferAdminAccess]
    [(0, Phase.A), (1, Phase.A), (0, Phase.B), (1, Phase.B)]
    [offerWithUsers "o1" []] (offerWithUsers "o1" []) (by decide)
  refine ⟨by decide, by decide,
    ⟨db2, _, ApplicationOfferReadAccess, h1, h2, by decide, by decide, by decide⟩, ?_⟩
  rintro ⟨db3, o3, a, h3, h4, h5, h6, _⟩
  rw [h1] at h3
  cases h3
  rw [h2] at h4
  cases h4
  have ha : a = ApplicationOfferAdminAccess := by
    have h7 : (some ApplicationOfferAdminAccess : Option ApplicationOfferAccessPermission)
        = some a := h5
    cases h7
    rfl
  subst ha
  revert h6
  decide

/-- C3 (amended): for every interleaving of the A and B updates of one or more
`SetApplicationOfferAccess` calls on the same (offer, user), the access of the entry that
survives at the end is the access value of the call whose update B is the last one in the
interleaving to find its own entry still present (the last update B whose selector
matches): such a call exists, an entry with its access is stored, and every stored entry
of the user carries it. -/
theorem survivor_is_last_effective_prune (db : List ApplicationOffer) (uuid : String)
    (o : ApplicationOffer) (user : User) (calls : List ApplicationOfferAccessPermission)
    (s : List Event)
    (hstored : FindId ApplicationOffer.offerUUID uuid db = some o)
    (hcalls : 0 < calls.length) (hvalid : ValidSchedule calls.length s) :
    ∃ j, lastEffectivePrune user calls s o.users none = some j ∧
      SurvivorIsCall db uuid user calls s j := by
  obtain ⟨db2, j, a, h1, h2, h3, h4, h5, h6⟩ := run_result db uuid o user calls s hstored
    hcalls hvalid
  refine ⟨j, h3, db2, _, a, h1, h2, h4, ((mem_entriesOf _ _ _).mp h5).1, ?_⟩
  intro e he hu
  rw [h6 e ((mem_entriesOf _ _ _).mpr ⟨he, hu⟩)]

theorem survivor_is_last_effective_prune_witness :
    FindId ApplicationOffer.offerUUID "o1" [sampleOffer] = some sampleOffer ∧
      ValidSchedule 2 [(0, Phase.A), (1, Phase.A), (0, Phase.B), (1, Phase.B)] ∧
      lastEffectivePrune "bob" [ApplicationOfferReadAccess, ApplicationOfferConsumeAccess]
          [(0, Phase.A), (1, Phase.A), (0, Phase.B), (1, Phase.B)] sampleOffer.users none
        = some 0 ∧
      ∃ j, lastEffectivePrune "bob" [ApplicationOfferReadAccess, ApplicationOfferConsumeAccess]
          [(0, Phase.A), (1, Phase.A), (0, Phase.B), (1, Phase.B)] sampleOffer.users none
            = some j ∧
        SurvivorIsCall [sampleOffer] "o1" "bob"
          [ApplicationOfferReadAccess, ApplicationOfferConsumeAccess]
          [(0, Phase.A), (1, Phase.A), (0, Phase.B), (1, Phase.B)] j :=
  ⟨by decide, by decide, by decide,
    survivor_is_last_effective_prune [sampleOffer] "o1" sampleOffer "bob"
      [ApplicationOfferReadAccess, ApplicationOfferConsumeAccess]
      [(0, Phase.A), (1, Phase.A), (0, Phase.B), (1, Phase.B)]
      (by decide) (by decide) (by decide)⟩

/-! ## Offer access: reading -/

theorem access_fold_spec (user : User) (us : List OfferUserDetails) :
    ∀ r0 : ApplicationOfferAccessPermission,
      r0 ≤ us.foldl
          (fun access u =>
            if (u.user == user || u.user == Everyone) && decide (u.access > access) then u.access
            else access) r0 ∧
        (∀ e ∈ us, AppliesTo user e → e.access ≤ us.foldl
          (fun access u =>
            if (u.user == user || u.user == Everyone) && decide (u.access > access) then u.access
            else access) r0) ∧
        (us.foldl
          (fun access u =>
            if (u.user == user || u.user == Everyone) && decide (u.access > access) then u.access
            else access) r0 = r0 ∨
          ∃ e ∈ us, AppliesTo user e ∧ e.access = us.foldl
            (fun access u =>
              if (u.user == user || u.user == Everyone) && decide (u.access > access)
              then u.access else access) r0) := by
  induction us with
  | nil =>
    intro r0
    simp
  | cons x us ih =>
    intro r0
    simp only [List.foldl_cons]
    by_cases hx : ((x.user == user || x.user == Everyone) && decide (x.access > r0)) = true
    · rw [if_pos hx]
      obtain ⟨h1, h2, h3⟩ := ih x.access
      simp only [Bool.and_eq_true, Bool.or_eq_true, beq_iff_eq, decide_eq_true_eq] at hx
      refine ⟨le_trans (le_of_lt hx.2) h1, ?_, ?_⟩
      · intro e he hap
        rcases List.mem_cons.mp he with h | h
        · rw [h]; exact h1
        · exact h2 e h hap
      · right
        rcases h3 with h | ⟨e, he, hap, heq⟩
        · exact ⟨x, List.mem_cons_self _ _, hx.1, h.symm⟩
        · exact ⟨e, List.mem_cons_of_mem _ he, hap, heq⟩
    · rw [if_neg hx]
      obtain ⟨h1, h2, h3⟩ := ih r0
      simp only [Bool.and_eq_true, Bool.or_eq_true, beq_iff_eq, decide_eq_true_eq, not_and,
        not_lt] at hx
      refine ⟨h1, ?_, ?_⟩
      · intro e he hap
        rcases List.mem_cons.mp he with h | h
        · rw [h]
          exact le_trans (hx (by rw [← h]; exact hap)) h1
        · exact h2 e h hap
      · rcases h3 with h | ⟨e, he, hap, heq⟩
        · exact Or.inl h
        · exact Or.inr ⟨e, List.mem_cons_of_mem _ he, hap, heq⟩

theorem getApplicationOfferAccess_spec (user : User) (offer : ApplicationOffer) :
    ApplicationOfferNoAccess ≤ getApplicationOfferAccess user offer ∧
      (∀ e ∈ offer.users, AppliesTo user e → e.access ≤ getApplicationOfferAccess user offer) ∧
      (getApplicationOfferAccess user offer = ApplicationOfferNoAccess ∨
        ∃ e ∈ offer.users, AppliesTo user e ∧ e.access = getApplicationOfferAccess user offer) :=
  access_fold_spec user offer.users ApplicationOfferNoAccess

theorem entriesOf_usersAfterA_other (u v : User) (a : ApplicationOfferAccessPermission)
    (us : List OfferUserDetails) (h : v ≠ u) :
    entriesOf v (usersAfterA u a us) = entriesOf v us := by
  unfold usersAfterA
  split
  · rfl
  · have : (u == v) = false := by simpa using fun h2 => h h2.symm
    simp [entriesOf, List.filter_append, this]

theorem entriesOf_usersAfterB_other (u v : User) (a : ApplicationOfferAccessPermission)
    (us : List OfferUserDetails) (h : v ≠ u) :
    entriesOf v (usersAfterB u a us) = entriesOf v us := by
  unfold usersAfterB
  split
  · unfold entriesOf
    rw [List.filter_filter]
    apply List.filter_congr
    intro e _
    by_cases he : e.user = v
    · have : ¬ e.user = u := by rw [he]; exact h
      simp [he, this, h]
    · simp [he]
  · rfl

/-- C4: for every stored offer, user u and access level a, `GetApplicationOfferAccess(u, offer)`
called right after `SetApplicationOfferAccess(u, offer, a)` returns the higher of a and the
highest access held by an "everyone" entry of the offer (as stored when the access is read;
for u other than "everyone" these are the entries stored before the call as well); in
particular it returns a whenever no "everyone" entry holds an access above a. -/
theorem GetApplicationOfferAccess_after_Set (db : List ApplicationOffer) (uuid : String)
    (o : ApplicationOffer) (user : User) (access : ApplicationOfferAccessPermission)
    (hstored : FindId ApplicationOffer.offerUUID uuid db = some o)
    (hlevel : IsAccessLevel access) :
    ∃ db2 o2 r, SetApplicationOfferAccess user uuid access db = .ok db2 ∧
      FindId ApplicationOffer.offerUUID uuid db2 = some o2 ∧
      GetApplicationOfferAccess user uuid db2 = .ok r ∧
      IsHigherOf r access (entriesOf Everyone o2.users) ∧
      ((∀ e ∈ entriesOf Everyone o2.users, e.access ≤ access) → r = access) ∧
      (user ≠ Everyone → entriesOf Everyone o2.users = entriesOf Everyone o.users) := by
  obtain ⟨db2, h1, h2⟩ := SetApplicationOfferAccess_FindId user uuid access db o hstored
  have hset := entriesOf_settled user access o.users
  generalize ho2 : ({ o with users := usersAfterB user access (usersAfterA user access o.users) }
    : ApplicationOffer) = o2 at h2
  have hus : o2.users = usersAfterB user access (usersAfterA user access o.users) := by
    rw [← ho2]
  rw [← hus] at hset
  obtain ⟨g1, g2, g3⟩ := getApplicationOfferAccess_spec user o2
  have hown : ∀ e ∈ o2.users, e.user = user → e.access = access := by
    intro e he hu
    have hm : e ∈ entriesOf user o2.users := (mem_entriesOf _ _ _).mpr ⟨he, hu⟩
    rw [hset] at hm
    rw [List.eq_of_mem_replicate hm]
  have hmem : ({ user := user, access := access } : OfferUserDetails) ∈ o2.users := by
    have : ({ user := user, access := access } : OfferUserDetails) ∈ entriesOf user o2.users := by
      rw [hset]
      apply List.mem_replicate.mpr
      exact ⟨by omega, rfl⟩
    exact ((mem_entriesOf _ _ _).mp this).1
  have hge : access ≤ getApplicationOfferAccess user o2 := g2 _ hmem (Or.inl rfl)
  have hhigher : IsHigherOf (getApplicationOfferAccess user o2) access
      (entriesOf Everyone o2.users) := by
    refine ⟨hge, ?_, ?_⟩
    · intro e he
      rw [mem_entriesOf] at he
      exact g2 e he.1 (Or.inr he.2)
    · rcases g3 with h | ⟨e, he, hap, heq⟩
      · left
        exact le_antisymm (h ▸ hlevel.1) hge
      · rcases hap with hu | hu
        · left
          rw [← heq]
          exact hown e he hu
        · right
          exact ⟨e, (mem_entriesOf _ _ _).mpr ⟨he, hu⟩, heq⟩
  refine ⟨db2, o2, getApplicationOfferAccess user o2, h1, h2, ?_, hhigher, ?_, ?_⟩
  · simp [GetApplicationOfferAccess, h2]
  · intro hle
    rcases hhigher.2.2 with h | ⟨e, he, heq⟩
    · exact h
    · exact le_antisymm (heq ▸ hle e he) hge
  · intro hne
    rw [hus, entriesOf_usersAfterB_other user Everyone access _ (Ne.symm hne),
      entriesOf_usersAfterA_other user Everyone access _ (Ne.symm hne)]

theorem GetApplicationOfferAccess_after_Set_witness :
    FindId ApplicationOffer.offerUUID "o1" [publicOffer] = some publicOffer ∧
      IsAccessLevel ApplicationOfferAdminAccess ∧
      ∃ db2 o2 r, SetApplicationOfferAccess "test-user" "o1" ApplicationOfferAdminAccess
          [publicOffer] = .ok db2 ∧
        FindId ApplicationOffer.offerUUID "o1" db2 = some o2 ∧
        GetApplicationOfferAccess "test-user" "o1" db2 = .ok r ∧
        IsHigherOf r ApplicationOfferAdminAccess (entriesOf Everyone o2.users) ∧
        ((∀ e ∈ entriesOf Everyone o2.users, e.access ≤ ApplicationOfferAdminAccess) →
          r = ApplicationOfferAdminAccess) ∧
        ("test-user" ≠ Everyone →
          entriesOf Everyone o2.users = entriesOf Everyone publicOffer.users) :=
  ⟨by decide, by decide,
    GetApplicationOfferAccess_after_Set [publicOffer] "o1" publicOffer "test-user"
      ApplicationOfferAdminAccess (by decide) (by decide)⟩

/-- C5: `getApplicationOfferAccess(u, offer)` returns the greatest access level among the
users entries whose user is u or the pseudo-user "everyone" (every stored access being one
of the levels none < read < consume < admin), and no access when there is no such entry;
hence an offer that holds an (everyone, read) entry gives every user at least read access. -/
theorem getApplicationOfferAccess_greatest (user : User) (offer : ApplicationOffer)
    (hlevels : ∀ e ∈ offer.users, IsAccessLevel e.access) :
    (∀ e ∈ offer.users, AppliesTo user e → e.access ≤ getApplicationOfferAccess user offer) ∧
      ((∃ e ∈ offer.users, AppliesTo user e) →
        ∃ e ∈ offer.users, AppliesTo user e ∧ e.access = getApplicationOfferAccess user offer) ∧
      ((¬ ∃ e ∈ offer.users, AppliesTo user e) →
        getApplicationOfferAccess user offer = ApplicationOfferNoAccess) ∧
      (({ user := Everyone, access := ApplicationOfferReadAccess } : OfferUserDetails)
          ∈ offer.users →
        ApplicationOfferReadAccess ≤ getApplicationOfferAccess user offer) := by
  obtain ⟨g1, g2, g3⟩ := getApplicationOfferAccess_spec user offer
  refine ⟨g2, ?_, ?_, ?_⟩
  · rintro ⟨e, he, hap⟩
    rcases g3 with h | h
    · refine ⟨e, he, hap, ?_⟩
      have h1 := g2 e he hap
      have h2 := (hlevels e he).1
      rw [h] at h1 ⊢
      exact le_antisymm h1 h2
    · exact h
  · intro hno
    rcases g3 with h | ⟨e, he, hap, _⟩
    · exact h
    · exact absurd ⟨e, he, hap⟩ hno
  · intro hm
    exact g2 _ hm (Or.inr rfl)

theorem getApplicationOfferAccess_greatest_witness :
    (∀ e ∈ sampleOffer.users, IsAccessLevel e.access) ∧
      getApplicationOfferAccess "bob" sampleOffer = ApplicationOfferAdminAccess ∧
      ((∀ e ∈ sampleOffer.users, AppliesTo "carol" e →
          e.access ≤ getApplicationOfferAccess "carol" sampleOffer) ∧
        ((∃ e ∈ sampleOffer.users, AppliesTo "carol" e) →
          ∃ e ∈ sampleOffer.users, AppliesTo "carol" e ∧
            e.access = getApplicationOfferAccess "carol" sampleOffer) ∧
        ((¬ ∃ e ∈ sampleOffer.users, AppliesTo "carol" e) →
          getApplicationOfferAccess "carol" sampleOffer = ApplicationOfferNoAccess) ∧
        (({ user := Everyone, access := ApplicationOfferReadAccess } : OfferUserDetails)
            ∈ sampleOffer.users →
          ApplicationOfferReadAccess ≤ getApplicationOfferAccess "carol" sampleOffer)) :=
  ⟨by decide, by decide, getApplicationOfferAccess_greatest "carol" sampleOffer (by decide)⟩

/-! ## Listing offers -/

theorem evalTopClause_usersIn (regexMatch : String → String → Bool) (o : ApplicationOffer)
    (user : User) (access : ApplicationOfferAccessPermission) :
    evalTopClause regexMatch o (TopClause.usersElemMatchIn [user, Everyone] access) = true ↔
      ∃ e ∈ o.users, AppliesTo user e ∧ access ≤ e.access := by
  simp only [evalTopClause, List.any_eq_true, Bool.and_eq_true, decide_eq_true_eq, AppliesTo]
  constructor
  · rintro ⟨e, he, h1, h2⟩
    refine ⟨e, he, ?_, h2⟩
    simpa using h1
  · rintro ⟨e, he, h1, h2⟩
    refine ⟨e, he, ?_, h2⟩
    simpa using h1

theorem exists_entry_iff_access_le (user : User) (o : ApplicationOffer)
    (access : ApplicationOfferAccessPermission) (hpos : ApplicationOfferNoAccess < access) :
    (∃ e ∈ o.users, AppliesTo user e ∧ access ≤ e.access) ↔
      access ≤ getApplicationOfferAccess user o := by
  obtain ⟨_, g2, g3⟩ := getApplicationOfferAccess_spec user o
  constructor
  · rintro ⟨e, he, hap, hle⟩
    exact le_trans hle (g2 e he hap)
  · intro hle
    rcases g3 with h | ⟨e, he, hap, heq⟩
    · rw [h] at hle
      exact absurd hpos (not_lt.mpr hle)
    · exact ⟨e, he, hap, heq ▸ hle⟩

theorem iterApplicationOffersQuery_all (regexMatch : String → String → Bool)
    (parseUserTag : String → Option User) (quoteMeta : String → String)
    (user : User) (access : ApplicationOfferAccessPermission) (filters : List OfferFilter)
    (o : ApplicationOffer) :
    (iterApplicationOffersQuery parseUserTag quoteMeta user access filters).all
        (evalTopClause regexMatch o) = true ↔
      (∃ e ∈ o.users, AppliesTo user e ∧ access ≤ e.access) ∧
        (filters = [] ∨ ∃ f ∈ filters, matchesFilter regexMatch parseUserTag quoteMeta f o) := by
  rw [← evalTopClause_usersIn regexMatch o user access]
  unfold iterApplicationOffersQuery
  cases filters with
  | nil => simp
  | cons f fs =>
    simp only [List.map_cons, List.length_cons, gt_iff_lt, Nat.zero_lt_succ, if_true,
      List.all_append, List.all_cons, List.all_nil, Bool.and_true, Bool.and_eq_true]
    apply and_congr Iff.rfl
    simp only [evalTopClause, List.any_cons, Bool.or_eq_true, List.any_eq_true, List.mem_map,
      matchesFilter, List.mem_cons, false_or, reduceCtorEq]
    constructor
    · rintro (h | ⟨q, ⟨g, hg, rfl⟩, hq⟩)
      · exact ⟨f, Or.inl rfl, h⟩
      · exact ⟨g, Or.inr hg, hq⟩
    · rintro ⟨g, (rfl | hg), hq⟩
      · exact Or.inl hq
      · exact Or.inr ⟨_, ⟨g, hg, rfl⟩, hq⟩

/-- C6 (as stated) fails at the access level none: an offer with no entry for the user or
for everyone gives the user the access none, which is at least none, yet the query of
`IterApplicationOffers` does not select it. -/
theorem IterApplicationOffers_none_counterexample :
    IterApplicationOffers (fun _ _ => false) some id "bob" ApplicationOfferNoAccess []
        [offerWithUsers "o1" []] = [] ∧
      ApplicationOfferNoAccess ≤ getApplicationOfferAccess "bob" (offerWithUsers "o1" []) ∧
      ¬ SelectsByAccessAndFilters (fun _ _ => false) some id "bob" ApplicationOfferNoAccess []
        [offerWithUsers "o1" []] := by
  refine ⟨by decide, by decide, ?_⟩
  intro h
  have h1 := (h (offerWithUsers "o1" [])).mpr ⟨by simp, by decide, Or.inl rfl⟩
  revert h1
  decide

/-- C6 (amended): for every user, every access level above none (read, consume, admin)
and every filter list, the query built by `IterApplicationOffers` selects exactly the stored
offers to which the user has at least the given level of access
(`getApplicationOfferAccess(user, offer) >= access`, counting "everyone" entries) and that,
when the filter list is non-empty, match at least one of the filters; with an empty filter
list no filter restriction applies. -/
theorem IterApplicationOffers_selects (regexMatch : String → String → Bool)
    (parseUserTag : String → Option User) (quoteMeta : String → String)
    (user : User) (access : ApplicationOfferAccessPermission) (filters : List OfferFilter)
    (db : List ApplicationOffer) (hpos : ApplicationOfferNoAccess < access) :
    SelectsByAccessAndFilters regexMatch parseUserTag quoteMeta user access filters db := by
  intro o
  unfold IterApplicationOffers
  rw [List.mem_filter, iterApplicationOffersQuery_all, exists_entry_iff_access_le user o access hpos]

theorem IterApplicationOffers_selects_witness :
    ApplicationOfferNoAccess < ApplicationOfferReadAccess ∧
      IterApplicationOffers (fun _ _ => false) some id "carol" ApplicationOfferReadAccess
          [modelFilter ""] [publicOffer, duplicateOffer] = [publicOffer] ∧
      SelectsByAccessAndFilters (fun _ _ => false) some id "carol" ApplicationOfferReadAccess
        [modelFilter ""] [publicOffer, duplicateOffer] :=
  ⟨by decide, by decide,
    IterApplicationOffers_selects (fun _ _ => false) some id "carol"
      ApplicationOfferReadAccess [modelFilter ""] [publicOffer, duplicateOffer] (by decide)⟩

/-! ## Machines and applications -/

theorem filter_id_eq_nil {α : Type} (idOf : α → String) (id : String) (c : List α)
    (h : ∀ d ∈ c, idOf d ≠ id) : c.filter (fun d => idOf d == id) = [] := by
  rw [List.filter_eq_nil_iff]
  intro d hd
  simpa using h d hd

theorem not_mem_ids {α : Type} (idOf : α → String) (d : α) (ds : List α)
    (hu : UniqueIds idOf (d :: ds)) : ∀ x ∈ ds, idOf x ≠ idOf d := by
  intro x hx heq
  have h := (List.nodup_cons.mp hu).1
  apply h
  rw [← heq]
  exact List.mem_map_of_mem idOf hx

theorem updateFirst_spec {α : Type} (idOf : α → String) (id : String) (upd : α → α) (ins : α)
    (hupd : ∀ d, idOf d = id → upd d = ins) (hins : idOf ins = id) :
    ∀ c : List α, UniqueIds idOf c → (c.any fun d => idOf d == id) = true →
      (updateFirst (fun d => idOf d == id) upd c).map idOf = c.map idOf ∧
        (updateFirst (fun d => idOf d == id) upd c).filter (fun d => idOf d == id) = [ins] := by
  intro c
  induction c with
  | nil => intro _ h; simp at h
  | cons d ds ih =>
    intro hu hany
    by_cases hd : idOf d = id
    · have hp : (idOf d == id) = true := by simpa using hd
      have e1 : updateFirst (fun d => idOf d == id) upd (d :: ds) = ins :: ds := by
        show (if (idOf d == id) = true then upd d :: ds else _) = _
        rw [if_pos hp, hupd d hd]
      rw [e1]
      refine ⟨by rw [List.map_cons, List.map_cons, hins, hd], ?_⟩
      rw [List.filter_cons, if_pos (by simpa using hins)]
      rw [filter_id_eq_nil idOf id ds (fun x hx => hd ▸ not_mem_ids idOf d ds hu x hx)]
    · have hp : (idOf d == id) = false := by simpa using hd
      have hany2 : (ds.any fun d => idOf d == id) = true := by
        simpa [List.any_cons, hp] using hany
      obtain ⟨h1, h2⟩ := ih (List.nodup_cons.mp hu).2 hany2
      have e1 : updateFirst (fun d => idOf d == id) upd (d :: ds) =
          d :: updateFirst (fun d => idOf d == id) upd ds := by
        show (if (idOf d == id) = true then upd d :: ds else _) = _
        rw [if_neg (by simp [hp])]
      rw [e1]
      refine ⟨by rw [List.map_cons, List.map_cons, h1], ?_⟩
      rw [List.filter_cons, if_neg (by simpa using hd), h2]

theorem UpsertId_spec {α : Type} (idOf : α → String) (id : String) (upd : α → α) (ins : α)
    (hupd : ∀ d, idOf d = id → upd d = ins) (hins : idOf ins = id)
    (c : List α) (hu : UniqueIds idOf c) :
    ∃ c2, UpsertId idOf id upd ins c = .ok c2 ∧ UniqueIds idOf c2 ∧
      c2.filter (fun d => idOf d == id) = [ins] := by
  unfold UpsertId
  by_cases hany : (c.any fun d => idOf d == id) = true
  · rw [if_pos hany]
    obtain ⟨h1, h2⟩ := updateFirst_spec idOf id upd ins hupd hins c hu hany
    refine ⟨_, rfl, ?_, h2⟩
    unfold UniqueIds
    rw [h1]
    exact hu
  · rw [if_neg hany]
    have hno : ∀ d ∈ c, idOf d ≠ id := by
      intro d hd heq
      apply hany
      rw [List.any_eq_true]
      exact ⟨d, hd, by simpa using heq⟩
    refine ⟨_, rfl, ?_, ?_⟩
    · unfold UniqueIds
      rw [List.map_append]
      apply List.Nodup.append hu (List.nodup_singleton _)
      intro x hx hx2
      simp only [List.map_cons, List.map_nil, List.mem_singleton] at hx2
      obtain ⟨d, hd, hdx⟩ := List.mem_map.mp hx
      exact hno d hd (by rw [hdx, hx2, hins])
    · rw [List.filter_append, filter_id_eq_nil idOf id c hno]
      simp [hins]

theorem eraseP_no_id {α : Type} (idOf : α → String) (id : String) :
    ∀ c : List α, UniqueIds idOf c → (c.any fun d => idOf d == id) = true →
      ∀ x ∈ c.eraseP (fun d => idOf d == id), idOf x ≠ id := by
  intro c
  induction c with
  | nil => intro _ h; simp at h
  | cons d ds ih =>
    intro hu hany x hx
    by_cases hd : idOf d = id
    · have hp : (idOf d == id) = true := by simpa using hd
      rw [List.eraseP_cons] at hx
      simp only [hp, cond_true] at hx
      exact hd ▸ not_mem_ids idOf d ds hu x hx
    · have hp : (idOf d == id) = false := by simpa using hd
      rw [List.eraseP_cons] at hx
      simp only [hp, cond_false] at hx
      have hany2 : (ds.any fun d => idOf d == id) = true := by
        simpa [List.any_cons, hd] using hany
      rcases List.mem_cons.mp hx with h | h
      · rw [h]; exact hd
      · exact ih (List.nodup_cons.mp hu).2 hany2 x h

theorem RemoveId_spec {α : Type} (idOf : α → String) (id : String) (c : List α)
    (hu : UniqueIds idOf c) :
    (∃ c2, RemoveId idOf id c = .ok c2 ∧ UniqueIds idOf c2 ∧ (∃ d ∈ c, idOf d = id) ∧
        ∀ x ∈ c2, idOf x ≠ id) ∨
      (RemoveId idOf id c = .error MgoError.ErrNotFound ∧ ∀ x ∈ c, idOf x ≠ id) := by
  unfold RemoveId
  by_cases hany : (c.any fun d => idOf d == id) = true
  · left
    rw [if_pos hany]
    refine ⟨_, rfl, ?_, ?_, eraseP_no_id idOf id c hu hany⟩
    · exact List.Nodup.sublist ((List.eraseP_sublist c).map idOf) hu
    · rw [List.any_eq_true] at hany
      obtain ⟨d, hd, hp⟩ := hany
      exact ⟨d, hd, by simpa using hp⟩
  · right
    rw [if_neg hany]
    refine ⟨rfl, ?_⟩
    intro d hd heq
    apply hany
    rw [List.any_eq_true]
    exact ⟨d, hd, by simpa using heq⟩

theorem forModel_filter_id {α : Type} (idOf : α → String) (q : α → Bool) (r : α → α → Prop)
    [DecidableRel r] (c : List α) (id : String) (ins : α)
    (hf : c.filter (fun d => idOf d == id) = [ins]) (hq : q ins = true) :
    ((c.filter q).insertionSort r).filter (fun d => idOf d == id) = [ins] := by
  have hperm := (List.perm_insertionSort r (c.filter q)).filter (fun d => idOf d == id)
  have heq : (c.filter q).filter (fun d => idOf d == id) = [ins] := by
    rw [List.filter_comm, hf]
    simp [hq]
  rw [heq] at hperm
  exact List.perm_singleton.mp hperm

theorem forModel_no_id {α : Type} (idOf : α → String) (q : α → Bool) (r : α → α → Prop)
    [DecidableRel r] (c : List α) (id : String) (h : ∀ x ∈ c, idOf x ≠ id) :
    ¬ ∃ d ∈ (c.filter q).insertionSort r, idOf d = id := by
  rintro ⟨d, hd, heq⟩
  have hm := (List.perm_insertionSort r (c.filter q)).mem_iff.mp hd
  exact h d (List.mem_filter.mp hm).1 heq

theorem exists_of_filter_eq_singleton {α : Type} (p : α → Bool) (l : List α) (x : α)
    (h : l.filter p = [x]) : x ∈ l ∧ p x = true := by
  have : x ∈ l.filter p := by rw [h]; exact List.mem_singleton_self x
  exact List.mem_filter.mp this

theorem machineUpdateRule (m : Machine) (db : List Machine) (hu : UniqueIds Machine.id db) :
    MachineUpdateRule m db := by
  unfold MachineUpdateRule
  by_cases hdead : m.info.life = "dead"
  · have hb : (m.info.life == "dead") = true := by simpa using hdead
    rcases RemoveId_spec Machine.id (machineId m) db hu with ⟨c2, h1, h2, hex, h4⟩ | ⟨h1, h2⟩
    · refine ⟨c2, _, ?_, h2, rfl, ?_, ?_, ?_⟩
      · simp [UpdateMachineInfo, hb, h1]
      · constructor
        · intro h
          exact absurd h (forModel_no_id Machine.id _ _ c2 _ h4)
        · intro h
          exact absurd hdead h
      · intro h
        exact absurd hdead h
      · rintro ⟨_, hno⟩
        exact absurd hex hno
    · refine ⟨db, _, ?_, hu, rfl, ?_, ?_, ?_⟩
      · simp [UpdateMachineInfo, hb, h1]
      · constructor
        · intro h
          exact absurd h (forModel_no_id Machine.id _ _ db _ h2)
        · intro h
          exact absurd hdead h
      · intro h
        exact absurd hdead h
      · intro _
        rfl
  · have hb : (m.info.life == "dead") = false := by simpa using hdead
    obtain ⟨c2, h1, h2, h3⟩ := UpsertId_spec Machine.id (machineId m)
      (fun d => { d with info := m.info, controller := m.controller, cloud := m.cloud,
                         region := m.region })
      { id := machineId m, info := m.info, controller := m.controller, cloud := m.cloud,
        region := m.region }
      (by intro d hd; cases d; simp only at hd; subst hd; rfl) rfl db hu
    have h4 := forModel_filter_id Machine.id (fun d => d.info.modelUUID == m.info.modelUUID)
      (fun a b => a.id ≤ b.id) c2 (machineId m) _ h3 (by simp)
    refine ⟨c2, _, ?_, h2, rfl, ?_, ?_, ?_⟩
    · simp [UpdateMachineInfo, hb, h1]
    · constructor
      · intro _
        exact hdead
      · intro _
        obtain ⟨g1, g2⟩ := exists_of_filter_eq_singleton _ _ _ h4
        exact ⟨_, g1, rfl⟩
    · intro _
      exact h4
    · rintro ⟨h, _⟩
      exact absurd h hdead

theorem applicationUpdateRule (app : Application) (db : List Application)
    (hu : UniqueIds Application.id db) : ApplicationUpdateRule app db := by
  unfold ApplicationUpdateRule
  by_cases hdead : app.info.life = "dead"
  · have hb : (app.info.life == "dead") = true := by simpa using hdead
    rcases RemoveId_spec Application.id (applicationId app) db hu with
      ⟨c2, h1, h2, hex, h4⟩ | ⟨h1, h2⟩
    · refine ⟨c2, _, ?_, h2, rfl, ?_, ?_, ?_⟩
      · simp [UpdateApplicationInfo, hb, h1]
      · constructor
        · intro h
          exact absurd h (forModel_no_id Application.id _ _ c2 _ h4)
        · intro h
          exact absurd hdead h
      · intro h
        exact absurd hdead h
      · rintro ⟨_, hno⟩
        exact absurd hex hno
    · refine ⟨db, _, ?_, hu, rfl, ?_, ?_, ?_⟩
      · simp [UpdateApplicationInfo, hb, h1]
      · constructor
        · intro h
          exact absurd h (forModel_no_id Application.id _ _ db _ h2)
        · intro h
          exact absurd hdead h
      · intro h
        exact absurd hdead h
      · intro _
        rfl
  · have hb : (app.info.life == "dead") = false := by simpa using hdead
    obtain ⟨c2, h1, h2, h3⟩ := UpsertId_spec Application.id (applicationId app)
      (fun d => { d with info := app.info, controller := app.controller, cloud := app.cloud,
                         region := app.region })
      { id := applicationId app, info := app.info, controller := app.controller,
        cloud := app.cloud, region := app.region }
      (by intro d hd; cases d; simp only at hd; subst hd; rfl) rfl db hu
    have h4 := forModel_filter_id Application.id
      (fun d => d.info.modelUUID == app.info.modelUUID)
      (fun a b => a.id ≤ b.id) c2 (applicationId app) _ h3 (by simp)
    refine ⟨c2, _, ?_, h2, rfl, ?_, ?_, ?_⟩
    · simp [UpdateApplicationInfo, hb, h1]
    · constructor
      · intro _
        exact hdead
      · intro _
        obtain ⟨g1, g2⟩ := exists_of_filter_eq_singleton _ _ _ h4
        exact ⟨_, g1, rfl⟩
    · intro _
      exact h4
    · rintro ⟨h, _⟩
      exact absurd h hdead

/-- C7: in a collection whose documents have distinct `_id`s, for every machine update m,
`UpdateMachineInfo(m)` succeeds and `MachinesForModel(m.Info.ModelUUID)` then contains a
record with the composite id `<controller> <modelUUID> <id>` if and only if m.Info.Life is
not "dead"; when present that record is the only one with this id and carries m's info,
controller, cloud and region; removing a dead machine that is not stored succeeds and
leaves the collection as it was.  `UpdateApplicationInfo` and `ApplicationsForModel` obey
the same rule with the application name in place of the machine id. -/
theorem update_info_tombstone_rule (m : Machine) (machines : List Machine)
    (app : Application) (applications : List Application)
    (hm : UniqueIds Machine.id machines) (ha : UniqueIds Application.id applications) :
    MachineUpdateRule m machines ∧ ApplicationUpdateRule app applications :=
  ⟨machineUpdateRule m machines hm, applicationUpdateRule app applications ha⟩

theorem update_info_tombstone_rule_witness :
    UniqueIds Machine.id [storedMachine] ∧ UniqueIds Application.id [storedApplication] ∧
      UpdateMachineInfo (sampleMachine "dead") [storedMachine] = .ok [] ∧
      UpdateApplicationInfo (sampleApplication "dying") [storedApplication] =
        .ok [{ storedApplication with info := (sampleApplication "dying").info }] ∧
      MachineUpdateRule (sampleMachine "dead") [storedMachine] ∧
      ApplicationUpdateRule (sampleApplication "dying") [storedApplication] :=
  ⟨by decide, by decide, rfl, rfl,
    update_info_tombstone_rule (sampleMachine "dead") [storedMachine]
      (sampleApplication "dying") [storedApplication] (by decide) (by decide)⟩

/-! ## Read ACLs -/

theorem GetACL_of_missing (c : List ACLDoc) (path : EntityPath)
    (h : FindId ACLDoc.id path.String c = none) :
    GetACL c path = .error ErrorCode.ErrNotFound := by
  simp [GetACL, h]

theorem GetACL_of_stored (c : List ACLDoc) (path : EntityPath) (doc : ACLDoc)
    (h : FindId ACLDoc.id path.String c = some doc) : GetACL c path = .ok doc.acl := by
  simp [GetACL, h]

/-- C8 (as stated) fails: for a missing entity and an identity that cannot act as the
owner of the path, `CheckReadACL` fails with the cause Unauthorized, not NotFound. -/
theorem CheckReadACL_missing_counterexample :
    FindId ACLDoc.id (EntityPath.String { user := "bob", name := "m1" }) [] = none ∧
      cause (nameAuth.CheckIsUser "alice" "bob") ≠ none ∧
      cause (CheckReadACL nameAuth "alice" [] { user := "bob", name := "m1" })
        = some ErrorCode.ErrUnauthorized ∧
      cause (CheckReadACL nameAuth "alice" [] { user := "bob", name := "m1" })
        ≠ some ErrorCode.ErrNotFound := by
  decide

/-- C8 (amended): when the entity at the given path does not exist in the collection and
the authenticated identity cannot act as the owner of the path, `CheckReadACL` fails with
an error whose cause is Unauthorized. -/
theorem CheckReadACL_missing_unauthorized {Identity : Type} (auth : Auth Identity)
    (id : Identity) (c : List ACLDoc) (path : EntityPath)
    (hmissing : FindId ACLDoc.id path.String c = none)
    (hother : cause (auth.CheckIsUser id path.user) ≠ none) :
    CheckReadACL auth id c path = .error ErrorCode.ErrUnauthorized := by
  unfold CheckReadACL
  cases hc : auth.CheckIsUser id path.user with
  | ok u => rw [hc] at hother; exact absurd rfl hother
  | error e => simp [GetACL_of_missing c path hmissing, cause]

theorem CheckReadACL_missing_unauthorized_witness :
    FindId ACLDoc.id (EntityPath.String { user := "bob", name := "m2" }) sampleEntities = none ∧
      cause (nameAuth.CheckIsUser "alice" "bob") ≠ none ∧
      CheckReadACL nameAuth "alice" sampleEntities { user := "bob", name := "m2" }
        = .error ErrorCode.ErrUnauthorized :=
  ⟨by decide, by decide,
    CheckReadACL_missing_unauthorized nameAuth "alice" sampleEntities
      { user := "bob", name := "m2" } (by decide) (by decide)⟩

/-- C9: for every path and every identity that can act as the user named by path.User,
`CheckReadACL` returns no error, whatever the ACL of the entity holds and whether or not
the entity exists; for any other identity and an existing entity it succeeds exactly when
the identity passes the ACL check on the read list of the entity. -/
theorem CheckReadACL_owner_or_acl {Identity : Type} (auth : Auth Identity) (id : Identity)
    (c : List ACLDoc) (path : EntityPath) :
    (cause (auth.CheckIsUser id path.user) = none → CheckReadACL auth id c path = .ok ()) ∧
      (∀ doc, cause (auth.CheckIsUser id path.user) ≠ none →
        FindId ACLDoc.id path.String c = some doc →
        (CheckReadACL auth id c path = .ok () ↔ auth.CheckACL id doc.acl.read = .ok ())) := by
  constructor
  · intro h
    unfold CheckReadACL
    cases hc : auth.CheckIsUser id path.user with
    | ok u => rfl
    | error e => rw [hc] at h; cases h
  · intro doc hother hstored
    unfold CheckReadACL
    cases hc : auth.CheckIsUser id path.user with
    | ok u => rw [hc] at hother; exact absurd rfl hother
    | error e =>
      simp only [GetACL_of_stored c path doc hstored, cause]
      cases hacl : auth.CheckACL id doc.acl.read with
      | ok u => simp
      | error e2 =>
        by_cases he : e2 = ErrorCode.ErrUnauthorized <;> simp [he]

theorem CheckReadACL_owner_or_acl_witness :
    cause (nameAuth.CheckIsUser "bob" "bob") = none ∧
      CheckReadACL nameAuth "bob" [] { user := "bob", name := "m1" } = .ok () ∧
      cause (nameAuth.CheckIsUser "alice" "bob") ≠ none ∧
      CheckReadACL nameAuth "alice" sampleEntities { user := "bob", name := "m1" } = .ok () ∧
      cause (CheckReadACL nameAuth "carol" sampleEntities { user := "bob", name := "m1" })
        = some ErrorCode.ErrUnauthorized :=
  ⟨by decide,
    (CheckReadACL_owner_or_acl nameAuth "bob" [] { user := "bob", name := "m1" }).1 (by decide),
    by decide,
    ((CheckReadACL_owner_or_acl nameAuth "alice" sampleEntities
      { user := "bob", name := "m1" }).2 _ (by decide) (by decide : _ = some
        ({ id := "bob/m1", acl := { read := ["alice"], write := [], admin := [] } } : ACLDoc))).mpr
      rfl,
    by decide⟩

/-! ## Monitor lease -/

/-- C10: `AcquireMonitorLease(ctl, oldExpiry, oldOwner, newExpiry, newOwner)` succeeds if
and only if the controller exists and its stored lease owner equals oldOwner and its stored
lease expiry equals oldExpiry as UTC instants; it fails with NotFound for an unknown
controller and with LeaseUnavailable on a mismatch, and on every failure the state, and so
the lease owner and expiry of the controller, is left unchanged. -/
theorem AcquireMonitorLease_compare_and_set (mongodocTime : Time → Time)
    (s : jemShimInMemory) (ctlPath : EntityPath) (oldExpiry : Time) (oldOwner : String)
    (newExpiry : Time) (newOwner : String) :
    (cause (s.AcquireMonitorLease mongodocTime ctlPath oldExpiry oldOwner newExpiry newOwner).2
          = none ↔
        ∃ ctl, s.controllers ctlPath = some ctl ∧ ctl.monitorLeaseOwner = oldOwner ∧
          ctl.monitorLeaseExpiry.UTC.instant = oldExpiry.UTC.instant) ∧
      (s.controllers ctlPath = none →
        (s.AcquireMonitorLease mongodocTime ctlPath oldExpiry oldOwner newExpiry newOwner).2
          = .error ErrorCode.ErrNotFound) ∧
      (∀ ctl, s.controllers ctlPath = some ctl →
        (ctl.monitorLeaseOwner ≠ oldOwner ∨
          ctl.monitorLeaseExpiry.UTC.instant ≠ oldExpiry.UTC.instant) →
        (s.AcquireMonitorLease mongodocTime ctlPath oldExpiry oldOwner newExpiry newOwner).2
          = .error ErrorCode.ErrLeaseUnavailable) ∧
      (cause (s.AcquireMonitorLease mongodocTime ctlPath oldExpiry oldOwner newExpiry newOwner).2
          ≠ none →
        (s.AcquireMonitorLease mongodocTime ctlPath oldExpiry oldOwner newExpiry
            newOwner).1.controllers = s.controllers ∧
          (s.AcquireMonitorLease mongodocTime ctlPath oldExpiry oldOwner newExpiry
            newOwner).1.lease ctlPath = s.lease ctlPath) := by
  unfold jemShimInMemory.AcquireMonitorLease
  cases hc : s.controllers ctlPath with
  | none => simp [cause]
  | some ctl =>
    by_cases ho : ctl.monitorLeaseOwner = oldOwner
    · by_cases he : ctl.monitorLeaseExpiry.UTC.instant = oldExpiry.UTC.instant
      · simp [cause, ho, he, Time.Equal]
      · simp [cause, ho, he, Time.Equal]
    · simp [cause, ho]

theorem AcquireMonitorLease_compare_and_set_witness :
    cause ((shimWithLease "jimm-1" { instant := 5000, loc := "UTC" }).AcquireMonitorLease id
        { user := "bob", name := "c1" } { instant := 5000, loc := "Local" } "jimm-1"
        { instant := 9000, loc := "UTC" } "jimm-1").2 = none ∧
      cause ((shimWithLease "jimm-1" { instant := 5000, loc := "UTC" }).AcquireMonitorLease id
        { user := "bob", name := "c1" } { instant := 5000, loc := "UTC" } "jimm-2"
        { instant := 9000, loc := "UTC" } "jimm-2").2 = some ErrorCode.ErrLeaseUnavailable ∧
      cause ((shimWithLease "jimm-1" { instant := 5000, loc := "UTC" }).AcquireMonitorLease id
        { user := "bob", name := "c2" } { instant := 5000, loc := "UTC" } "jimm-1"
        { instant := 9000, loc := "UTC" } "jimm-1").2 = some ErrorCode.ErrNotFound :=
  ⟨(AcquireMonitorLease_compare_and_set id (shimWithLease "jimm-1" { instant := 5000, loc := "UTC" })
      { user := "bob", name := "c1" } { instant := 5000, loc := "Local" } "jimm-1"
      { instant := 9000, loc := "UTC" } "jimm-1").1.mpr ⟨_, rfl, rfl, rfl⟩,
    by decide, by decide⟩

/-! ## Monitor lease: sequences of calls -/

theorem acquire_of_none (mongodocTime : Time → Time) (s : jemShimInMemory) (c : LeaseCall)
    (hc : s.controllers c.ctlPath = none) :
    s.acquire mongodocTime c = (s, .error ErrorCode.ErrNotFound) := by
  simp only [jemShimInMemory.acquire, jemShimInMemory.AcquireMonitorLease, hc]

theorem acquire_of_mismatch (mongodocTime : Time → Time) (s : jemShimInMemory) (c : LeaseCall)
    (ctl : Controller) (hc : s.controllers c.ctlPath = some ctl)
    (hm : (ctl.monitorLeaseOwner != c.oldOwner ||
      !(ctl.monitorLeaseExpiry.UTC.Equal c.oldExpiry.UTC)) = true) :
    s.acquire mongodocTime c = (s, .error ErrorCode.ErrLeaseUnavailable) := by
  simp only [jemShimInMemory.acquire, jemShimInMemory.AcquireMonitorLease, hc, hm, if_true]

theorem acquire_of_match (mongodocTime : Time → Time) (s : jemShimInMemory) (c : LeaseCall)
    (ctl : Controller) (hc : s.controllers c.ctlPath = some ctl)
    (hm : ¬ (ctl.monitorLeaseOwner != c.oldOwner ||
      !(ctl.monitorLeaseExpiry.UTC.Equal c.oldExpiry.UTC)) = true) :
    cause (s.acquire mongodocTime c).2 = none ∧
      (s.acquire mongodocTime c).1.leaseOwner c.ctlPath = some c.newOwner ∧
      ∀ p, p ≠ c.ctlPath → (s.acquire mongodocTime c).1.controllers p = s.controllers p := by
  have he : s.acquire mongodocTime c =
      ({ s with controllers := fun p =>
          if p = c.ctlPath then
            some (if c.newOwner == "" then
              { ctl with monitorLeaseOwner := c.newOwner, monitorLeaseExpiry := Time.zero }
            else
              { ctl with monitorLeaseOwner := c.newOwner,
                         monitorLeaseExpiry := mongodocTime c.newExpiry })
          else s.controllers p },
        .ok (if c.newOwner == "" then
              { ctl with monitorLeaseOwner := c.newOwner, monitorLeaseExpiry := Time.zero }
            else
              { ctl with monitorLeaseOwner := c.newOwner,
                         monitorLeaseExpiry := mongodocTime c.newExpiry }).monitorLeaseExpiry) := by
    simp only [jemShimInMemory.acquire, jemShimInMemory.AcquireMonitorLease, hc]
    rw [if_neg hm]
  rw [he]
  refine ⟨rfl, ?_, fun p hp => ?_⟩
  · simp only [jemShimInMemory.leaseOwner, if_true, Option.map_some']
    by_cases hn : (c.newOwner == "") = true
    · rw [if_pos hn]
    · rw [if_neg hn]
  · simp only
    rw [if_neg hp]

theorem acquire_installs_owner (mongodocTime : Time → Time) (s : jemShimInMemory)
    (c : LeaseCall) (h : cause (s.acquire mongodocTime c).2 = none) :
    (s.acquire mongodocTime c).1.leaseOwner c.ctlPath = some c.newOwner := by
  cases hc : s.controllers c.ctlPath with
  | none =>
    rw [acquire_of_none mongodocTime s c hc] at h
    simp [cause] at h
  | some ctl =>
    by_cases hm : (ctl.monitorLeaseOwner != c.oldOwner ||
        !(ctl.monitorLeaseExpiry.UTC.Equal c.oldExpiry.UTC)) = true
    · rw [acquire_of_mismatch mongodocTime s c ctl hc hm] at h
      simp [cause] at h
    · exact (acquire_of_match mongodocTime s c ctl hc hm).2.1

theorem acquire_fails_of_other_owner (mongodocTime : Time → Time) (s : jemShimInMemory)
    (c : LeaseCall) (owner : String) (hown : s.leaseOwner c.ctlPath = some owner)
    (hne : c.oldOwner ≠ owner) :
    s.acquire mongodocTime c = (s, .error ErrorCode.ErrLeaseUnavailable) := by
  unfold jemShimInMemory.leaseOwner at hown
  cases hc : s.controllers c.ctlPath with
  | none => rw [hc] at hown; simp at hown
  | some ctl =>
    rw [hc] at hown
    simp only [Option.map_some', Option.some.injEq] at hown
    apply acquire_of_mismatch mongodocTime s c ctl hc
    have : (ctl.monitorLeaseOwner != c.oldOwner) = true := by
      rw [hown]
      simpa using fun h => hne h.symm
    simp [this]

theorem acquire_keeps_owner (mongodocTime : Time → Time) (s : jemShimInMemory)
    (c : LeaseCall) (p : EntityPath) (owner : String)
    (hown : s.leaseOwner p = some owner)
    (hfail : c.ctlPath = p → c.oldOwner = owner → cause (s.acquire mongodocTime c).2 ≠ none) :
    (s.acquire mongodocTime c).1.leaseOwner p = some owner := by
  cases hc : s.controllers c.ctlPath with
  | none =>
    rw [acquire_of_none mongodocTime s c hc]
    exact hown
  | some ctl =>
    by_cases hm : (ctl.monitorLeaseOwner != c.oldOwner ||
        !(ctl.monitorLeaseExpiry.UTC.Equal c.oldExpiry.UTC)) = true
    · rw [acquire_of_mismatch mongodocTime s c ctl hc hm]
      exact hown
    · obtain ⟨h1, _, h3⟩ := acquire_of_match mongodocTime s c ctl hc hm
      by_cases hp : c.ctlPath = p
      · by_cases ho : c.oldOwner = owner
        · exact absurd h1 (hfail hp ho)
        · rw [acquire_fails_of_other_owner mongodocTime s c owner (hp ▸ hown) ho]
          exact hown
      · unfold jemShimInMemory.leaseOwner at hown ⊢
        rw [h3 p (fun h => hp h.symm)]
        exact hown

theorem runLeaseCalls_keeps_owner (mongodocTime : Time → Time) (p : EntityPath)
    (owner : String) :
    ∀ (cs : List LeaseCall) (s : jemShimInMemory), s.leaseOwner p = some owner →
      NoCallByOwnerSucceeds mongodocTime p owner s cs →
      (runLeaseCalls mongodocTime s cs).leaseOwner p = some owner := by
  intro cs
  induction cs with
  | nil => intro s h _; exact h
  | cons c cs ih =>
    intro s h hn
    exact ih _ (acquire_keeps_owner mongodocTime s c p owner h hn.1) hn.2

/-- C11: after a successful `AcquireMonitorLease` that installs the owner `new` on a
controller (empty or not), every later `AcquireMonitorLease` call on that controller whose
oldOwner differs from `new` fails with LeaseUnavailable and changes nothing, for as long as
no call made with oldOwner = new has succeeded; throughout, the controller has the one
lease owner `new`. -/
theorem lease_held_until_owner_call (mongodocTime : Time → Time) (s0 : jemShimInMemory)
    (first : LeaseCall) (later : List LeaseCall) (c : LeaseCall)
    (hfirst : cause (s0.acquire mongodocTime first).2 = none)
    (hnone : NoCallByOwnerSucceeds mongodocTime first.ctlPath first.newOwner
      (s0.acquire mongodocTime first).1 later)
    (hc : c.ctlPath = first.ctlPath) (hne : c.oldOwner ≠ first.newOwner) :
    (runLeaseCalls mongodocTime (s0.acquire mongodocTime first).1 later).leaseOwner
        first.ctlPath = some first.newOwner ∧
      (runLeaseCalls mongodocTime (s0.acquire mongodocTime first).1 later).acquire
          mongodocTime c =
        (runLeaseCalls mongodocTime (s0.acquire mongodocTime first).1 later,
          .error ErrorCode.ErrLeaseUnavailable) := by
  have h1 := runLeaseCalls_keeps_owner mongodocTime first.ctlPath first.newOwner later _
    (acquire_installs_owner mongodocTime s0 first hfirst) hnone
  exact ⟨h1, acquire_fails_of_other_owner mongodocTime _ c first.newOwner (hc ▸ h1) hne⟩

theorem lease_held_until_owner_call_witness :
    cause ((shimWithLease "" Time.zero).acquire id jimm1Acquires).2 = none ∧
      NoCallByOwnerSucceeds id jimm1Acquires.ctlPath jimm1Acquires.newOwner
        ((shimWithLease "" Time.zero).acquire id jimm1Acquires).1 [jimm1StaleRenewal] ∧
      (runLeaseCalls id ((shimWithLease "" Time.zero).acquire id jimm1Acquires).1
          [jimm1StaleRenewal]).leaseOwner jimm1Acquires.ctlPath = some "jimm-1" ∧
      cause ((runLeaseCalls id ((shimWithLease "" Time.zero).acquire id jimm1Acquires).1
          [jimm1StaleRenewal]).acquire id jimm2Acquires).2
        = some ErrorCode.ErrLeaseUnavailable :=
  have h := lease_held_until_owner_call id (shimWithLease "" Time.zero) jimm1Acquires
    [jimm1StaleRenewal] jimm2Acquires (by decide) ⟨fun _ _ => by decide, trivial⟩
    (by decide) (by decide)
  ⟨by decide, ⟨fun _ _ => by decide, trivial⟩, h.1, by rw [h.2]; rfl⟩

/-! ## Controller availability -/

theorem SetControllerUnavailableAt_of_nonzero (mongodocTime : Time → Time)
    (s : jemShimInMemory) (p : EntityPath) (ctl : Controller) (t : Time)
    (hc : s.controllers p = some ctl) (hz : ctl.unavailableSince.IsZero = false) :
    s.SetControllerUnavailableAt mongodocTime p t = (s, .ok ()) := by
  simp [jemShimInMemory.SetControllerUnavailableAt, hc, hz]

theorem SetControllerUnavailableAt_of_zero (mongodocTime : Time → Time)
    (s : jemShimInMemory) (p : EntityPath) (ctl : Controller) (t : Time)
    (hc : s.controllers p = some ctl) (hz : ctl.unavailableSince.IsZero = true) :
    s.SetControllerUnavailableAt mongodocTime p t =
      ({ s with controllers := fun q =>
          if q = p then some { ctl with unavailableSince := mongodocTime t }
          else s.controllers q }, .ok ()) := by
  simp [jemShimInMemory.SetControllerUnavailableAt, hc, hz]

theorem setUnavailableSeq_of_nonzero (mongodocTime : Time → Time) (p : EntityPath)
    (ctl : Controller) (ts : List Time) (s : jemShimInMemory)
    (hc : s.controllers p = some ctl) (hz : ctl.unavailableSince.IsZero = false) :
    setUnavailableSeq mongodocTime p s ts = s := by
  induction ts with
  | nil => rfl
  | cons t ts ih =>
    simp only [setUnavailableSeq]
    rw [SetControllerUnavailableAt_of_nonzero mongodocTime s p ctl t hc hz]
    exact ih

/-- C12: for every controller whose unavailableSince is non-zero,
`SetControllerUnavailableAt(ctl, t)` leaves the state, and so unavailableSince, unchanged
for every t, and so does every sequence of such calls; hence of a sequence of calls not
separated by `SetControllerAvailable` that starts from a zero unavailableSince only the
first time (stored non-zero) is kept.  When unavailableSince is zero the call sets it to t,
as `mongodoc.Time` stores it, and `SetControllerAvailable` resets it to zero.  None of
these calls returns an error. -/
theorem unavailableSince_keeps_first_time (mongodocTime : Time → Time) (s : jemShimInMemory)
    (p : EntityPath) (ctl : Controller) (hc : s.controllers p = some ctl) :
    (ctl.unavailableSince.IsZero = false →
        (∀ t, s.SetControllerUnavailableAt mongodocTime p t = (s, .ok ())) ∧
          ∀ ts, setUnavailableSeq mongodocTime p s ts = s) ∧
      (ctl.unavailableSince.IsZero = true →
        ∀ t, cause (s.SetControllerUnavailableAt mongodocTime p t).2 = none ∧
          (s.SetControllerUnavailableAt mongodocTime p t).1.controllers p =
            some { ctl with unavailableSince := mongodocTime t } ∧
          ((mongodocTime t).IsZero = false →
            ∀ ts, setUnavailableSeq mongodocTime p s (t :: ts) =
              (s.SetControllerUnavailableAt mongodocTime p t).1)) ∧
      (cause (s.SetControllerAvailable p).2 = none ∧
        (s.SetControllerAvailable p).1.controllers p =
          some { ctl with unavailableSince := Time.zero }) := by
  refine ⟨fun hz => ⟨fun t => SetControllerUnavailableAt_of_nonzero mongodocTime s p ctl t hc hz,
    fun ts => setUnavailableSeq_of_nonzero mongodocTime p ctl ts s hc hz⟩, fun hz t => ?_, ?_⟩
  · rw [SetControllerUnavailableAt_of_zero mongodocTime s p ctl t hc hz]
    refine ⟨rfl, by simp, fun hnz ts => ?_⟩
    simp only [setUnavailableSeq]
    rw [SetControllerUnavailableAt_of_zero mongodocTime s p ctl t hc hz]
    exact setUnavailableSeq_of_nonzero mongodocTime p
      { ctl with unavailableSince := mongodocTime t } ts _ (by simp) hnz
  · simp [jemShimInMemory.SetControllerAvailable, hc, cause]

theorem unavailableSince_keeps_first_time_witness :
    (shimUnavailableSince Time.zero).controllers { user := "bob", name := "c1" } =
        some { path := { user := "bob", name := "c1" }, unavailableSince := Time.zero,
               monitorLeaseOwner := "", monitorLeaseExpiry := Time.zero } ∧
      (setUnavailableSeq id { user := "bob", name := "c1" } (shimUnavailableSince Time.zero)
          [{ instant := 100, loc := "UTC" }, { instant := 200, loc := "UTC" },
            { instant := 300, loc := "UTC" }]).unavailableSince { user := "bob", name := "c1" }
        = some { instant := 100, loc := "UTC" } ∧
      setUnavailableSeq id { user := "bob", name := "c1" } (shimUnavailableSince Time.zero)
          [{ instant := 100, loc := "UTC" }, { instant := 200, loc := "UTC" }] =
        ((shimUnavailableSince Time.zero).SetControllerUnavailableAt id
          { user := "bob", name := "c1" } { instant := 100, loc := "UTC" }).1 :=
  ⟨by decide, by decide,
    ((unavailableSince_keeps_first_time id (shimUnavailableSince Time.zero)
      { user := "bob", name := "c1" }
      { path := { user := "bob", name := "c1" }, unavailableSince := Time.zero,
        monitorLeaseOwner := "", monitorLeaseExpiry := Time.zero } (by decide)).2.1 (by decide)
      { instant := 100, loc := "UTC" }).2.2 (by decide) [{ instant := 200, loc := "UTC" }]⟩

/-! ## Credentials -/

theorem find?_updateFirst {α : Type} (idOf : α → String) (id : String) (upd : α → α)
    (hupd : ∀ d, idOf (upd d) = idOf d) :
    ∀ c : List α, (updateFirst (fun d => idOf d == id) upd c).find? (fun d => idOf d == id) =
      (c.find? fun d => idOf d == id).map upd := by
  intro c
  induction c with
  | nil => rfl
  | cons d ds ih =>
    by_cases hd : (idOf d == id) = true
    · have e1 : updateFirst (fun d => idOf d == id) upd (d :: ds) = upd d :: ds := by
        show (if (idOf d == id) = true then upd d :: ds else _) = _
        rw [if_pos hd]
      have hd2 : (idOf (upd d) == id) = true := by rw [hupd]; exact hd
      rw [e1]
      simp only [List.find?_cons, hd, hd2, Option.map_some']
    · have hd1 : (idOf d == id) = false := by simpa using hd
      have e1 : updateFirst (fun d => idOf d == id) upd (d :: ds) =
          d :: updateFirst (fun d => idOf d == id) upd ds := by
        show (if (idOf d == id) = true then upd d :: ds else _) = _
        rw [if_neg hd]
      rw [e1]
      simp only [List.find?_cons, hd1]
      exact ih

theorem any_id_iff_FindId {α : Type} (idOf : α → String) (id : String) (c : List α) :
    (c.any fun d => idOf d == id) = true ↔ ∃ d, FindId idOf id c = some d := by
  unfold FindId
  rw [List.any_eq_true]
  constructor
  · rintro ⟨d, hd, hp⟩
    cases h : c.find? fun d => idOf d == id with
    | none =>
      rw [List.find?_eq_none] at h
      exact absurd hp (h d hd)
    | some x => exact ⟨x, rfl⟩
  · rintro ⟨d, h⟩
    exact ⟨d, List.mem_of_find?_eq_some h, by simpa using List.find?_some h⟩

theorem FindId_UpsertId {α : Type} (idOf : α → String) (id : String) (upd : α → α) (ins : α)
    (hupd : ∀ d, idOf (upd d) = idOf d) (hins : idOf ins = id) (c : List α) :
    ∃ c2, UpsertId idOf id upd ins c = .ok c2 ∧
      FindId idOf id c2 =
        some (match FindId idOf id c with
          | some d => upd d
          | none => ins) := by
  unfold UpsertId
  by_cases hany : (c.any fun d => idOf d == id) = true
  · rw [if_pos hany]
    refine ⟨_, rfl, ?_⟩
    obtain ⟨d, hd⟩ := (any_id_iff_FindId idOf id c).mp hany
    rw [hd]
    unfold FindId at hd ⊢
    rw [find?_updateFirst idOf id upd hupd, hd]
    rfl
  · rw [if_neg hany]
    refine ⟨_, rfl, ?_⟩
    have hnone : FindId idOf id c = none := by
      cases h : FindId idOf id c with
      | none => rfl
      | some d => exact absurd ((any_id_iff_FindId idOf id c).mpr ⟨d, h⟩) hany
    rw [hnone]
    unfold FindId at hnone ⊢
    rw [List.find?_append, hnone]
    simp [hins]

theorem GetCredential_of_FindId (c : Credential) (db : List Credential) (r : Credential)
    (h : FindId Credential.id c.path.String db = some r) : GetCredential c db = .ok r := by
  simp only [GetCredential, h]

/-- C13 (as stated) fails: a credential whose ACL has an empty read list is written
without its ACL, so the ACL stored before (here with the reader alice) is what
`GetCredential` returns. -/
theorem UpdateCredential_acl_counterexample :
    (UpdateCredential (sampleCredential "new" ACL.zero)
        [sampleCredential "old" { read := ["alice"], write := [], admin := [] }]).toOption
      = some [sampleCredential "new" { read := ["alice"], write := [], admin := [] }] ∧
      ¬ CredentialRoundTrip (sampleCredential "new" ACL.zero)
        [sampleCredential "old" { read := ["alice"], write := [], admin := [] }] := by
  refine ⟨by decide, ?_⟩
  rintro ⟨db2, r, h1, h2, _, _, _, _, _, _, hacl⟩
  have e1 : UpdateCredential (sampleCredential "new" ACL.zero)
      [sampleCredential "old" { read := ["alice"], write := [], admin := [] }] =
      .ok [sampleCredential "new" { read := ["alice"], write := [], admin := [] }] := rfl
  rw [e1] at h1
  cases h1
  have e2 : GetCredential (sampleCredential "new" ACL.zero)
      [sampleCredential "new" { read := ["alice"], write := [], admin := [] }] =
      .ok (sampleCredential "new" { read := ["alice"], write := [], admin := [] }) := rfl
  rw [e2] at h2
  cases h2
  revert hacl
  decide

/-- C13 (amended): for every credential c and every prior catalog state in which the
credential stored under the id of c's path, if any, has that path: after
`UpdateCredential(c)` succeeds, `GetCredential` on c's path returns a credential equal to c
in path, type, label, attributes, revoked flag and attributes-in-vault flag, and in its ACL
when the read list of c's ACL is not empty; when that read list is empty the ACL stored
before is kept (the empty ACL for a credential that was not stored). -/
theorem UpdateCredential_then_GetCredential (c : Credential) (db : List Credential)
    (hpath : ∀ d, FindId Credential.id c.path.String db = some d → d.path = c.path) :
    ∃ db2 r, UpdateCredential c db = .ok db2 ∧ GetCredential c db2 = .ok r ∧
      r.path = c.path ∧ r.type = c.type ∧ r.label = c.label ∧ r.attributes = c.attributes ∧
      r.revoked = c.revoked ∧ r.attributesInVault = c.attributesInVault ∧
      (c.acl.read ≠ [] → r.acl = c.acl) ∧
      (c.acl.read = [] →
        r.acl = match FindId Credential.id c.path.String db with
          | some d => d.acl
          | none => ACL.zero) := by
  obtain ⟨db2, h1, h2⟩ := FindId_UpsertId Credential.id c.path.String
    (fun d =>
      let d1 := { d with type := c.type, label := c.label, attributes := c.attributes,
                         revoked := c.revoked, attributesInVault := c.attributesInVault }
      if c.acl.read.length > 0 then { d1 with acl := c.acl } else d1)
    { id := c.path.String, path := c.path, type := c.type, label := c.label,
      attributes := c.attributes, controllers := [],
      acl := if c.acl.read.length > 0 then c.acl else ACL.zero,
      revoked := c.revoked, attributesInVault := c.attributesInVault }
    (by intro d; simp only; split <;> rfl) rfl db
  have hU : UpdateCredential c db = .ok db2 := by simp only [UpdateCredential, h1]
  by_cases hr : c.acl.read = []
  · have hlen : ¬ c.acl.read.length > 0 := by simp [hr]
    cases hf : FindId Credential.id c.path.String db with
    | none =>
      rw [hf] at h2
      refine ⟨db2, _, hU, GetCredential_of_FindId c db2 _ h2, ?_⟩
      simp [hr]
    | some d =>
      rw [hf] at h2
      refine ⟨db2, _, hU, GetCredential_of_FindId c db2 _ h2, ?_⟩
      simp [hr, hpath d hf]
  · have hlen : c.acl.read.length > 0 := List.length_pos.mpr hr
    cases hf : FindId Credential.id c.path.String db with
    | none =>
      rw [hf] at h2
      refine ⟨db2, _, hU, GetCredential_of_FindId c db2 _ h2, ?_⟩
      simp [hr, hlen]
    | some d =>
      rw [hf] at h2
      refine ⟨db2, _, hU, GetCredential_of_FindId c db2 _ h2, ?_⟩
      simp [hr, hlen, hpath d hf]

theorem UpdateCredential_then_GetCredential_witness :
    (∀ d, FindId Credential.id (sampleCredential "new" ACL.zero).path.String
        [sampleCredential "old" { read := ["alice"], write := [], admin := [] }] = some d →
        d.path = (sampleCredential "new" ACL.zero).path) ∧
      ∃ db2 r, UpdateCredential (sampleCredential "new" ACL.zero)
          [sampleCredential "old" { read := ["alice"], write := [], admin := [] }] = .ok db2 ∧
        GetCredential (sampleCredential "new" ACL.zero) db2 = .ok r ∧
        r.path = (sampleCredential "new" ACL.zero).path ∧
        r.type = (sampleCredential "new" ACL.zero).type ∧
        r.label = (sampleCredential "new" ACL.zero).label ∧
        r.attributes = (sampleCredential "new" ACL.zero).attributes ∧
        r.revoked = (sampleCredential "new" ACL.zero).revoked ∧
        r.attributesInVault = (sampleCredential "new" ACL.zero).attributesInVault ∧
        ((sampleCredential "new" ACL.zero).acl.read ≠ [] →
          r.acl = (sampleCredential "new" ACL.zero).acl) ∧
        ((sampleCredential "new" ACL.zero).acl.read = [] →
          r.acl = match FindId Credential.id (sampleCredential "new" ACL.zero).path.String
              [sampleCredential "old" { read := ["alice"], write := [], admin := [] }] with
            | some d => d.acl
            | none => ACL.zero) :=
  ⟨by decide,
    UpdateCredential_then_GetCredential (sampleCredential "new" ACL.zero)
      [sampleCredential "old" { read := ["alice"], write := [], admin := [] }] (by decide)⟩

/-! ## Inserting records that exist, updating records that do not -/

theorem Insert_of_collision {α : Type} (idOf : α → String)
    (uniqueIndexes : List (α → List String)) (doc : α) (c : List α) (d : α) (hd : d ∈ c)
    (hcol : idOf d = idOf doc ∨ ∃ key ∈ uniqueIndexes, key d = key doc) :
    Insert idOf uniqueIndexes doc c = .error MgoError.Dup := by
  unfold Insert
  rw [if_pos]
  rw [List.any_eq_true]
  refine ⟨d, hd, ?_⟩
  rcases hcol with h | ⟨key, hk, h⟩
  · simp [h]
  · rw [Bool.or_eq_true]
    right
    rw [List.any_eq_true]
    exact ⟨key, hk, by simpa using h⟩

theorem Insert_ok_iff {α : Type} (idOf : α → String)
    (uniqueIndexes : List (α → List String)) (doc : α) (c c2 : List α)
    (h : Insert idOf uniqueIndexes doc c = .ok c2) :
    c2 = c ++ [doc] ∧ ∀ d ∈ c, idOf d ≠ idOf doc ∧ ∀ key ∈ uniqueIndexes, key d ≠ key doc := by
  unfold Insert at h
  by_cases hany : (c.any fun d =>
      idOf d == idOf doc || uniqueIndexes.any fun key => key d == key doc) = true
  · rw [if_pos hany] at h
    cases h
  · rw [if_neg hany] at h
    cases h
    refine ⟨rfl, fun d hd => ⟨fun hid => hany ?_, fun key hk hkey => hany ?_⟩⟩
    · rw [List.any_eq_true]
      exact ⟨d, hd, by simp [hid]⟩
    · rw [List.any_eq_true]
      refine ⟨d, hd, ?_⟩
      rw [Bool.or_eq_true]
      right
      rw [List.any_eq_true]
      exact ⟨key, hk, by simpa using hkey⟩

theorem AddApplicationOffer_of_collision (offer : ApplicationOffer)
    (db : List ApplicationOffer) (h : ∃ d ∈ db, OfferCollides d offer) :
    AddApplicationOffer offer db = .error ErrorCode.ErrAlreadyExists := by
  obtain ⟨d, hd, hcol⟩ := h
  have hdup : Insert ApplicationOffer.offerUUID applicationOfferUniqueIndexes offer db =
      .error MgoError.Dup := by
    apply Insert_of_collision _ _ _ _ d hd
    rcases hcol with h1 | h1 | ⟨h1, h2, h3⟩
    · exact Or.inl h1
    · exact Or.inr ⟨_, List.mem_cons_self _ _, by simp [h1]⟩
    · exact Or.inr ⟨_, List.mem_cons_of_mem _ (List.mem_cons_self _ _), by simp [h1, h2, h3]⟩
  simp [AddApplicationOffer, hdup]

theorem AddApplicationOffer_keeps_unique_urls (offer : ApplicationOffer)
    (db : List ApplicationOffer) (hu : UniqueURLs db) :
    UniqueURLs (storedAfter (AddApplicationOffer offer db) db) := by
  unfold AddApplicationOffer
  cases hI : Insert ApplicationOffer.offerUUID applicationOfferUniqueIndexes offer db with
  | error e =>
    by_cases he : e = MgoError.Dup <;> simp [storedAfter, he, hu]
  | ok db2 =>
    obtain ⟨h1, h2⟩ := Insert_ok_iff _ _ _ _ _ hI
    subst h1
    simp only [storedAfter, UniqueURLs, List.map_append, List.map_cons, List.map_nil]
    apply List.Nodup.append hu (List.nodup_singleton _)
    intro x hx hx2
    rw [List.mem_singleton] at hx2
    obtain ⟨d, hd, hdx⟩ := List.mem_map.mp hx
    have := (h2 d hd).2 (fun o => [o.offerURL]) (List.mem_cons_self _ _)
    apply this
    simp only [List.cons.injEq, and_true]
    rw [hdx, hx2]

/-- C14: `InsertCloudRegion` for a (cloud, region) pair that is already stored (under the
id `<cloud>/<region>` that every writer assigns), and `AddApplicationOffer` for an offer
whose UUID, offer URL or (owner, model, offer-name) triple is already stored, fail with an
error whose cause is AlreadyExists and leave the stored records unchanged, so that two
stored offers never share a URL. -/
theorem insert_existing_fails_already_exists (cr : CloudRegion) (regions : List CloudRegion)
    (offer : ApplicationOffer) (offers : List ApplicationOffer) :
    ((∀ d ∈ regions, d.id = cloudRegionId d.cloud d.region) →
        (∃ d ∈ regions, d.cloud = cr.cloud ∧ d.region = cr.region) →
        InsertCloudRegion cr regions = .error ErrorCode.ErrAlreadyExists ∧
          storedAfter (InsertCloudRegion cr regions) regions = regions) ∧
      ((∃ d ∈ offers, OfferCollides d offer) →
        AddApplicationOffer offer offers = .error ErrorCode.ErrAlreadyExists ∧
          storedAfter (AddApplicationOffer offer offers) offers = offers) ∧
      (UniqueURLs offers → UniqueURLs (storedAfter (AddApplicationOffer offer offers) offers)) := by
  refine ⟨?_, ?_, AddApplicationOffer_keeps_unique_urls offer offers⟩
  · rintro hid ⟨d, hd, hc, hr⟩
    have hdup : Insert CloudRegion.id [] { cr with id := cloudRegionId cr.cloud cr.region }
        regions = .error MgoError.Dup := by
      apply Insert_of_collision _ _ _ _ d hd
      left
      rw [hid d hd, hc, hr]
    have : InsertCloudRegion cr regions = .error ErrorCode.ErrAlreadyExists := by
      simp [InsertCloudRegion, hdup]
    exact ⟨this, by rw [this]; rfl⟩
  · intro h
    have := AddApplicationOffer_of_collision offer offers h
    exact ⟨this, by rw [this]; rfl⟩

theorem insert_existing_fails_already_exists_witness :
    (∀ d ∈ [sampleCloudRegion "dummy-region" ACL.zero],
        d.id = cloudRegionId d.cloud d.region) ∧
      (∃ d ∈ [namedOffer "u1" "bob/m1.offer1" "offer1"],
        OfferCollides d (namedOffer "u2" "bob/m1.offer1" "offer2")) ∧
      UniqueURLs [namedOffer "u1" "bob/m1.offer1" "offer1"] ∧
      InsertCloudRegion (sampleCloudRegion "dummy-region" ACL.zero)
          [sampleCloudRegion "dummy-region" ACL.zero] = .error ErrorCode.ErrAlreadyExists ∧
      AddApplicationOffer (namedOffer "u2" "bob/m1.offer1" "offer2")
          [namedOffer "u1" "bob/m1.offer1" "offer1"] = .error ErrorCode.ErrAlreadyExists ∧
      UniqueURLs (storedAfter (AddApplicationOffer (namedOffer "u2" "bob/m1.offer2" "offer2")
        [namedOffer "u1" "bob/m1.offer1" "offer1"]) [namedOffer "u1" "bob/m1.offer1" "offer1"]) :=
  have h := insert_existing_fails_already_exists (sampleCloudRegion "dummy-region" ACL.zero)
    [sampleCloudRegion "dummy-region" ACL.zero] (namedOffer "u2" "bob/m1.offer1" "offer2")
    [namedOffer "u1" "bob/m1.offer1" "offer1"]
  ⟨by decide, by decide, by decide,
    (h.1 (by decide) ⟨_, List.mem_singleton_self _, rfl, rfl⟩).1,
    (h.2.1 (by decide)).1,
    (insert_existing_fails_already_exists (sampleCloudRegion "dummy-region" ACL.zero) []
      (namedOffer "u2" "bob/m1.offer2" "offer2")
      [namedOffer "u1" "bob/m1.offer1" "offer1"]).2.2 (by decide)⟩

theorem UpdateId_of_missing {α : Type} (idOf : α → String) (id : String) (upd : α → α)
    (c : List α) (h : ∀ d ∈ c, idOf d ≠ id) :
    UpdateId idOf id upd c = .error MgoError.ErrNotFound := by
  unfold UpdateId
  rw [if_neg]
  intro hany
  rw [List.any_eq_true] at hany
  obtain ⟨d, hd, hp⟩ := hany
  exact h d hd (by simpa using hp)

/-- C15: `SetModelController`, `ClearCredentialUpdate`, `SetACL`, `Grant`, `Revoke` and
`UpdateApplicationOffer`, when the record they address (by the `_id` they compute) does not
exist, each fail with an error whose cause is NotFound and leave the collection unchanged. -/
theorem update_missing_record_not_found (models : List Model) (model newController : EntityPath)
    (controllers : List ControllerDoc) (ctlPath : EntityPath) (credPath : CredentialPath)
    (coll : List ACLDoc) (path : EntityPath) (acl : ACL) (user : User)
    (offers : List ApplicationOffer) (offer : ApplicationOffer) :
    ((∀ d ∈ models, d.id ≠ model.String) →
        SetModelController model newController models = .error ErrorCode.ErrNotFound ∧
          storedAfter (SetModelController model newController models) models = models) ∧
      ((∀ d ∈ controllers, d.id ≠ ctlPath.String) →
        ClearCredentialUpdate ctlPath credPath controllers = .error ErrorCode.ErrNotFound ∧
          storedAfter (ClearCredentialUpdate ctlPath credPath controllers) controllers
            = controllers) ∧
      ((∀ d ∈ coll, d.id ≠ path.String) →
        (SetACL coll path acl = .error ErrorCode.ErrNotFound ∧
          storedAfter (SetACL coll path acl) coll = coll) ∧
        (Grant coll path user = .error ErrorCode.ErrNotFound ∧
          storedAfter (Grant coll path user) coll = coll) ∧
        (Revoke coll path user = .error ErrorCode.ErrNotFound ∧
          storedAfter (Revoke coll path user) coll = coll)) ∧
      ((∀ d ∈ offers, d.offerUUID ≠ offer.offerUUID) →
        UpdateApplicationOffer offer offers = .error ErrorCode.ErrNotFound ∧
          storedAfter (UpdateApplicationOffer offer offers) offers = offers) := by
  refine ⟨fun h => ?_, fun h => ?_, fun h => ⟨?_, ?_, ?_⟩, fun h => ?_⟩
  · have e : SetModelController model newController models = .error ErrorCode.ErrNotFound := by
      simp [SetModelController, UpdateId_of_missing Model.id _ _ models h]
    exact ⟨e, by rw [e]; rfl⟩
  · have e : ClearCredentialUpdate ctlPath credPath controllers
        = .error ErrorCode.ErrNotFound := by
      simp [ClearCredentialUpdate, UpdateId_of_missing ControllerDoc.id _ _ controllers h]
    exact ⟨e, by rw [e]; rfl⟩
  · have e : SetACL coll path acl = .error ErrorCode.ErrNotFound := by
      simp [SetACL, UpdateId_of_missing ACLDoc.id _ _ coll h]
    exact ⟨e, by rw [e]; rfl⟩
  · have e : Grant coll path user = .error ErrorCode.ErrNotFound := by
      simp [Grant, UpdateId_of_missing ACLDoc.id _ _ coll h]
    exact ⟨e, by rw [e]; rfl⟩
  · have e : Revoke coll path user = .error ErrorCode.ErrNotFound := by
      simp [Revoke, UpdateId_of_missing ACLDoc.id _ _ coll h]
    exact ⟨e, by rw [e]; rfl⟩
  · have e : UpdateApplicationOffer offer offers = .error ErrorCode.ErrNotFound := by
      simp [UpdateApplicationOffer, UpdateId_of_missing ApplicationOffer.offerUUID _ _ offers h]
    exact ⟨e, by rw [e]; rfl⟩

theorem update_missing_record_not_found_witness :
    (∀ d ∈ sampleEntities, d.id ≠ EntityPath.String { user := "bob", name := "m2" }) ∧
      (∀ d ∈ [sampleController "c1" []],
        d.id ≠ EntityPath.String { user := "bob", name := "c2" }) ∧
      (∀ d ∈ [sampleOffer], d.offerUUID ≠ (namedOffer "u2" "bob/m1.offer2" "offer2").offerUUID) ∧
      Grant sampleEntities { user := "bob", name := "m2" } "alice"
        = .error ErrorCode.ErrNotFound ∧
      ClearCredentialUpdate { user := "bob", name := "c2" }
          { cloud := "dummy", user := "bob", name := "cred1" } [sampleController "c1" []]
        = .error ErrorCode.ErrNotFound ∧
      UpdateApplicationOffer (namedOffer "u2" "bob/m1.offer2" "offer2") [sampleOffer]
        = .error ErrorCode.ErrNotFound ∧
      (Grant sampleEntities { user := "bob", name := "m1" } "carol").toOption =
        some [{ id := "bob/m1", acl := { read := ["alice", "carol"], write := [], admin := [] } }] :=
  have h := update_missing_record_not_found [] { user := "bob", name := "m0" }
    { user := "bob", name := "c1" } [sampleController "c1" []] { user := "bob", name := "c2" }
    { cloud := "dummy", user := "bob", name := "cred1" } sampleEntities
    { user := "bob", name := "m2" } ACL.zero "alice" [sampleOffer]
    (namedOffer "u2" "bob/m1.offer2" "offer2")
  ⟨by decide, by decide, by decide, (h.2.2.1 (by decide)).2.1.1, (h.2.1 (by decide)).1,
    (h.2.2.2 (by decide)).1, by decide⟩

/-! ## Access set on an offer that is not stored -/

theorem SetApplicationOfferAccess_of_missing (user : User) (uuid : String)
    (access : ApplicationOfferAccessPermission) (db : List ApplicationOffer)
    (h : ∀ o ∈ db, o.offerUUID ≠ uuid) :
    SetApplicationOfferAccess user uuid access db = .ok db := by
  have hA : updateA user uuid access db = .ok db := by
    unfold updateA UpdateAll
    congr 1
    conv => rhs; rw [← List.map_id db]
    apply List.map_congr_left
    intro o ho
    have : selectorA user uuid access o = false := by
      simp [selectorA, h o ho]
    simp [this]
  have hB : updateB user uuid access db = .ok db := by
    unfold updateB UpdateAll
    congr 1
    conv => rhs; rw [← List.map_id db]
    apply List.map_congr_left
    intro o ho
    have : selectorB user uuid access o = false := by
      simp [selectorB, h o ho]
    simp [this]
  simp [SetApplicationOfferAccess, hA, hB]

/-- C16 (the code diverges): `SetApplicationOfferAccess` called with an offer UUID that is
not stored returns no error (`UpdateAll` never reports `ErrNotFound`, so the branch that
would return NotFound is never taken); it creates no record and changes none. -/
theorem SetApplicationOfferAccess_missing_offer_returns_nil :
    (∀ o ∈ [sampleOffer], o.offerUUID ≠ "no-such-offer") ∧
      cause (SetApplicationOfferAccess "test-user" "no-such-offer" ApplicationOfferReadAccess
        [sampleOffer]) = none ∧
      cause (SetApplicationOfferAccess "test-user" "no-such-offer" ApplicationOfferReadAccess
        [sampleOffer]) ≠ some ErrorCode.ErrNotFound ∧
      storedAfter (SetApplicationOfferAccess "test-user" "no-such-offer"
        ApplicationOfferReadAccess [sampleOffer]) [sampleOffer] = [sampleOffer] := by
  have h := SetApplicationOfferAccess_of_missing "test-user" "no-such-offer"
    ApplicationOfferReadAccess [sampleOffer] (by decide)
  rw [h]
  exact ⟨by decide, rfl, by decide, rfl⟩

/-! ## Cloud access levels -/

/-- C17 (as stated) fails: `GrantCloud` and `RevokeCloud` called with the access level
"write" fail with an error made by `errgo.Newf`, whose cause carries no error code; it is
not BadRequest. -/
theorem GrantCloud_invalid_access_counterexample :
    cause (GrantCloud "dummy" "alice" "write" [sampleCloudRegion "" ACL.zero])
        = some ErrorCode.ErrOther ∧
      cause (GrantCloud "dummy" "alice" "write" [sampleCloudRegion "" ACL.zero])
        ≠ some ErrorCode.ErrBadRequest ∧
      cause (RevokeCloud "dummy" "alice" "write" [sampleCloudRegion "" ACL.zero])
        = some ErrorCode.ErrOther ∧
      cause (RevokeCloud "dummy" "alice" "write" [sampleCloudRegion "" ACL.zero])
        ≠ some ErrorCode.ErrBadRequest := by
  decide

/-- C17 (amended): `GrantCloud` and `RevokeCloud` called with an access level other than
"admin" or "add-model" fail with an error that carries no error code and modify no
cloud-region record; with one of those two levels they do not fail. -/
theorem GrantCloud_RevokeCloud_access_levels (cloud : String) (user : User) (access : String)
    (db : List CloudRegion) :
    ((access ≠ "admin" ∧ access ≠ "add-model") →
        (GrantCloud cloud user access db = .error ErrorCode.ErrOther ∧
          storedAfter (GrantCloud cloud user access db) db = db) ∧
        (RevokeCloud cloud user access db = .error ErrorCode.ErrOther ∧
          storedAfter (RevokeCloud cloud user access db) db = db)) ∧
      ((access = "admin" ∨ access = "add-model") →
        cause (GrantCloud cloud user access db) = none ∧
          cause (RevokeCloud cloud user access db) = none) := by
  constructor
  · rintro ⟨h1, h2⟩
    have eg : GrantCloud cloud user access db = .error ErrorCode.ErrOther := by
      simp [GrantCloud, grantCloudFields, h1, h2]
    have er : RevokeCloud cloud user access db = .error ErrorCode.ErrOther := by
      simp [RevokeCloud, revokeCloudFields, h1, h2]
    exact ⟨⟨eg, by rw [eg]; rfl⟩, ⟨er, by rw [er]; rfl⟩⟩
  · rintro (h | h)
    · subst h
      exact ⟨rfl, rfl⟩
    · subst h
      exact ⟨rfl, rfl⟩

theorem GrantCloud_RevokeCloud_access_levels_witness :
    ("login" ≠ "admin" ∧ "login" ≠ "add-model") ∧
      GrantCloud "dummy" "alice" "login" [sampleCloudRegion "" ACL.zero]
        = .error ErrorCode.ErrOther ∧
      (GrantCloud "dummy" "alice" "add-model" [sampleCloudRegion "" ACL.zero]).toOption
        = some [sampleCloudRegion "" { read := ["alice"], write := [], admin := [] }] ∧
      (RevokeCloud "dummy" "alice" "admin"
          [sampleCloudRegion "" { read := ["alice"], write := ["alice"], admin := ["alice"] }]
        ).toOption
        = some [sampleCloudRegion "" { read := ["alice"], write := [], admin := [] }] :=
  ⟨by decide,
    ((GrantCloud_RevokeCloud_access_levels "dummy" "alice" "login"
      [sampleCloudRegion "" ACL.zero]).1 (by decide)).1.1,
    by decide, by decide⟩

/-! ## Removing a controller -/

theorem not_mem_pull {β : Type} [DecidableEq β] (x : β) (l : List β) : x ∉ pull x l := by
  simp [pull]

theorem pull_eq_filter {β : Type} [DecidableEq β] (x : β) (l : List β) :
    pull x l = l.filter fun y => decide (y ≠ x) := by
  unfold pull
  apply List.filter_congr
  intro y _
  simp [bne, beq_eq_decide]

/-- C18: for every controller path c, after `CredentialsRemoveController(c)`,
`DeleteControllerFromCloudRegions(c)`, `RemoveControllerMachines(c)` and
`RemoveControllerApplications(c)` (which all succeed), no credential's controllers set, no
cloud-region's primary or secondary controller list and no machine or application record
refers to c, while the entries and records belonging to every other controller are exactly
as before: every credential and cloud region keeps its other fields and its other
controllers in order, and the machine and application records of other controllers are
kept in order. -/
theorem removeControllerCascade_removes_only_controller (c : EntityPath) (cat : Catalog) :
    ∃ cat2, removeControllerCascade c cat = .ok cat2 ∧
      (∀ d ∈ cat2.credentials, c ∉ d.controllers) ∧
      (∀ d ∈ cat2.cloudRegions, c ∉ d.primaryControllers ∧ c ∉ d.secondaryControllers) ∧
      (∀ d ∈ cat2.machines, d.controller ≠ c.String) ∧
      (∀ d ∈ cat2.applications, d.controller ≠ c.String) ∧
      cat2.credentials = cat.credentials.map (fun d =>
        { d with controllers := d.controllers.filter fun x => decide (x ≠ c) }) ∧
      cat2.cloudRegions = cat.cloudRegions.map (fun d =>
        { d with primaryControllers := d.primaryControllers.filter fun x => decide (x ≠ c),
                 secondaryControllers :=
                   d.secondaryControllers.filter fun x => decide (x ≠ c) }) ∧
      cat2.machines = cat.machines.filter (fun d => decide (d.controller ≠ c.String)) ∧
      cat2.applications = cat.applications.filter (fun d => decide (d.controller ≠ c.String)) := by
  refine ⟨_, rfl, ?_, ?_, ?_, ?_, ?_, ?_, ?_, ?_⟩
  · intro d hd
    simp only [List.mem_map, if_true] at hd
    obtain ⟨d0, _, rfl⟩ := hd
    exact not_mem_pull c _
  · intro d hd
    simp only [List.mem_map, if_true] at hd
    obtain ⟨d0, _, rfl⟩ := hd
    exact ⟨not_mem_pull c _, not_mem_pull c _⟩
  · intro d hd
    simp only [List.mem_filter] at hd
    simpa using hd.2
  · intro d hd
    simp only [List.mem_filter] at hd
    simpa using hd.2
  · simp only [if_true]
    apply List.map_congr_left
    intro d _
    rw [pull_eq_filter]
  · simp only [if_true]
    apply List.map_congr_left
    intro d _
    rw [pull_eq_filter, pull_eq_filter]
  · apply List.filter_congr
    intro d _
    simp [beq_eq_decide]
  · apply List.filter_congr
    intro d _
    simp [beq_eq_decide]

/-! ## Credential updates waiting on controllers -/

theorem count_addToSet {β : Type} [DecidableEq β] (x : β) (l : List β) :
    (addToSet x l).count x = max 1 (l.count x) := by
  unfold addToSet
  by_cases h : x ∈ l
  · rw [if_pos h]
    have := List.count_pos_iff.mpr h
    omega
  · rw [if_neg h, List.count_append, List.count_eq_zero.mpr h]
    simp

theorem filter_ne_addToSet {β : Type} [DecidableEq β] (x : β) (l : List β) :
    (addToSet x l).filter (fun y => decide (y ≠ x)) = l.filter fun y => decide (y ≠ x) := by
  unfold addToSet
  by_cases h : x ∈ l
  · rw [if_pos h]
  · rw [if_neg h, List.filter_append]
    simp

theorem addToSet_idem {β : Type} [DecidableEq β] (x : β) (l : List β) :
    addToSet x (addToSet x l) = addToSet x l := by
  have hm : x ∈ addToSet x l := by
    unfold addToSet
    by_cases h : x ∈ l
    · rw [if_pos h]; exact h
    · rw [if_neg h]; simp
  show (if x ∈ addToSet x l then addToSet x l else addToSet x l ++ [x]) = addToSet x l
  rw [if_pos hm]

theorem updateFirst_eq_map {α : Type} (idOf : α → String) (id : String) (upd : α → α) :
    ∀ c : List α, UniqueIds idOf c →
      updateFirst (fun d => idOf d == id) upd c =
        c.map fun d => if idOf d == id then upd d else d := by
  intro c
  induction c with
  | nil => intro _; rfl
  | cons d ds ih =>
    intro hu
    by_cases hd : (idOf d == id) = true
    · have e1 : updateFirst (fun d => idOf d == id) upd (d :: ds) = upd d :: ds := by
        show (if (idOf d == id) = true then upd d :: ds else _) = _
        rw [if_pos hd]
      rw [e1, List.map_cons, if_pos hd]
      congr 1
      conv => lhs; rw [← List.map_id ds]
      apply List.map_congr_left
      intro x hx
      have hne := not_mem_ids idOf d ds hu x hx
      have hid : idOf d = id := by simpa using hd
      have : (idOf x == id) = false := by
        rw [← hid]
        simpa using hne
      simp [this]
    · have e1 : updateFirst (fun d => idOf d == id) upd (d :: ds) =
          d :: updateFirst (fun d => idOf d == id) upd ds := by
        show (if (idOf d == id) = true then upd d :: ds else _) = _
        rw [if_neg hd]
      rw [e1, List.map_cons, if_neg hd, ih (List.nodup_cons.mp hu).2]

theorem forall₂_map_of_forall {α : Type} (R : α → α → Prop) (f : α → α) (c : List α)
    (h : ∀ d ∈ c, R d (f d)) : List.Forall₂ R c (c.map f) := by
  induction c with
  | nil => exact List.Forall₂.nil
  | cons d ds ih =>
    exact List.Forall₂.cons (h d (List.mem_cons_self _ _))
      (ih fun x hx => h x (List.mem_cons_of_mem _ hx))

theorem ClearCredentialUpdate_of_stored (ctl : EntityPath) (cred : CredentialPath)
    (db1 : List ControllerDoc) (hids : UniqueIds ControllerDoc.id db1)
    (hex : ∃ d ∈ db1, d.id = ctl.String) :
    ∃ db2, ClearCredentialUpdate ctl cred db1 = .ok db2 ∧
      List.Forall₂ (fun d1 d2 =>
        (d1.id = ctl.String → ClearedOf cred d1 d2) ∧ (d1.id ≠ ctl.String → d2 = d1))
        db1 db2 := by
  obtain ⟨d, hd, hid⟩ := hex
  have hany : (db1.any fun d => d.id == ctl.String) = true := by
    rw [List.any_eq_true]
    exact ⟨d, hd, by simpa using hid⟩
  refine ⟨db1.map (fun d => if d.id == ctl.String then
    { d with updateCredentials := pull cred d.updateCredentials } else d), ?_, ?_⟩
  · unfold ClearCredentialUpdate UpdateId
    rw [if_pos hany, updateFirst_eq_map ControllerDoc.id ctl.String _ _ hids]
  · apply forall₂_map_of_forall
    intro d1 _
    by_cases h1 : d1.id = ctl.String
    · have hb : (d1.id == ctl.String) = true := by simpa using h1
      simp only [hb, if_true]
      exact ⟨fun _ => ⟨rfl, rfl, rfl, not_mem_pull cred _, pull_eq_filter cred _⟩,
        fun h => absurd h1 h⟩
    · have hb : (d1.id == ctl.String) = false := by simpa using h1
      simp only [hb]
      exact ⟨fun h => absurd h h1, fun _ => rfl⟩

theorem SetCredentialUpdates_eq (ctlPaths : List EntityPath) (cred : CredentialPath)
    (db : List ControllerDoc) :
    SetCredentialUpdates ctlPaths cred db = .ok (db.map fun d =>
      if ctlPaths.contains d.path then
        { d with updateCredentials := addToSet cred d.updateCredentials }
      else d) := rfl

theorem SetCredentialUpdates_keeps_ids (ctlPaths : List EntityPath) (cred : CredentialPath)
    (db : List ControllerDoc) (hids : UniqueIds ControllerDoc.id db) :
    UniqueIds ControllerDoc.id (db.map fun d =>
      if ctlPaths.contains d.path then
        { d with updateCredentials := addToSet cred d.updateCredentials }
      else d) := by
  unfold UniqueIds at hids ⊢
  rw [List.map_map]
  have : (ControllerDoc.id ∘ fun d =>
      if ctlPaths.contains d.path = true then
        { d with updateCredentials := addToSet cred d.updateCredentials }
      else d) = ControllerDoc.id := by
    funext x
    simp only [Function.comp]
    split <;> rfl
  rw [this]
  exact hids

/-- C19: for every list of controller paths and every credential path, in a collection
of controllers with distinct `_id`s whose updateCredentials sets hold the credential at
most once: after `SetCredentialUpdates(ctlPaths, cred)`, each stored controller whose path
is in ctlPaths has cred in its updateCredentials set exactly once, its other entries being
as before (calling it again changes nothing), every controller not in ctlPaths is
unchanged, and a following `ClearCredentialUpdate(ctl, cred)` on a stored controller
removes cred from the set of the controller with that id only. -/
theorem SetCredentialUpdates_then_Clear (ctlPaths : List EntityPath) (cred : CredentialPath)
    (db : List ControllerDoc) (hids : UniqueIds ControllerDoc.id db)
    (hset : ∀ d ∈ db, d.updateCredentials.count cred ≤ 1) :
    ∃ db1, SetCredentialUpdates ctlPaths cred db = .ok db1 ∧
      List.Forall₂ (fun d d1 =>
        (d.path ∈ ctlPaths → MarkedFor cred d d1) ∧ (d.path ∉ ctlPaths → d1 = d)) db db1 ∧
      SetCredentialUpdates ctlPaths cred db1 = .ok db1 ∧
      ∀ ctl : EntityPath, (∃ d ∈ db1, d.id = ctl.String) →
        ∃ db2, ClearCredentialUpdate ctl cred db1 = .ok db2 ∧
          List.Forall₂ (fun d1 d2 =>
            (d1.id = ctl.String → ClearedOf cred d1 d2) ∧ (d1.id ≠ ctl.String → d2 = d1))
            db1 db2 := by
  refine ⟨_, SetCredentialUpdates_eq ctlPaths cred db, ?_, ?_, fun ctl hex =>
    ClearCredentialUpdate_of_stored ctl cred _
      (SetCredentialUpdates_keeps_ids ctlPaths cred db hids) hex⟩
  · apply forall₂_map_of_forall
    intro d hd
    by_cases hp : d.path ∈ ctlPaths
    · have hc : ctlPaths.contains d.path = true := by simpa using hp
      simp only [hc, if_true]
      refine ⟨fun _ => ⟨rfl, rfl, rfl, ?_, filter_ne_addToSet cred _⟩, fun h => absurd hp h⟩
      rw [count_addToSet]
      have := hset d hd
      omega
    · have hc : ctlPaths.contains d.path = false := by simpa using hp
      simp only [hc]
      exact ⟨fun h => absurd h hp, fun _ => rfl⟩
  · rw [SetCredentialUpdates_eq]
    simp only [List.map_map]
    congr 2
    funext d
    simp only [Function.comp]
    by_cases hp : d.path ∈ ctlPaths
    · simp [hp, addToSet_idem]
    · simp [hp]

theorem SetCredentialUpdates_then_Clear_witness :
    UniqueIds ControllerDoc.id [sampleController "c1" [], sampleController "c2" []] ∧
      (∀ d ∈ [sampleController "c1" [], sampleController "c2" []],
        d.updateCredentials.count { cloud := "dummy", user := "bob", name := "cred1" } ≤ 1) ∧
      (SetCredentialUpdates [{ user := "bob", name := "c1" }]
          { cloud := "dummy", user := "bob", name := "cred1" }
          [sampleController "c1" [], sampleController "c2" []]).toOption =
        some [sampleController "c1" [{ cloud := "dummy", user := "bob", name := "cred1" }],
          sampleController "c2" []] ∧
      ∃ db1, SetCredentialUpdates [{ user := "bob", name := "c1" }]
          { cloud := "dummy", user := "bob", name := "cred1" }
          [sampleController "c1" [], sampleController "c2" []] = .ok db1 ∧
        List.Forall₂ (fun d d1 =>
          (d.path ∈ [({ user := "bob", name := "c1" } : EntityPath)] →
            MarkedFor { cloud := "dummy", user := "bob", name := "cred1" } d d1) ∧
          (d.path ∉ [({ user := "bob", name := "c1" } : EntityPath)] → d1 = d))
          [sampleController "c1" [], sampleController "c2" []] db1 ∧
        SetCredentialUpdates [{ user := "bob", name := "c1" }]
          { cloud := "dummy", user := "bob", name := "cred1" } db1 = .ok db1 ∧
        ∀ ctl : EntityPath, (∃ d ∈ db1, d.id = ctl.String) →
          ∃ db2, ClearCredentialUpdate ctl
              { cloud := "dummy", user := "bob", name := "cred1" } db1 = .ok db2 ∧
            List.Forall₂ (fun d1 d2 =>
              (d1.id = ctl.String →
                ClearedOf { cloud := "dummy", user := "bob", name := "cred1" } d1 d2) ∧
              (d1.id ≠ ctl.String → d2 = d1)) db1 db2 :=
  ⟨by decide, by decide, by decide,
    SetCredentialUpdates_then_Clear [{ user := "bob", name := "c1" }]
      { cloud := "dummy", user := "bob", name := "cred1" }
      [sampleController "c1" [], sampleController "c2" []] (by decide) (by decide)⟩

/-! ## OpenFGA tags -/

theorem length_splitChars (sep : Char) (l : List Char) :
    (splitChars sep l).length = l.count sep + 1 := by
  induction l with
  | nil => rfl
  | cons c cs ih =>
    by_cases hc : c = sep
    · subst hc
      simp [splitChars, ih]
    · have hne : (c == sep) = false := by simpa using hc
      simp only [splitChars, if_neg hc, List.count_cons, hne, Bool.false_eq_true, if_false,
        Nat.add_zero]
      cases hs : splitChars sep cs with
      | nil => rw [hs] at ih; simp at ih
      | cons tok toks =>
        rw [hs] at ih
        simpa using ih

theorem splitChars_eq (sep : Char) (l : List Char) :
    splitChars sep l =
      l.takeWhile (fun x => decide (x ≠ sep)) ::
        (if sep ∈ l then splitChars sep ((l.dropWhile fun x => decide (x ≠ sep)).drop 1)
         else []) := by
  induction l with
  | nil => rfl
  | cons c cs ih =>
    by_cases hc : c = sep
    · subst hc
      simp [splitChars, List.takeWhile, List.dropWhile]
    · have hmem : (sep ∈ c :: cs) ↔ sep ∈ cs := by
        constructor
        · intro h
          rcases List.mem_cons.mp h with h1 | h1
          · exact absurd h1.symm hc
          · exact h1
        · intro h
          exact List.mem_cons_of_mem _ h
      have hd : decide (c ≠ sep) = true := by simpa using hc
      simp only [splitChars, if_neg hc, List.takeWhile, List.dropWhile, hd]
      rw [ih]
      by_cases hm : sep ∈ cs
      · rw [if_pos hm, if_pos (hmem.mpr hm)]
      · rw [if_neg hm, if_neg (fun h => hm (hmem.mp h))]

theorem splitChars_of_length_one (sep : Char) (l : List Char)
    (h : (splitChars sep l).length = 1) :
    splitChars sep l = [l] ∧ l.takeWhile (fun x => decide (x ≠ sep)) = l ∧
      (l.dropWhile fun x => decide (x ≠ sep)).drop 1 = [] := by
  rw [length_splitChars] at h
  have hnot : sep ∉ l := by
    intro hm
    have := List.count_pos_iff.mpr hm
    omega
  have htake : l.takeWhile (fun x => decide (x ≠ sep)) = l := by
    rw [List.takeWhile_eq_self_iff]
    intro x hx
    simpa using fun hxs : x = sep => hnot (hxs ▸ hx)
  have hdrop : l.dropWhile (fun x => decide (x ≠ sep)) = [] := by
    rw [List.dropWhile_eq_nil_iff]
    intro x hx
    simpa using fun hxs : x = sep => hnot (hxs ▸ hx)
  refine ⟨?_, htake, by rw [hdrop]; rfl⟩
  rw [splitChars_eq, if_neg hnot, htake]

theorem splitChars_of_length_two (sep : Char) (l : List Char)
    (h : (splitChars sep l).length = 2) :
    splitChars sep l =
      [l.takeWhile (fun x => decide (x ≠ sep)),
        (l.dropWhile fun x => decide (x ≠ sep)).drop 1] := by
  have hmem : sep ∈ l := by
    rw [length_splitChars] at h
    exact List.count_pos_iff.mp (by omega)
  rw [splitChars_eq, if_pos hmem] at h ⊢
  have h1 : (splitChars sep ((l.dropWhile fun x => decide (x ≠ sep)).drop 1)).length = 1 := by
    simpa using h
  rw [(splitChars_of_length_one sep _ h1).1]

theorem Split_length (s : String) (sep : Char) :
    (Split s sep).length = occurrences sep s + 1 := by
  simp [Split, occurrences, length_splitChars]

theorem Split_of_length_two (s : String) (sep : Char) (h : (Split s sep).length = 2) :
    Split s sep = [textBefore sep s, textAfter sep s] := by
  have h2 : (splitChars sep s.data).length = 2 := by simpa [Split] using h
  simp [Split, splitChars_of_length_two sep s.data h2, textBefore, textAfter]

theorem Split_of_length_one (s : String) (sep : Char) (h : (Split s sep).length = 1) :
    textBefore sep s = s ∧ textAfter sep s = "" := by
  have h1 : (splitChars sep s.data).length = 1 := by simpa [Split] using h
  obtain ⟨_, h2, h3⟩ := splitChars_of_length_one sep s.data h1
  constructor
  · unfold textBefore
    rw [h2]
  · unfold textAfter
    rw [h3]

theorem TagFromString_eq (s : String) :
    TagFromString s =
      if occurrences ':' s ≠ 1 then .error "unexpected tag format"
      else if textBefore ':' s ∉ tagKinds then .error "unknown tag kind"
      else if occurrences '#' (textAfter ':' s) ≤ 1 then
        .ok (Tag.mk (textBefore ':' s) (textBefore '#' (textAfter ':' s))
          (textAfter '#' (textAfter ':' s)))
      else .error "invalid relation specifier" := by
  have hl := Split_length s ':'
  by_cases hlen : (Split s ':').length = 2
  · have hcount : occurrences ':' s = 1 := by omega
    have htok := Split_of_length_two s ':' hlen
    have hidlen := Split_length (textAfter ':' s) '#'
    rw [if_neg (not_not.mpr hcount)]
    by_cases hkm : textBefore ':' s ∈ tagKinds
    · rw [if_neg (not_not.mpr hkm)]
      by_cases h1 : (Split (textAfter ':' s) '#').length = 1
      · obtain ⟨e1, e2⟩ := Split_of_length_one (textAfter ':' s) '#' h1
        rw [if_pos (by omega), e1, e2]
        simp [TagFromString, htok, hkm, h1]
      · by_cases h2 : (Split (textAfter ':' s) '#').length = 2
        · have e := Split_of_length_two (textAfter ':' s) '#' h2
          rw [if_pos (by omega)]
          simp [TagFromString, htok, hkm, e]
        · rw [if_neg (by omega)]
          simp [TagFromString, htok, hkm, h1, h2]
    · rw [if_pos hkm]
      simp [TagFromString, htok, hkm]
  · rw [if_pos (by omega)]
    simp [TagFromString, hlen]

/-- C20: `TagFromString(s)` succeeds if and only if s contains exactly one ':', the text
before it is one of the six kinds user, group, controller, model, applicationoffer, cloud,
and the text after it contains at most one '#'; on success the tag's kind is the text
before ':', its id the text between ':' and '#' (or to the end), and its relation the text
after '#' (empty when there is no '#').  Otherwise it returns an error and no tag. -/
theorem TagFromString_accepts_iff (s : String) :
    ((∃ tag, TagFromString s = .ok tag) ↔
        (occurrences ':' s = 1 ∧ textBefore ':' s ∈ tagKinds ∧
          occurrences '#' (textAfter ':' s) ≤ 1)) ∧
      (∀ tag, TagFromString s = .ok tag →
        tag.kind = textBefore ':' s ∧ tag.id = textBefore '#' (textAfter ':' s) ∧
          tag.relation = textAfter '#' (textAfter ':' s)) ∧
      ((¬ ∃ tag, TagFromString s = .ok tag) → ∃ msg, TagFromString s = .error msg) := by
  have hlast : (¬ ∃ tag, TagFromString s = .ok tag) → ∃ msg, TagFromString s = .error msg := by
    intro hno
    cases hr : TagFromString s with
    | error msg => exact ⟨msg, rfl⟩
    | ok tag => exact absurd ⟨tag, hr⟩ hno
  refine ⟨?_, ?_, hlast⟩
  · rw [TagFromString_eq]
    by_cases h1 : occurrences ':' s = 1
    · by_cases h2 : textBefore ':' s ∈ tagKinds
      · by_cases h3 : occurrences '#' (textAfter ':' s) ≤ 1
        · simp [h1, h2, h3]
        · simp [h1, h2, h3]
      · simp [h1, h2]
    · simp [h1]
  · intro tag htag
    rw [TagFromString_eq] at htag
    by_cases h1 : occurrences ':' s = 1
    · by_cases h2 : textBefore ':' s ∈ tagKinds
      · by_cases h3 : occurrences '#' (textAfter ':' s) ≤ 1
        · rw [if_neg (not_not.mpr h1), if_neg (not_not.mpr h2), if_pos h3] at htag
          cases htag
          exact ⟨rfl, rfl, rfl⟩
        · rw [if_neg (not_not.mpr h1), if_neg (not_not.mpr h2), if_neg h3] at htag
          cases htag
      · rw [if_neg (not_not.mpr h1), if_pos h2] at htag
        cases htag
    · rw [if_pos h1] at htag
      cases htag


/-! ## Rendering tags -/

theorem takeWhile_ne_of_not_mem (c : Char) (l : List Char) (h : c ∉ l) :
    l.takeWhile (fun x => decide (x ≠ c)) = l := by
  rw [List.takeWhile_eq_self_iff]
  intro x hx
  simpa using fun hxs : x = c => h (hxs ▸ hx)

theorem dropWhile_ne_of_not_mem (c : Char) (l : List Char) (h : c ∉ l) :
    l.dropWhile (fun x => decide (x ≠ c)) = [] := by
  rw [List.dropWhile_eq_nil_iff]
  intro x hx
  simpa using fun hxs : x = c => h (hxs ▸ hx)

theorem takeWhile_ne_append (c : Char) (l r : List Char) (h : c ∉ l) :
    (l ++ c :: r).takeWhile (fun x => decide (x ≠ c)) = l := by
  induction l with
  | nil => simp [List.takeWhile]
  | cons a l ih =>
    have ha : a ≠ c := fun e => h (e ▸ List.mem_cons_self _ _)
    have hl : c ∉ l := fun m => h (List.mem_cons_of_mem _ m)
    have hd : decide (a ≠ c) = true := by simpa using ha
    show List.takeWhile _ (a :: (l ++ c :: r)) = a :: l
    rw [List.takeWhile_cons, hd, ih hl]
    rfl

theorem dropWhile_ne_append (c : Char) (l r : List Char) (h : c ∉ l) :
    (l ++ c :: r).dropWhile (fun x => decide (x ≠ c)) = c :: r := by
  induction l with
  | nil => simp [List.dropWhile]
  | cons a l ih =>
    have ha : a ≠ c := fun e => h (e ▸ List.mem_cons_self _ _)
    have hl : c ∉ l := fun m => h (List.mem_cons_of_mem _ m)
    have hd : decide (a ≠ c) = true := by simpa using ha
    show List.dropWhile _ (a :: (l ++ c :: r)) = c :: r
    rw [List.dropWhile_cons, hd, if_pos rfl]
    exact ih hl

theorem not_mem_of_occurrences (c : Char) (s : String) (h : occurrences c s = 0) :
    c ∉ s.data := by
  intro hm
  have := List.count_pos_iff.mpr hm
  unfold occurrences at h
  omega

theorem occurrences_append (c : Char) (a b : String) :
    occurrences c (a ++ b) = occurrences c a + occurrences c b := by
  simp [occurrences, String.data_append]

theorem textBefore_of_absent (c : Char) (s : String) (h : occurrences c s = 0) :
    textBefore c s = s ∧ textAfter c s = "" := by
  have hn := not_mem_of_occurrences c s h
  constructor
  · unfold textBefore
    rw [takeWhile_ne_of_not_mem c _ hn]
  · unfold textAfter
    rw [dropWhile_ne_of_not_mem c _ hn]
    rfl

theorem textBefore_join (c : Char) (a b : String) (h : occurrences c a = 0) :
    textBefore c (a ++ String.singleton c ++ b) = a ∧
      textAfter c (a ++ String.singleton c ++ b) = b := by
  have hn := not_mem_of_occurrences c a h
  have hd : (a ++ String.singleton c ++ b).data = a.data ++ c :: b.data := by
    simp [String.data_append, String.singleton]
  constructor
  · unfold textBefore
    rw [hd, takeWhile_ne_append c _ _ hn]
  · unfold textAfter
    rw [hd, dropWhile_ne_append c _ _ hn]
    rfl

theorem occurrences_kind (c : Char) (k : String) (hk : k ∈ tagKinds) (hc : c = ':' ∨ c = '#') :
    occurrences c k = 0 := by
  simp only [tagKinds, List.mem_cons, List.mem_singleton, List.not_mem_nil, or_false] at hk
  rcases hc with rfl | rfl <;> rcases hk with rfl | rfl | rfl | rfl | rfl | rfl <;> decide


theorem TagFromString_join (k i r : String) (hk : k ∈ tagKinds)
    (hi : occurrences ':' i = 0 ∧ occurrences '#' i = 0)
    (hr : occurrences ':' r = 0 ∧ occurrences '#' r = 0) :
    TagFromString (k ++ ":" ++ i) = .ok (Tag.mk k i "") ∧
      TagFromString (k ++ ":" ++ i ++ "#" ++ r) = .ok (Tag.mk k i r) := by
  have hk1 := occurrences_kind ':' k hk (Or.inl rfl)
  have hc : occurrences ':' ":" = 1 := by decide
  have hh : occurrences ':' "#" = 0 := by decide
  have hh1 : occurrences '#' "#" = 1 := by decide
  constructor
  · obtain ⟨e1, e2⟩ := textBefore_join ':' k i hk1
    have e1 : textBefore ':' (k ++ ":" ++ i) = k := e1
    have e2 : textAfter ':' (k ++ ":" ++ i) = i := e2
    obtain ⟨e3, e4⟩ := textBefore_of_absent '#' i hi.2
    have hcount : occurrences ':' (k ++ ":" ++ i) = 1 := by
      rw [occurrences_append, occurrences_append, hk1, hc, hi.1]
    rw [TagFromString_eq, if_neg (not_not.mpr hcount), e1, if_neg (not_not.mpr hk), e2,
      if_pos (by omega), e3, e4]
  · have hj : k ++ ":" ++ i ++ "#" ++ r = k ++ ":" ++ (i ++ "#" ++ r) := by
      simp [String.append_assoc]
    obtain ⟨e1, e2⟩ := textBefore_join ':' k (i ++ "#" ++ r) hk1
    have e1 : textBefore ':' (k ++ ":" ++ (i ++ "#" ++ r)) = k := e1
    have e2 : textAfter ':' (k ++ ":" ++ (i ++ "#" ++ r)) = i ++ "#" ++ r := e2
    obtain ⟨e3, e4⟩ := textBefore_join '#' i r hi.2
    have e3 : textBefore '#' (i ++ "#" ++ r) = i := e3
    have e4 : textAfter '#' (i ++ "#" ++ r) = r := e4
    have hcount : occurrences ':' (k ++ ":" ++ (i ++ "#" ++ r)) = 1 := by
      rw [occurrences_append, occurrences_append, occurrences_append, occurrences_append,
        hk1, hc, hi.1, hh, hr.1]
    have hcount2 : occurrences '#' (i ++ "#" ++ r) = 1 := by
      rw [occurrences_append, occurrences_append, hi.2, hh1, hr.2]
    rw [hj, TagFromString_eq, if_neg (not_not.mpr hcount), e1, if_neg (not_not.mpr hk), e2,
      if_pos (by omega), e3, e4]

/-- C21: for every tag whose kind is one of the six accepted kinds and whose id and
relation contain neither ':' nor '#', `Tag.String` renders it as kind:id when the relation
is empty and as kind:id#relation otherwise, and `TagFromString` applied to that string
returns a tag with the same kind, id and relation. -/
theorem Tag_String_round_trip (t : Tag) (hk : t.kind ∈ tagKinds)
    (hid : occurrences ':' t.id = 0 ∧ occurrences '#' t.id = 0)
    (hrel : occurrences ':' t.relation = 0 ∧ occurrences '#' t.relation = 0) :
    (t.relation = "" → t.String = t.kind ++ ":" ++ t.id) ∧
      (t.relation ≠ "" → t.String = t.kind ++ ":" ++ t.id ++ "#" ++ t.relation) ∧
      ∃ tag, TagFromString t.String = .ok tag ∧
        tag.kind = t.kind ∧ tag.id = t.id ∧ tag.relation = t.relation := by
  obtain ⟨h1, h2⟩ := TagFromString_join t.kind t.id t.relation hk hid hrel
  have hs1 : t.relation = "" → t.String = t.kind ++ ":" ++ t.id := by
    intro h
    simp [Tag.String, h]
  have hs2 : t.relation ≠ "" → t.String = t.kind ++ ":" ++ t.id ++ "#" ++ t.relation := by
    intro h
    simp [Tag.String, h]
  refine ⟨hs1, hs2, ?_⟩
  by_cases h : t.relation = ""
  · rw [hs1 h, h1]
    exact ⟨_, rfl, rfl, rfl, h.symm⟩
  · rw [hs2 h, h2]
    exact ⟨_, rfl, rfl, rfl, rfl⟩

theorem Tag_String_round_trip_witness :
    ("group" ∈ tagKinds ∧ (occurrences ':' "eng" = 0 ∧ occurrences '#' "eng" = 0) ∧
      (occurrences ':' "member" = 0 ∧ occurrences '#' "member" = 0)) ∧
    (Tag.mk "group" "eng" "member").String = "group:eng#member" ∧
    ∃ tag, TagFromString (Tag.mk "group" "eng" "member").String = .ok tag ∧
      tag.kind = "group" ∧ tag.id = "eng" ∧ tag.relation = "member" :=
  ⟨by decide,
    (Tag_String_round_trip (Tag.mk "group" "eng" "member") (by decide) (by decide)
      (by decide)).2.1 (by decide),
    (Tag_String_round_trip (Tag.mk "group" "eng" "member") (by decide) (by decide)
      (by decide)).2.2⟩


/-! ## Relation names -/

/-- C22, as stated, fails: `controller` and `model` are relation names of the
authorization model, and `ParseRelation` returns the unknown-relation error for both. -/
theorem ParseRelation_controller_counterexample :
    ControllerRelation ∈ modelRelations ∧ ModelRelation ∈ modelRelations ∧
      ParseRelation ControllerRelation = ("", some "unknown relation") ∧
      ParseRelation ModelRelation = ("", some "unknown relation") := by
  decide

/-- C22, amended: for member, administrator, consumer, reader, writer and can_addmodel
`ParseRelation` returns that relation with no error; for the empty string it returns the
empty relation with no error; for any other string, `controller` and `model` among them,
it returns the empty relation and an error. -/
theorem ParseRelation_accepts_parsed_relations (s : String) :
    ParseRelation s =
      if s = "" ∨ s ∈ parsedRelations then (s, none) else ("", some "unknown relation") := by
  unfold ParseRelation parsedRelations
  by_cases h0 : s = ""
  · simp [h0]
  by_cases h1 : s = MemberRelation
  · subst h1; decide
  by_cases h2 : s = AdministratorRelation
  · subst h2; decide
  by_cases h3 : s = ConsumerRelation
  · subst h3; decide
  by_cases h4 : s = ReaderRelation
  · subst h4; decide
  by_cases h5 : s = WriterRelation
  · subst h5; decide
  by_cases h6 : s = CanAddModelRelation
  · subst h6; decide
  simp [h0, h1, h2, h3, h4, h5, h6]

/-- C23: `ConvertJujuRelation` maps "admin" to administrator, "read" to reader, "write" to
writer, "consume" to consumer and "add-model" to can_addmodel; for every other string,
"login" and "superuser" among them, it returns an error together with the empty relation;
every relation it returns without error is returned unchanged, without error, by
`ParseRelation`. -/
theorem ConvertJujuRelation_table :
    ConvertJujuRelation "admin" = (AdministratorRelation, none) ∧
      ConvertJujuRelation "read" = (ReaderRelation, none) ∧
      ConvertJujuRelation "write" = (WriterRelation, none) ∧
      ConvertJujuRelation "consume" = (ConsumerRelation, none) ∧
      ConvertJujuRelation "add-model" = (CanAddModelRelation, none) ∧
      (∀ s, s ∉ ["admin", "read", "write", "consume", "add-model"] →
        ∃ msg, ConvertJujuRelation s = (NoRelation, some msg)) ∧
      (∃ msg, ConvertJujuRelation "login" = (NoRelation, some msg)) ∧
      (∃ msg, ConvertJujuRelation "superuser" = (NoRelation, some msg)) ∧
      (∀ s r, ConvertJujuRelation s = (r, none) → ParseRelation r = (r, none)) := by
  have hother : ∀ s, s ∉ ["admin", "read", "write", "consume", "add-model"] →
      ∃ msg, ConvertJujuRelation s = (NoRelation, some msg) := by
    intro s hs
    simp only [List.mem_cons, List.mem_singleton, List.not_mem_nil, or_false, not_or] at hs
    obtain ⟨h1, h2, h3, h4, h5⟩ := hs
    have h1 : ¬ s = AdminAccess := h1
    have h2 : ¬ s = ReadAccess := h2
    have h3 : ¬ s = WriteAccess := h3
    have h4 : ¬ s = ConsumeAccess := h4
    have h5 : ¬ s = AddModelAccess := h5
    unfold ConvertJujuRelation
    rw [if_neg h1, if_neg h2, if_neg h3, if_neg h4, if_neg h5]
    by_cases h6 : s = LoginAccess
    · exact ⟨_, by rw [if_pos h6]⟩
    · by_cases h7 : s = SuperuserAccess
      · exact ⟨_, by rw [if_neg h6, if_pos h7]⟩
      · exact ⟨_, by rw [if_neg h6, if_neg h7]⟩
  refine ⟨by decide, by decide, by decide, by decide, by decide, hother,
    hother _ (by decide), hother _ (by decide), ?_⟩
  intro s r h
  by_cases hs : s ∈ ["admin", "read", "write", "consume", "add-model"]
  · simp only [List.mem_cons, List.mem_singleton, List.not_mem_nil, or_false] at hs
    rcases hs with rfl | rfl | rfl | rfl | rfl
    all_goals
      have hr := (Prod.mk.inj h).1
      subst hr
      decide
  · obtain ⟨msg, hm⟩ := hother s hs
    rw [hm] at h
    exact absurd (Prod.mk.inj h).2 (by simp)


/-! ## The authorization core: the closure -/

theorem filter_length_le_of_imp {α : Type} (U : List α) (p q : α → Bool)
    (h : ∀ x ∈ U, p x = true → q x = true) :
    (U.filter p).length ≤ (U.filter q).length ∧
      ((U.filter p).length = (U.filter q).length → U.filter p = U.filter q) := by
  induction U with
  | nil => exact ⟨Nat.le_refl _, fun _ => rfl⟩
  | cons x U ih =>
    obtain ⟨ih1, ih2⟩ := ih fun y hy => h y (List.mem_cons_of_mem _ hy)
    by_cases hp : p x = true
    · have hq : q x = true := h x (List.mem_cons_self _ _) hp
      rw [List.filter_cons_of_pos hp, List.filter_cons_of_pos hq]
      refine ⟨by simpa using ih1, fun hl => ?_⟩
      rw [ih2 (by simpa using hl)]
    · rw [List.filter_cons_of_neg hp]
      by_cases hq : q x = true
      · rw [List.filter_cons_of_pos hq]
        refine ⟨by simp only [List.length_cons]; omega, fun hl => ?_⟩
        simp only [List.length_cons] at hl
        omega
      · rw [List.filter_cons_of_neg hq]
        exact ⟨ih1, ih2⟩

theorem mem_saturateStep (store : List Tuple) (subject : Tag) (held : List Goal) (g : Goal) :
    g ∈ saturateStep store subject held ↔
      g ∈ goalsOf store ∧
        (direct store subject g = true ∨ ∃ p ∈ premises store g, p ∈ held) := by
  simp [saturateStep, List.mem_filter]

theorem saturate_subset_succ (store : List Tuple) (subject : Tag) :
    ∀ n g, g ∈ saturate store subject n → g ∈ saturate store subject (n + 1) := by
  intro n
  induction n with
  | zero => intro g hg; cases hg
  | succ n ih =>
    intro g hg
    have hg : g ∈ saturateStep store subject (saturate store subject n) := hg
    show g ∈ saturateStep store subject (saturate store subject (n + 1))
    rw [mem_saturateStep] at hg ⊢
    refine ⟨hg.1, hg.2.imp id ?_⟩
    rintro ⟨p, hp, hheld⟩
    exact ⟨p, hp, ih p hheld⟩

theorem saturate_stable_or_grows (store : List Tuple) (subject : Tag) :
    ∀ n, saturate store subject n = saturate store subject (n + 1) ∨
      n + 1 ≤ (saturate store subject (n + 1)).length := by
  intro n
  induction n with
  | zero =>
    cases h : saturate store subject 1 with
    | nil => left; rfl
    | cons g gs => right; simp
  | succ n ih =>
    rcases ih with h | h
    · left
      show saturateStep store subject (saturate store subject n) =
        saturateStep store subject (saturate store subject (n + 1))
      rw [← h]
    · obtain ⟨h1, h2⟩ := filter_length_le_of_imp (goalsOf store)
        (fun g => direct store subject g ||
          (premises store g).any fun p => (saturate store subject n).contains p)
        (fun g => direct store subject g ||
          (premises store g).any fun p => (saturate store subject (n + 1)).contains p)
        (by
          intro g hg hp
          have hm : g ∈ saturateStep store subject (saturate store subject n) := by
            unfold saturateStep
            exact List.mem_filter.mpr ⟨hg, hp⟩
          have hm2 := saturate_subset_succ store subject (n + 1) g hm
          exact (List.mem_filter.mp hm2).2)
      have h1 : (saturate store subject (n + 1)).length ≤
          (saturate store subject (n + 2)).length := h1
      have h2 : (saturate store subject (n + 1)).length =
          (saturate store subject (n + 2)).length →
          saturate store subject (n + 1) = saturate store subject (n + 2) := h2
      by_cases he : (saturate store subject (n + 1)).length =
          (saturate store subject (n + 2)).length
      · left
        exact h2 he
      · right
        show n + 1 + 1 ≤ (saturate store subject (n + 2)).length
        omega

theorem saturate_fixed (store : List Tuple) (subject : Tag) :
    saturate store subject (goalsOf store).length =
      saturateStep store subject (saturate store subject (goalsOf store).length) := by
  rcases saturate_stable_or_grows store subject (goalsOf store).length with h | h
  · exact h
  · have hle : (saturate store subject ((goalsOf store).length + 1)).length ≤
        (goalsOf store).length := List.length_filter_le _ _
    omega

theorem Check_iff_step (store : List Tuple) (subject : Tag) (g : Goal) :
    Check store subject g.1 g.2 = true ↔
      g ∈ goalsOf store ∧
        (direct store subject g = true ∨
          ∃ p ∈ premises store g, Check store subject p.1 p.2 = true) := by
  have hc : ∀ g : Goal, Check store subject g.1 g.2 = true ↔
      g ∈ saturate store subject (goalsOf store).length := by
    intro g
    simp [Check]
  rw [hc, saturate_fixed, mem_saturateStep]
  constructor
  · rintro ⟨h1, h2⟩
    exact ⟨h1, h2.imp id fun ⟨p, hp, hh⟩ => ⟨p, hp, (hc p).mpr hh⟩⟩
  · rintro ⟨h1, h2⟩
    exact ⟨h1, h2.imp id fun ⟨p, hp, hh⟩ => ⟨p, hp, (hc p).mp hh⟩⟩

theorem mem_goalsOf (store : List Tuple) (g : Goal) :
    g ∈ goalsOf store ↔
      g.1 ∈ [AdministratorRelation, WriterRelation, ReaderRelation, ConsumerRelation,
          CanAddModelRelation] ++ store.map Tuple.relation ∧
        g.2 ∈ store.map Tuple.target := by
  obtain ⟨r, o⟩ := g
  unfold goalsOf
  rw [List.pair_mem_product, List.mem_dedup, List.mem_dedup]

theorem mem_goalsOf_of_tuple (store : List Tuple) (t : Tuple) (h : t ∈ store) :
    (t.relation, t.target) ∈ goalsOf store := by
  rw [mem_goalsOf]
  exact ⟨List.mem_append_right _ (List.mem_map_of_mem _ h), List.mem_map_of_mem _ h⟩

theorem direct_iff (store : List Tuple) (subject : Tag) (g : Goal) :
    direct store subject g = true ↔
      ({ object := subject, relation := g.1, target := g.2 } : Tuple) ∈ store := by
  simp [direct]

theorem mem_usersetPremises (store : List Tuple) (g p : Goal) :
    p ∈ usersetPremises store g ↔
      ∃ t ∈ store, t.relation = g.1 ∧ t.target = g.2 ∧ t.object.relation ≠ "" ∧
        p = (t.object.relation, t.object.bare) := by
  unfold usersetPremises
  rw [List.mem_filterMap]
  constructor
  · rintro ⟨t, ht, h⟩
    by_cases hc : t.relation = g.1 ∧ t.target = g.2 ∧ t.object.relation ≠ ""
    · rw [if_pos hc] at h
      exact ⟨t, ht, hc.1, hc.2.1, hc.2.2, (Option.some.inj h).symm⟩
    · rw [if_neg hc] at h
      cases h
  · rintro ⟨t, ht, h1, h2, h3, rfl⟩
    exact ⟨t, ht, by rw [if_pos ⟨h1, h2, h3⟩]⟩

theorem mem_linkPremises (store : List Tuple) (g p : Goal) :
    p ∈ linkPremises store g ↔
      g.1 = AdministratorRelation ∧
      ∃ t ∈ store, t.target = g.2 ∧
        ((t.relation = ControllerRelation ∧ t.object.kind = "controller" ∧
            (g.2.kind = "model" ∨ g.2.kind = "cloud")) ∨
          (t.relation = ModelRelation ∧ t.object.kind = "model" ∧
            g.2.kind = "applicationoffer")) ∧
        p = (AdministratorRelation, t.object) := by
  unfold linkPremises
  by_cases hg : g.1 = AdministratorRelation
  · rw [if_pos hg, List.mem_filterMap]
    constructor
    · rintro ⟨t, ht, h⟩
      by_cases hc : t.target = g.2 ∧
          ((t.relation = ControllerRelation ∧ t.object.kind = "controller" ∧
              (g.2.kind = "model" ∨ g.2.kind = "cloud")) ∨
            (t.relation = ModelRelation ∧ t.object.kind = "model" ∧
              g.2.kind = "applicationoffer"))
      · rw [if_pos hc] at h
        exact ⟨hg, t, ht, hc.1, hc.2, (Option.some.inj h).symm⟩
      · rw [if_neg hc] at h
        cases h
    · rintro ⟨_, t, ht, h1, h2, rfl⟩
      exact ⟨t, ht, by rw [if_pos ⟨h1, h2⟩]⟩
  · rw [if_neg hg]
    constructor
    · intro h
      cases h
    · rintro ⟨h, _⟩
      exact absurd h hg

theorem inheritedFrom_relation (kind : String) (r r2 : Relation)
    (h : r2 ∈ inheritedFrom kind r) :
    r ∈ [AdministratorRelation, WriterRelation, ReaderRelation, ConsumerRelation,
      CanAddModelRelation] := by
  unfold inheritedFrom at h
  split at h
  · split at h
    · simp_all
    · split at h
      · simp_all
      · cases h
  · split at h
    · split at h
      · simp_all
      · split at h
        · simp_all
        · cases h
    · split at h
      · split at h
        · simp_all
        · cases h
      · cases h

theorem mem_goalsOf_of_premise (store : List Tuple) (g p : Goal)
    (hp : p ∈ premises store g) (hmem : p ∈ goalsOf store) : g ∈ goalsOf store := by
  unfold premises at hp
  rcases List.mem_append.mp hp with h | h
  · rcases List.mem_append.mp h with h | h
    · obtain ⟨t, ht, h1, h2, _, _⟩ := (mem_usersetPremises store g p).mp h
      have := mem_goalsOf_of_tuple store t ht
      rw [h1, h2] at this
      exact this
    · obtain ⟨r2, hr2, rfl⟩ := List.mem_map.mp h
      rw [mem_goalsOf] at hmem ⊢
      exact ⟨List.mem_append_left _ (inheritedFrom_relation _ _ _ hr2), hmem.2⟩
  · obtain ⟨hg, t, ht, h1, _, _⟩ := (mem_linkPremises store g p).mp h
    rw [mem_goalsOf]
    refine ⟨?_, ?_⟩
    · rw [hg]
      exact List.mem_append_left _ (List.mem_cons_self _ _)
    · rw [← h1]
      exact List.mem_map_of_mem _ ht

theorem Check_iff_Holds (store : List Tuple) (subject : Tag) (g : Goal) :
    Check store subject g.1 g.2 = true ↔ Holds store subject g := by
  constructor
  · have hn : ∀ n g, g ∈ saturate store subject n → Holds store subject g := by
      intro n
      induction n with
      | zero => intro g hg; cases hg
      | succ n ih =>
        intro g hg
        have hg : g ∈ saturateStep store subject (saturate store subject n) := hg
        rw [mem_saturateStep] at hg
        rcases hg.2 with h | ⟨p, hp, hh⟩
        · exact Holds.direct g h
        · exact Holds.step g p hp (ih p hh)
    intro h
    exact hn _ g (by simpa [Check] using h)
  · intro h
    induction h with
    | direct g hd =>
      rw [Check_iff_step]
      refine ⟨?_, Or.inl hd⟩
      exact mem_goalsOf_of_tuple store _ ((direct_iff store subject g).mp hd)
    | step g p hp _ ih =>
      have hpm := ((Check_iff_step store subject p).mp ih).1
      rw [Check_iff_step]
      exact ⟨mem_goalsOf_of_premise store g p hp hpm, Or.inr ⟨p, hp, ih⟩⟩

/-! ## The authorization core: groups and inheritance -/

theorem Holds_of_userset (store : List Tuple) (subject y : Tag) (r : Relation) (g : Goal)
    (hy : y.relation = "") (hr : r ≠ "")
    (hsubject : Holds store subject (r, y)) (h : Holds store (y.userset r) g) :
    Holds store subject g := by
  induction h with
  | direct g hd =>
    refine Holds.step g (r, y) ?_ hsubject
    unfold premises
    refine List.mem_append_left _ (List.mem_append_left _ ?_)
    rw [mem_usersetPremises]
    refine ⟨_, (direct_iff store _ g).mp hd, rfl, rfl, hr, ?_⟩
    obtain ⟨k, i, rel⟩ := y
    simp only at hy
    subst hy
    rfl
  | step g p hp _ ih => exact Holds.step g p hp ih

theorem Holds_member_of_nested (store : List Tuple) (chain : List String) :
    ∀ subject : Tag, NestedIn store subject chain → ∀ g ∈ chain,
      Holds store subject (MemberRelation, groupTag g) := by
  induction chain with
  | nil => intro subject _ g hg; cases hg
  | cons g0 gs ih =>
    intro subject hn g hg
    obtain ⟨h1, h2⟩ := hn
    have h0 : Holds store subject (MemberRelation, groupTag g0) :=
      Holds.direct _ ((direct_iff store subject _).mpr h1)
    rcases List.mem_cons.mp hg with rfl | hg
    · exact h0
    · exact Holds_of_userset store subject (groupTag g0) MemberRelation _ rfl (by decide) h0
        (ih _ h2 g hg)

theorem mem_storedUsers (store : List Tuple) (u : User) (r : Relation) (target : Tag)
    (h : ({ object := userTag u, relation := r, target := target } : Tuple) ∈ store) :
    u ∈ storedUsers store := by
  unfold storedUsers
  rw [List.mem_dedup, List.mem_map]
  refine ⟨_, List.mem_filter.mpr ⟨h, ?_⟩, rfl⟩
  simp [userTag]

/-- C24: for every subject S, every chain of nested groups (listed from the innermost:
S is a member of the first, whose members are members of the next, and so on), every
relation R and object O: if a tuple (G#member, R, O) is stored for some group G of the
chain, then `Check(S, R, O)` is true, and `ListUsersWithAccess(O, R)`, which lists users,
includes S when S is the tag of a user. -/
theorem Check_of_nested_group (store : List Tuple) (S : Tag) (chain : List String)
    (G : String) (R : Relation) (O : Tag) (hchain : NestedIn store S chain) (hG : G ∈ chain)
    (ht : ({ object := (groupTag G).userset MemberRelation, relation := R, target := O } :
      Tuple) ∈ store) :
    Check store S R O = true ∧ ∀ u : User, S = userTag u → u ∈ ListUsersWithAccess store O R := by
  have hmember := Holds_member_of_nested store chain S hchain G hG
  have hcheck : Check store S R O = true := by
    rw [Check_iff_Holds store S (R, O)]
    exact Holds_of_userset store S (groupTag G) MemberRelation (R, O) rfl (by decide) hmember
      (Holds.direct _ ((direct_iff store _ (R, O)).mpr ht))
  refine ⟨hcheck, ?_⟩
  rintro u rfl
  unfold ListUsersWithAccess
  rw [List.mem_filter]
  refine ⟨?_, hcheck⟩
  cases chain with
  | nil => cases hG
  | cons g0 gs => exact mem_storedUsers store u _ _ hchain.1

theorem Check_of_nested_group_witness :
    (NestedIn relatedUsersStore (userTag "adam") ["4", "3"] ∧ "3" ∈ ["4", "3"] ∧
      ({ object := (groupTag "3").userset MemberRelation, relation := AdministratorRelation,
         target := ⟨"controller", "c1", ""⟩ } : Tuple) ∈ relatedUsersStore) ∧
    Check relatedUsersStore (userTag "adam") AdministratorRelation ⟨"controller", "c1", ""⟩
      = true ∧
    "adam" ∈ ListUsersWithAccess relatedUsersStore ⟨"controller", "c1", ""⟩
      AdministratorRelation :=
  ⟨⟨⟨by decide, by decide, trivial⟩, by decide, by decide⟩,
    (Check_of_nested_group relatedUsersStore (userTag "adam") ["4", "3"] "3"
      AdministratorRelation ⟨"controller", "c1", ""⟩ ⟨by decide, by decide, trivial⟩
      (by decide) (by decide)).1,
    (Check_of_nested_group relatedUsersStore (userTag "adam") ["4", "3"] "3"
      AdministratorRelation ⟨"controller", "c1", ""⟩ ⟨by decide, by decide, trivial⟩
      (by decide) (by decide)).2 "adam" rfl⟩

theorem Check_of_premise (store : List Tuple) (subject : Tag) (g p : Goal)
    (hp : p ∈ premises store g) (h : Check store subject p.1 p.2 = true) :
    Check store subject g.1 g.2 = true := by
  rw [Check_iff_Holds] at h ⊢
  exact Holds.step g p hp h

theorem Check_of_direct (store : List Tuple) (subject : Tag) (r : Relation) (target : Tag)
    (h : ({ object := subject, relation := r, target := target } : Tuple) ∈ store) :
    Check store subject r target = true := by
  rw [Check_iff_Holds store subject (r, target)]
  exact Holds.direct _ ((direct_iff store subject (r, target)).mpr h)

/-- C25: for every subject S and every model M: if `Check(S, administrator, M)` holds
then `Check(S, writer, M)` and `Check(S, reader, M)` hold, and an administrator of a
controller linked to M by a controller relation is an administrator of M. -/
theorem model_administrator_is_writer_and_reader (store : List Tuple) (S M : Tag)
    (hM : M.kind = "model") :
    (Check store S AdministratorRelation M = true →
        Check store S WriterRelation M = true ∧ Check store S ReaderRelation M = true) ∧
      (∀ C : Tag, C.kind = "controller" →
        ({ object := C, relation := ControllerRelation, target := M } : Tuple) ∈ store →
        Check store S AdministratorRelation C = true →
        Check store S AdministratorRelation M = true) := by
  constructor
  · intro h
    have hw : Check store S WriterRelation M = true := by
      refine Check_of_premise store S (WriterRelation, M) (AdministratorRelation, M) ?_ h
      unfold premises
      refine List.mem_append_left _ (List.mem_append_right _ ?_)
      simp [inheritedFrom, hM]
    refine ⟨hw, ?_⟩
    refine Check_of_premise store S (ReaderRelation, M) (WriterRelation, M) ?_ hw
    unfold premises
    refine List.mem_append_left _ (List.mem_append_right _ ?_)
    have hne : ReaderRelation ≠ WriterRelation := by decide
    simp [inheritedFrom, hM, hne]
  · intro C hC ht h
    refine Check_of_premise store S (AdministratorRelation, M) (AdministratorRelation, C) ?_ h
    unfold premises
    refine List.mem_append_right _ ?_
    rw [mem_linkPremises]
    exact ⟨rfl, _, ht, rfl, Or.inl ⟨rfl, hC, Or.inl hM⟩, rfl⟩

theorem model_administrator_is_writer_and_reader_witness :
    (⟨"model", "m1", ""⟩ : Tag).kind = "model" ∧
      Check relatedUsersStore (userTag "eve") AdministratorRelation ⟨"model", "m1", ""⟩
        = true ∧
      Check relatedUsersStore (userTag "eve") WriterRelation ⟨"model", "m1", ""⟩ = true ∧
      Check relatedUsersStore (userTag "eve") ReaderRelation ⟨"model", "m1", ""⟩ = true :=
  have hadmin : Check relatedUsersStore (userTag "eve") AdministratorRelation
      ⟨"model", "m1", ""⟩ = true :=
    (model_administrator_is_writer_and_reader relatedUsersStore (userTag "eve")
      ⟨"model", "m1", ""⟩ rfl).2 ⟨"controller", "c1", ""⟩ rfl (by decide)
      (Check_of_premise relatedUsersStore (userTag "eve")
        (AdministratorRelation, ⟨"controller", "c1", ""⟩) (MemberRelation, groupTag "3")
        (by decide)
        (Check_of_direct relatedUsersStore (userTag "eve") MemberRelation (groupTag "3")
          (by decide)))
  ⟨rfl, hadmin,
    (model_administrator_is_writer_and_reader relatedUsersStore (userTag "eve")
      ⟨"model", "m1", ""⟩ rfl).1 hadmin⟩

/-! ## The authorization core: the tests -/

set_option maxRecDepth 1000000 in
/-- The model agrees with the test `TestModelAccess`: eve is an administrator, a writer
and a reader of the model, alice a writer and not an administrator, adam neither a
writer nor a reader. -/
theorem modelAccessStore_agrees_with_test :
    Check modelAccessStore (userTag "eve") AdministratorRelation ⟨"model", "m1", ""⟩ = true ∧
      Check modelAccessStore (userTag "eve") WriterRelation ⟨"model", "m1", ""⟩ = true ∧
      Check modelAccessStore (userTag "eve") ReaderRelation ⟨"model", "m1", ""⟩ = true ∧
      Check modelAccessStore (userTag "alice") AdministratorRelation ⟨"model", "m1", ""⟩
        = false ∧
      Check modelAccessStore (userTag "alice") WriterRelation ⟨"model", "m1", ""⟩ = true ∧
      Check modelAccessStore (userTag "adam") WriterRelation ⟨"model", "m1", ""⟩ = false ∧
      Check modelAccessStore (userTag "adam") ReaderRelation ⟨"model", "m1", ""⟩ = false := by
  decide

set_option maxRecDepth 1000000 in
/-- The model agrees with the test `TestListRelatedUsers`: adam, alice and eve are the
users with reader access to the offer, and eve is an administrator of it. -/
theorem relatedUsersStore_agrees_with_test :
    ListUsersWithAccess relatedUsersStore ⟨"applicationoffer", "o1", ""⟩ ReaderRelation =
        ["eve", "alice", "adam"] ∧
      Check relatedUsersStore (userTag "eve") AdministratorRelation
        ⟨"applicationoffer", "o1", ""⟩ = true := by
  decide

/-! ## Offer access: what a call leaves alone -/

theorem entriesOf_pushUser_other (u v : User) (a : ApplicationOfferAccessPermission)
    (o : ApplicationOffer) (h : v ≠ u) :
    entriesOf v (pushUser u a o).users = entriesOf v o.users := by
  have : (u == v) = false := by simpa using fun h2 => h h2.symm
  simp [pushUser, entriesOf, List.filter_append, this]

theorem entriesOf_pullOtherAccess_other (u v : User) (a : ApplicationOfferAccessPermission)
    (o : ApplicationOffer) (h : v ≠ u) :
    entriesOf v (pullOtherAccess u a o).users = entriesOf v o.users := by
  unfold entriesOf pullOtherAccess
  show List.filter _ (List.filter _ o.users) = _
  rw [List.filter_filter]
  apply List.filter_congr
  intro e _
  by_cases he : e.user = v
  · have : ¬ e.user = u := by rw [he]; exact h
    simp [he, this, h]
  · simp [he]

theorem SetApplicationOfferAccess_eq_map (u : User) (uuid : String)
    (a : ApplicationOfferAccessPermission) (db : List ApplicationOffer) :
    SetApplicationOfferAccess u uuid a db =
      .ok (db.map fun d =>
        let d1 := if selectorA u uuid a d then pushUser u a d else d
        if selectorB u uuid a d1 then pullOtherAccess u a d1 else d1) := by
  simp [SetApplicationOfferAccess, updateA, updateB, UpdateAll, List.map_map, Function.comp]

/-- C26: for every collection of offers, users u and v with v different from u, and access
a, `SetApplicationOfferAccess(u, offer, a)` succeeds and leaves, in every stored offer, the
users entries of v (those of "everyone" when v is "everyone") present with the same access
and in the same order; it changes no field of an offer other than its users list, changes
no offer other than the one named, and adds or removes no offer. -/
theorem SetApplicationOfferAccess_frame (db : List ApplicationOffer) (u v : User)
    (uuid : String) (a : ApplicationOfferAccessPermission) (h : v ≠ u) :
    ∃ db2, SetApplicationOfferAccess u uuid a db = .ok db2 ∧
      List.Forall₂
        (fun o o2 => entriesOf v o2.users = entriesOf v o.users ∧
          { o2 with users := o.users } = o ∧ (o.offerUUID ≠ uuid → o2 = o))
        db db2 := by
  refine ⟨_, SetApplicationOfferAccess_eq_map u uuid a db, ?_⟩
  apply forall₂_map_of_forall
  intro d _
  have hA : ∀ d1 : ApplicationOffer,
      d1 = (if selectorA u uuid a d then pushUser u a d else d) →
      entriesOf v d1.users = entriesOf v d.users ∧ { d1 with users := d.users } = d ∧
        (d.offerUUID ≠ uuid → d1 = d) := by
    intro d1 hd1
    by_cases hs : selectorA u uuid a d = true
    · rw [if_pos hs] at hd1
      subst hd1
      refine ⟨entriesOf_pushUser_other u v a d h, rfl, ?_⟩
      intro hne
      simp [selectorA, hne] at hs
    · rw [if_neg hs] at hd1
      subst hd1
      exact ⟨rfl, rfl, fun _ => rfl⟩
  obtain ⟨h1, h2, h3⟩ := hA _ rfl
  generalize (if selectorA u uuid a d then pushUser u a d else d) = d1 at h1 h2 h3
  show entriesOf v (if selectorB u uuid a d1 then pullOtherAccess u a d1 else d1).users = _ ∧
    { (if selectorB u uuid a d1 then pullOtherAccess u a d1 else d1) with users := d.users } = d ∧
    (d.offerUUID ≠ uuid → (if selectorB u uuid a d1 then pullOtherAccess u a d1 else d1) = d)
  by_cases hs : selectorB u uuid a d1 = true
  · rw [if_pos hs]
    refine ⟨?_, ?_, ?_⟩
    · rw [entriesOf_pullOtherAccess_other u v a d1 h, h1]
    · rw [← h2]
      rfl
    · intro hne
      have := h3 hne
      subst this
      simp [selectorB, hne] at hs
  · rw [if_neg hs]
    exact ⟨h1, h2, h3⟩

theorem SetApplicationOfferAccess_frame_witness :
    ("everyone" : User) ≠ "bob" ∧
      ∃ db2, SetApplicationOfferAccess "bob" "o1" ApplicationOfferConsumeAccess
          [sampleOffer, offerWithUsers "o2" [⟨"bob", ApplicationOfferReadAccess⟩]] = .ok db2 ∧
        List.Forall₂
          (fun o o2 => entriesOf "everyone" o2.users = entriesOf "everyone" o.users ∧
            { o2 with users := o.users } = o ∧ (o.offerUUID ≠ "o1" → o2 = o))
          [sampleOffer, offerWithUsers "o2" [⟨"bob", ApplicationOfferReadAccess⟩]] db2 :=
  ⟨by decide,
    SetApplicationOfferAccess_frame
      [sampleOffer, offerWithUsers "o2" [⟨"bob", ApplicationOfferReadAccess⟩]]
      "bob" "everyone" "o1" ApplicationOfferConsumeAccess (by decide)⟩


/-! ## Indexes -/

/-- C27: the index that `EnsureIndexes` declares on the machines collection and on the
applications collection is keyed on `info.uuid`, while `MachinesForModel` and
`ApplicationsForModel` filter on `info.modeluuid`: the index is not keyed on the field
the two queries filter on. -/
theorem EnsureIndexes_machines_key_differs_from_filter :
    indexKeys "machines" = [["info.uuid"]] ∧ indexKeys "applications" = [["info.uuid"]] ∧
      (∀ modelUUID, selectorFields (machinesForModelSelector modelUUID) = ["info.modeluuid"] ∧
        selectorFields (applicationsForModelSelector modelUUID) = ["info.modeluuid"] ∧
        selectorFields (machinesForModelSelector modelUUID) ∉ indexKeys "machines" ∧
        selectorFields (applicationsForModelSelector modelUUID) ∉
          indexKeys "applications") := by
  refine ⟨by decide, by decide, fun modelUUID => ⟨rfl, rfl, ?_, ?_⟩⟩
  · show ["info.modeluuid"] ∉ indexKeys "machines"
    decide
  · show ["info.modeluuid"] ∉ indexKeys "applications"
    decide


/-! ## The iterator over readable items -/

theorem scan_items {Identity Item : Type} (C : Identity → Item → Option IterError)
    (l : List Item) : ∀ (it : CanReadIter Identity Item) (items : List Item),
    CanReadIter.scan C { it with iter := { it.iter with items := items } } l =
      CanReadIter.scan C it l := by
  induction l with
  | nil => intro it items; rfl
  | cons x rest ih =>
    intro it items
    unfold CanReadIter.scan
    cases hc : C it.id x with
    | none => simp only [hc]
    | some e =>
      simp only [hc]
      by_cases he : e.cause = ErrorCode.ErrUnauthorized
      · rw [if_pos he, if_pos he]
        exact ih { it with n := it.n + 1 } items
      · rw [if_neg he, if_neg he]

theorem Next_eq_scan {Identity Item : Type} (C : Identity → Item → Option IterError)
    (it : CanReadIter Identity Item) (h1 : it.err = none) (h2 : it.iter.closed = false) :
    it.Next C = it.scan C it.iter.items := by
  simp [CanReadIter.Next, h1, h2]

theorem NextN_of_done {Identity Item : Type} (C : Identity → Item → Option IterError)
    (it : CanReadIter Identity Item) (h : it.Next C = (none, it)) :
    ∀ k, CanReadIter.NextN C k it = ([], it) := by
  intro k
  induction k with
  | zero => rfl
  | succ k ih =>
    unfold CanReadIter.NextN
    simp only [h, ih]

theorem items_cons_read {Identity Item : Type} (C : Identity → Item → Option IterError)
    (id : Identity) (x : Item) (rest : List Item) (u : Option IterError)
    (h : C id x = none) :
    canRead C id x = true ∧
      readableItems C id (x :: rest) = x :: readableItems C id rest ∧
      checkedItems C id (x :: rest) = x :: checkedItems C id rest ∧
      finalErr C id (x :: rest) u = finalErr C id rest u := by
  have hf : failsOtherwise C id x = false := by simp [failsOtherwise, h]
  have hr : canRead C id x = true := by simp [canRead, h]
  refine ⟨hr, ?_, ?_, ?_⟩
  · simp [readableItems, checkedItems, List.takeWhile, hf, hr]
  · simp [checkedItems, List.takeWhile, hf]
  · simp [finalErr, List.dropWhile, hf]

theorem items_cons_unauthorized {Identity Item : Type}
    (C : Identity → Item → Option IterError)
    (id : Identity) (x : Item) (rest : List Item) (u : Option IterError) (e : IterError)
    (h : C id x = some e) (he : e.cause = ErrorCode.ErrUnauthorized) :
    canRead C id x = false ∧
      readableItems C id (x :: rest) = readableItems C id rest ∧
      checkedItems C id (x :: rest) = x :: checkedItems C id rest ∧
      finalErr C id (x :: rest) u = finalErr C id rest u := by
  have hf : failsOtherwise C id x = false := by simp [failsOtherwise, h, he]
  have hr : canRead C id x = false := by simp [canRead, h]
  refine ⟨hr, ?_, ?_, ?_⟩
  · simp [readableItems, checkedItems, List.takeWhile, hf, hr]
  · simp [checkedItems, List.takeWhile, hf]
  · simp [finalErr, List.dropWhile, hf]

theorem items_cons_failure {Identity Item : Type} (C : Identity → Item → Option IterError)
    (id : Identity) (x : Item) (rest : List Item) (u : Option IterError) (e : IterError)
    (h : C id x = some e) (he : e.cause ≠ ErrorCode.ErrUnauthorized) :
    canRead C id x = false ∧
      readableItems C id (x :: rest) = [] ∧
      checkedItems C id (x :: rest) = [] ∧
      finalErr C id (x :: rest) u = some (Mask e) := by
  have hf : failsOtherwise C id x = true := by simp [failsOtherwise, h, he]
  have hr : canRead C id x = false := by simp [canRead, h]
  refine ⟨hr, ?_, ?_, ?_⟩
  · simp [readableItems, checkedItems, List.takeWhile, hf]
  · simp [checkedItems, List.takeWhile, hf]
  · simp [finalErr, List.dropWhile, hf, h]


theorem NextN_traversal {Identity Item : Type} (C : Identity → Item → Option IterError)
    (l : List Item) : ∀ (k : Nat) (it : CanReadIter Identity Item),
    it.err = none → it.iter.closed = false → it.iter.items = l →
    Traversal C it l k (CanReadIter.NextN C k it) := by
  induction l with
  | nil =>
    intro k it h1 h2 h3
    have hnext : it.Next C = (none, it) := by
      rw [Next_eq_scan C it h1 h2, h3]
      obtain ⟨id, ⟨items, closed, uerr⟩, err, n⟩ := it
      simp only at h3
      subst h3
      rfl
    rw [NextN_of_done C it hnext k]
    refine ⟨by simp [readableItems, checkedItems], ⟨0, Nat.le_refl _, rfl, by simpa using h3, rfl⟩,
      fun _ => ⟨hnext, ?_, by simp⟩⟩
    simp [CanReadIter.Err, h1, finalErr]
  | cons x rest ih =>
    intro k it h1 h2 h3
    cases k with
    | zero =>
      refine ⟨by simp [CanReadIter.NextN], ⟨0, Nat.zero_le _, rfl, by simpa using h3, rfl⟩, ?_⟩
      intro hlt
      exact absurd hlt (Nat.not_lt_zero _)
    | succ k =>
      have hnext : it.Next C = it.scan C (x :: rest) := by
        rw [Next_eq_scan C it h1 h2, h3]
      cases hc : C it.id x with
      | none =>
        obtain ⟨hr, e1, e2, e3⟩ := items_cons_read C it.id x rest it.iter.err hc
        have hstep : it.Next C =
            (some x, { it with iter := { it.iter with items := rest }, n := it.n + 1 }) := by
          rw [hnext]
          unfold CanReadIter.scan
          simp only [hc]
        obtain ⟨i1, ⟨m, hm, hn, hitems, hret⟩, i3⟩ :=
          ih k { it with iter := { it.iter with items := rest }, n := it.n + 1 } h1 h2 rfl
        have hN : CanReadIter.NextN C (k + 1) it =
            (x :: (CanReadIter.NextN C k
                { it with iter := { it.iter with items := rest }, n := it.n + 1 }).1,
              (CanReadIter.NextN C k
                { it with iter := { it.iter with items := rest }, n := it.n + 1 }).2) := by
          conv => lhs; unfold CanReadIter.NextN
          simp only [hstep]
        rw [hN]
        refine ⟨?_, ⟨m + 1, ?_, ?_, ?_, ?_⟩, ?_⟩
        · show x :: _ = _
          rw [e1, List.take_succ_cons, i1]
        · simpa using hm
        · show _ = it.n + (m + 1)
          rw [hn]
          show it.n + 1 + m = it.n + (m + 1)
          omega
        · rw [hitems]
          rfl
        · show x :: _ = _
          rw [hret, List.take_succ_cons, List.filter_cons_of_pos hr]
        · intro hlt
          rw [e1] at hlt
          obtain ⟨j1, j2, j3⟩ := i3 (by simpa using hlt)
          refine ⟨j1, ?_, ?_⟩
          · rw [j2, e3]
          · rw [j3, e2]
            show it.n + 1 + _ = it.n + _
            simp only [List.length_cons]
            omega
      | some e =>
        by_cases he : e.cause = ErrorCode.ErrUnauthorized
        · obtain ⟨hr, e1, e2, e3⟩ :=
            items_cons_unauthorized C it.id x rest it.iter.err e hc he
          have hstep : it.Next C =
              CanReadIter.Next C
                { it with iter := { it.iter with items := rest }, n := it.n + 1 } := by
            rw [hnext, Next_eq_scan C
              { it with iter := { it.iter with items := rest }, n := it.n + 1 } h1 h2]
            conv => lhs; unfold CanReadIter.scan
            simp only [hc, if_pos he]
            exact (scan_items C rest { it with n := it.n + 1 } rest).symm
          obtain ⟨i1, ⟨m, hm, hn, hitems, hret⟩, i3⟩ :=
            ih (k + 1) { it with iter := { it.iter with items := rest }, n := it.n + 1 }
              h1 h2 rfl
          have hN : CanReadIter.NextN C (k + 1) it =
              CanReadIter.NextN C (k + 1)
                { it with iter := { it.iter with items := rest }, n := it.n + 1 } := by
            conv => lhs; unfold CanReadIter.NextN
            conv => rhs; unfold CanReadIter.NextN
            simp only [hstep]
          rw [hN]
          refine ⟨?_, ⟨m + 1, ?_, ?_, ?_, ?_⟩, ?_⟩
          · rw [e1]
            exact i1
          · simpa using hm
          · show _ = it.n + (m + 1)
            rw [hn]
            show it.n + 1 + m = it.n + (m + 1)
            omega
          · rw [hitems]
            rfl
          · rw [hret, List.take_succ_cons, List.filter_cons_of_neg (by simp [hr])]
          · intro hlt
            rw [e1] at hlt
            obtain ⟨j1, j2, j3⟩ := i3 hlt
            refine ⟨j1, ?_, ?_⟩
            · rw [j2, e3]
            · rw [j3, e2]
              show it.n + 1 + _ = it.n + _
              simp only [List.length_cons]
              omega
        · obtain ⟨hr, e1, e2, e3⟩ := items_cons_failure C it.id x rest it.iter.err e hc he
          have hstep : it.Next C =
              (none, { it with iter := { it.iter with items := rest, closed := true },
                               err := some (Mask e), n := it.n + 1 }) := by
            rw [hnext]
            unfold CanReadIter.scan
            simp only [hc, if_neg he]
          have hdone : CanReadIter.Next C
              { it with iter := { it.iter with items := rest, closed := true },
                        err := some (Mask e), n := it.n + 1 } =
              (none, { it with iter := { it.iter with items := rest, closed := true },
                               err := some (Mask e), n := it.n + 1 }) := by
            simp [CanReadIter.Next]
          have hN : CanReadIter.NextN C (k + 1) it =
              ([], { it with iter := { it.iter with items := rest, closed := true },
                             err := some (Mask e), n := it.n + 1 }) := by
            conv => lhs; unfold CanReadIter.NextN
            simp only [hstep, NextN_of_done C _ hdone k]
          rw [hN]
          refine ⟨by rw [e1]; rfl, ⟨1, by simp, rfl, rfl, ?_⟩, fun _ => ⟨hdone, ?_, ?_⟩⟩
          · simp [hr]
          · rw [e3]
            rfl
          · rw [e2]
            show it.n + 1 = it.n + _
            simp


/-- C28: for every underlying item sequence and identity, the items for which the first k
successive `CanReadIter.Next` calls return true are, in order, the first k of the
underlying items the identity is allowed to read up to the first read check that fails
with an error other than Unauthorized; `Count` is the number of underlying items
consumed (the items returned are the readable ones among them, the others were skipped as
unauthorized or failed the check), so it is never less than the number of items returned;
and once a call has returned false, `Next` keeps returning false, `Err` reports the
(masked) error of the failing check, or the underlying iterator's error when no check
failed, and `Count` has counted every item up to and including the failing one. -/
theorem CanReadIter_returns_readable_items {Identity Item : Type}
    (CheckCanRead : Identity → Item → Option IterError) (id : Identity) (items : List Item)
    (err : Option IterError) (k : Nat) :
    ((NewCanReadIter id { items := items, closed := false, err := err }).NextN
        CheckCanRead k).1 = (readableItems CheckCanRead id items).take k ∧
      (∃ m, m ≤ items.length ∧
        ((NewCanReadIter id { items := items, closed := false, err := err }).NextN
          CheckCanRead k).2.Count = m ∧
        ((NewCanReadIter id { items := items, closed := false, err := err }).NextN
          CheckCanRead k).2.iter.items = items.drop m ∧
        ((NewCanReadIter id { items := items, closed := false, err := err }).NextN
          CheckCanRead k).1 = (items.take m).filter (canRead CheckCanRead id)) ∧
      ((NewCanReadIter id { items := items, closed := false, err := err }).NextN
          CheckCanRead k).1.length ≤
        ((NewCanReadIter id { items := items, closed := false, err := err }).NextN
          CheckCanRead k).2.Count ∧
      ((readableItems CheckCanRead id items).length < k →
        (((NewCanReadIter id { items := items, closed := false, err := err }).NextN
            CheckCanRead k).2.Next CheckCanRead).1 = none ∧
          (((NewCanReadIter id { items := items, closed := false, err := err }).NextN
            CheckCanRead k).2.Next CheckCanRead).2 =
            ((NewCanReadIter id { items := items, closed := false, err := err }).NextN
              CheckCanRead k).2 ∧
          ((NewCanReadIter id { items := items, closed := false, err := err }).NextN
            CheckCanRead k).2.Err = finalErr CheckCanRead id items err ∧
          ((NewCanReadIter id { items := items, closed := false, err := err }).NextN
            CheckCanRead k).2.Count =
            min items.length ((checkedItems CheckCanRead id items).length + 1)) := by
  obtain ⟨h1, ⟨m, hm, hn, hitems, hret⟩, h3⟩ :=
    NextN_traversal CheckCanRead items k
      (NewCanReadIter id { items := items, closed := false, err := err }) rfl rfl rfl
  have hn0 : ((NewCanReadIter id { items := items, closed := false, err := err }).NextN
      CheckCanRead k).2.Count = m := by
    rw [hn]
    show 0 + m = m
    omega
  refine ⟨h1, ⟨m, hm, hn0, hitems, hret⟩, ?_, ?_⟩
  · rw [hn0, hret]
    calc ((items.take m).filter (canRead CheckCanRead id)).length
        ≤ (items.take m).length := List.length_filter_le _ _
      _ ≤ m := by simp
  · intro hlt
    obtain ⟨j1, j2, j3⟩ := h3 hlt
    refine ⟨by rw [j1], by rw [j1], j2, ?_⟩
    rw [j3]
    show 0 + min items.length ((checkedItems CheckCanRead id items).length + 1) = _
    exact Nat.zero_add _

theorem CanReadIter_returns_readable_items_witness :
    ((NewCanReadIter "bob"
        { items := [("bob", "a"), ("eve", "b"), ("bob", "c"), ("eve", "broken"), ("bob", "d")],
          closed := false, err := none }).NextN sampleCheckCanRead 3).1 =
        [("bob", "a"), ("bob", "c")] ∧
      ((NewCanReadIter "bob"
        { items := [("bob", "a"), ("eve", "b"), ("bob", "c"), ("eve", "broken"), ("bob", "d")],
          closed := false, err := none }).NextN sampleCheckCanRead 3).2.Count = 4 ∧
      ((NewCanReadIter "bob"
        { items := [("bob", "a"), ("eve", "b"), ("bob", "c"), ("eve", "broken"), ("bob", "d")],
          closed := false, err := none }).NextN sampleCheckCanRead 3).2.Err =
        some { message := "cannot check", cause := ErrorCode.ErrOther } :=
  ⟨(CanReadIter_returns_readable_items sampleCheckCanRead "bob"
      [("bob", "a"), ("eve", "b"), ("bob", "c"), ("eve", "broken"), ("bob", "d")] none 3).1,
    ((CanReadIter_returns_readable_items sampleCheckCanRead "bob"
      [("bob", "a"), ("eve", "b"), ("bob", "c"), ("eve", "broken"), ("bob", "d")] none 3).2.2.2
        (by decide)).2.2.2,
    ((CanReadIter_returns_readable_items sampleCheckCanRead "bob"
      [("bob", "a"), ("eve", "b"), ("bob", "c"), ("eve", "broken"), ("bob", "d")] none 3).2.2.2
        (by decide)).2.2.1⟩


/-! ## Cloud access: nested ACL lists -/

theorem mem_addToSet {β : Type} [DecidableEq β] (x y : β) (l : List β) :
    y ∈ addToSet x l ↔ y = x ∨ y ∈ l := by
  unfold addToSet
  by_cases h : x ∈ l
  · rw [if_pos h]
    constructor
    · exact Or.inr
    · rintro (rfl | h2)
      · exact h
      · exact h2
  · rw [if_neg h]
    simp [or_comm]

theorem mem_pull {β : Type} [DecidableEq β] (x y : β) (l : List β) :
    y ∈ pull x l ↔ y ≠ x ∧ y ∈ l := by
  simp [pull, and_comm]

theorem GrantCloud_eq (cloud : String) (user : User) (access : String) (db : List CloudRegion)
    (fields : List String) (h : grantCloudFields access = some fields) :
    GrantCloud cloud user access db =
      .ok (db.map fun d =>
        if d.cloud == cloud then { d with acl := updateACLFields fields (addToSet user) d.acl }
        else d) := by
  simp [GrantCloud, h, UpdateAll]

theorem RevokeCloud_eq (cloud : String) (user : User) (access : String) (db : List CloudRegion)
    (fields : List String) (h : revokeCloudFields access = some fields) :
    RevokeCloud cloud user access db =
      .ok (db.map fun d =>
        if d.cloud == cloud then { d with acl := updateACLFields fields (pull user) d.acl }
        else d) := by
  simp [RevokeCloud, h, UpdateAll]

theorem ACLNested_grant (user : User) (acl : ACL) (fields : List String)
    (hf : fields = ["acl.admin", "acl.write", "acl.read"] ∨ fields = ["acl.read"])
    (h : ACLNested acl) : ACLNested (updateACLFields fields (addToSet user) acl) := by
  obtain ⟨h1, h2⟩ := h
  rcases hf with rfl | rfl
  · constructor
    · intro y hy
      have hy : y ∈ addToSet user acl.admin := hy
      show y ∈ addToSet user acl.write
      rw [mem_addToSet] at hy ⊢
      exact hy.imp id fun m => h1 m
    · intro y hy
      have hy : y ∈ addToSet user acl.write := hy
      show y ∈ addToSet user acl.read
      rw [mem_addToSet] at hy ⊢
      exact hy.imp id fun m => h2 m
  · constructor
    · exact h1
    · intro y hy
      have hy : y ∈ acl.write := hy
      show y ∈ addToSet user acl.read
      rw [mem_addToSet]
      exact Or.inr (h2 hy)

theorem ACLNested_revoke (user : User) (acl : ACL) (fields : List String)
    (hf : fields = ["acl.read", "acl.admin", "acl.write"] ∨ fields = ["acl.admin", "acl.write"])
    (h : ACLNested acl) : ACLNested (updateACLFields fields (pull user) acl) := by
  obtain ⟨h1, h2⟩ := h
  rcases hf with rfl | rfl
  · constructor
    · intro y hy
      have hy : y ∈ pull user acl.admin := hy
      show y ∈ pull user acl.write
      rw [mem_pull] at hy ⊢
      exact ⟨hy.1, h1 hy.2⟩
    · intro y hy
      have hy : y ∈ pull user acl.write := hy
      show y ∈ pull user acl.read
      rw [mem_pull] at hy ⊢
      exact ⟨hy.1, h2 hy.2⟩
  · constructor
    · intro y hy
      have hy : y ∈ pull user acl.admin := hy
      show y ∈ pull user acl.write
      rw [mem_pull] at hy ⊢
      exact ⟨hy.1, h1 hy.2⟩
    · intro y hy
      have hy : y ∈ pull user acl.write := hy
      show y ∈ acl.read
      rw [mem_pull] at hy
      exact h2 hy.2

theorem grantCloudFields_cases (access : String) (fields : List String)
    (h : grantCloudFields access = some fields) :
    fields = ["acl.admin", "acl.write", "acl.read"] ∨ fields = ["acl.read"] := by
  unfold grantCloudFields at h
  by_cases h1 : access = "admin"
  · rw [if_pos h1] at h
    exact Or.inl (Option.some.inj h).symm
  · rw [if_neg h1] at h
    by_cases h2 : access = "add-model"
    · rw [if_pos h2] at h
      exact Or.inr (Option.some.inj h).symm
    · rw [if_neg h2] at h
      cases h

theorem revokeCloudFields_cases (access : String) (fields : List String)
    (h : revokeCloudFields access = some fields) :
    fields = ["acl.read", "acl.admin", "acl.write"] ∨ fields = ["acl.admin", "acl.write"] := by
  unfold revokeCloudFields at h
  by_cases h1 : access = "add-model"
  · rw [if_pos h1] at h
    exact Or.inl (Option.some.inj h).symm
  · rw [if_neg h1] at h
    by_cases h2 : access = "admin"
    · rw [if_pos h2] at h
      exact Or.inr (Option.some.inj h).symm
    · rw [if_neg h2] at h
      cases h

theorem GrantCloud_keeps_nesting (cloud : String) (user : User) (access : String)
    (db : List CloudRegion) (h : ∀ d ∈ db, ACLNested d.acl) :
    ∀ d ∈ storedAfter (GrantCloud cloud user access db) db, ACLNested d.acl := by
  cases hf : grantCloudFields access with
  | none =>
    have : GrantCloud cloud user access db = .error ErrorCode.ErrOther := by
      simp [GrantCloud, hf]
    rw [this]
    exact h
  | some fields =>
    rw [GrantCloud_eq cloud user access db fields hf]
    intro d hd
    obtain ⟨d0, hd0, rfl⟩ := List.mem_map.mp hd
    by_cases hc : (d0.cloud == cloud) = true
    · rw [if_pos hc]
      exact ACLNested_grant user d0.acl fields (grantCloudFields_cases access fields hf)
        (h d0 hd0)
    · rw [if_neg hc]
      exact h d0 hd0

theorem RevokeCloud_keeps_nesting (cloud : String) (user : User) (access : String)
    (db : List CloudRegion) (h : ∀ d ∈ db, ACLNested d.acl) :
    ∀ d ∈ storedAfter (RevokeCloud cloud user access db) db, ACLNested d.acl := by
  cases hf : revokeCloudFields access with
  | none =>
    have : RevokeCloud cloud user access db = .error ErrorCode.ErrOther := by
      simp [RevokeCloud, hf]
    rw [this]
    exact h
  | some fields =>
    rw [RevokeCloud_eq cloud user access db fields hf]
    intro d hd
    obtain ⟨d0, hd0, rfl⟩ := List.mem_map.mp hd
    by_cases hc : (d0.cloud == cloud) = true
    · rw [if_pos hc]
      exact ACLNested_revoke user d0.acl fields (revokeCloudFields_cases access fields hf)
        (h d0 hd0)
    · rw [if_neg hc]
      exact h d0 hd0


/-- C29: if in every cloud-region record the ACL satisfies admin ⊆ write ⊆ read (as sets
of users), then it still does after any `GrantCloud` or `RevokeCloud` call with any cloud,
user and access argument; granting "admin" adds the user to all three lists, granting
"add-model" to the read list only, revoking "admin" removes the user from admin and write
and keeps read, revoking "add-model" removes the user from all three, and only records of
the named cloud change. -/
theorem GrantCloud_RevokeCloud_keep_nested_acl (cloud : String) (user : User)
    (access : String) (db : List CloudRegion) (h : ∀ d ∈ db, ACLNested d.acl) :
    (∀ d ∈ storedAfter (GrantCloud cloud user access db) db, ACLNested d.acl) ∧
      (∀ d ∈ storedAfter (RevokeCloud cloud user access db) db, ACLNested d.acl) ∧
      GrantCloud cloud user "admin" db =
        .ok (db.map fun d =>
          if d.cloud = cloud then
            { d with acl := { read := addToSet user d.acl.read,
                              write := addToSet user d.acl.write,
                              admin := addToSet user d.acl.admin } }
          else d) ∧
      GrantCloud cloud user "add-model" db =
        .ok (db.map fun d =>
          if d.cloud = cloud then
            { d with acl := { d.acl with read := addToSet user d.acl.read } }
          else d) ∧
      RevokeCloud cloud user "admin" db =
        .ok (db.map fun d =>
          if d.cloud = cloud then
            { d with acl := { d.acl with write := pull user d.acl.write,
                                         admin := pull user d.acl.admin } }
          else d) ∧
      RevokeCloud cloud user "add-model" db =
        .ok (db.map fun d =>
          if d.cloud = cloud then
            { d with acl := { read := pull user d.acl.read,
                              write := pull user d.acl.write,
                              admin := pull user d.acl.admin } }
          else d) := by
  refine ⟨GrantCloud_keeps_nesting cloud user access db h,
    RevokeCloud_keeps_nesting cloud user access db h, ?_, ?_, ?_, ?_⟩
  · rw [GrantCloud_eq cloud user "admin" db _ rfl]
    simp [updateACLFields]
  · rw [GrantCloud_eq cloud user "add-model" db _ rfl]
    simp [updateACLFields]
  · rw [RevokeCloud_eq cloud user "admin" db _ rfl]
    simp [updateACLFields]
  · rw [RevokeCloud_eq cloud user "add-model" db _ rfl]
    simp [updateACLFields]

theorem GrantCloud_RevokeCloud_keep_nested_acl_witness :
    (∀ d ∈ [sampleCloudRegion "r1" ⟨["alice", "bob"], ["alice"], ["alice"]⟩],
        ACLNested d.acl) ∧
      (∀ d ∈ storedAfter (RevokeCloud "dummy" "alice" "admin"
          [sampleCloudRegion "r1" ⟨["alice", "bob"], ["alice"], ["alice"]⟩])
          [sampleCloudRegion "r1" ⟨["alice", "bob"], ["alice"], ["alice"]⟩],
        ACLNested d.acl) ∧
      RevokeCloud "dummy" "alice" "admin"
          [sampleCloudRegion "r1" ⟨["alice", "bob"], ["alice"], ["alice"]⟩] =
        .ok [sampleCloudRegion "r1" ⟨["alice", "bob"], [], []⟩] :=
  ⟨by decide,
    (GrantCloud_RevokeCloud_keep_nested_acl "dummy" "alice" "admin"
      [sampleCloudRegion "r1" ⟨["alice", "bob"], ["alice"], ["alice"]⟩] (by decide)).2.1,
    rfl⟩


/-! ## Parsing a tag, then rendering it -/

theorem split_at_first (c : Char) (l : List Char) (h : c ∈ l) :
    l = l.takeWhile (fun x => decide (x ≠ c)) ++
      c :: (l.dropWhile fun x => decide (x ≠ c)).drop 1 := by
  induction l with
  | nil => cases h
  | cons a l ih =>
    by_cases ha : a = c
    · subst ha
      simp [List.takeWhile, List.dropWhile]
    · have hd : decide (a ≠ c) = true := by simpa using ha
      have hl : c ∈ l := by
        rcases List.mem_cons.mp h with h1 | h1
        · exact absurd h1.symm ha
        · exact h1
      rw [List.takeWhile_cons, List.dropWhile_cons, hd, if_pos rfl, if_pos rfl]
      exact congrArg (List.cons a) (ih hl)

theorem eq_textBefore_textAfter (c : Char) (s : String) (h : 0 < occurrences c s) :
    s = textBefore c s ++ String.singleton c ++ textAfter c s := by
  have hm : c ∈ s.data := List.count_pos_iff.mp h
  apply String.ext
  have hc : (String.singleton c).data = [c] := rfl
  simp only [String.data_append, textBefore, textAfter, hc, List.append_assoc,
    List.singleton_append]
  exact split_at_first c s.data hm

theorem occurrences_textAfter (c : Char) (s : String) (h : occurrences c s = 1) :
    occurrences c (textBefore c s) = 0 ∧ occurrences c (textAfter c s) = 0 := by
  have e := eq_textBefore_textAfter c s (by omega)
  have hs : occurrences c (String.singleton c) = 1 := by
    have hc : (String.singleton c).data = [c] := rfl
    simp [occurrences, hc]
  have h2 : occurrences c (textBefore c s ++ String.singleton c ++ textAfter c s) = 1 := by
    rw [← e]; exact h
  rw [occurrences_append, occurrences_append, hs] at h2
  omega


theorem TagFromString_shape (s : String) (tag : Tag) (h : TagFromString s = .ok tag) :
    (s = tag.kind ++ ":" ++ tag.id ∧ tag.relation = "" ∧ occurrences '#' tag.id = 0) ∨
      (s = tag.kind ++ ":" ++ (tag.id ++ "#" ++ tag.relation) ∧
        occurrences '#' tag.relation = 0) := by
  rw [TagFromString_eq] at h
  by_cases h1 : occurrences ':' s = 1
  · rw [if_neg (not_not.mpr h1)] at h
    by_cases h2 : textBefore ':' s ∈ tagKinds
    · rw [if_neg (not_not.mpr h2)] at h
      by_cases h3 : occurrences '#' (textAfter ':' s) ≤ 1
      · rw [if_pos h3] at h
        cases h
        have es : s = textBefore ':' s ++ ":" ++ textAfter ':' s :=
          eq_textBefore_textAfter ':' s (by omega)
        by_cases h4 : occurrences '#' (textAfter ':' s) = 0
        · obtain ⟨e1, e2⟩ := textBefore_of_absent '#' _ h4
          left
          refine ⟨?_, e2, ?_⟩
          · show s = textBefore ':' s ++ ":" ++ textBefore '#' (textAfter ':' s)
            rw [e1]
            exact es
          · show occurrences '#' (textBefore '#' (textAfter ':' s)) = 0
            rw [e1]
            exact h4
        · have h5 : occurrences '#' (textAfter ':' s) = 1 := by omega
          have er : textAfter ':' s =
              textBefore '#' (textAfter ':' s) ++ "#" ++ textAfter '#' (textAfter ':' s) :=
            eq_textBefore_textAfter '#' _ (by omega)
          right
          refine ⟨?_, (occurrences_textAfter '#' _ h5).2⟩
          show s = textBefore ':' s ++ ":" ++
            (textBefore '#' (textAfter ':' s) ++ "#" ++ textAfter '#' (textAfter ':' s))
          rw [← er]
          exact es
      · rw [if_neg h3] at h
        cases h
    · rw [if_pos h2] at h
      cases h
  · rw [if_pos h1] at h
    cases h

theorem not_endsWith_of_absent (c : Char) (a b : String) (d : Char) (hd : d ≠ c)
    (hb : occurrences c b = 0) : ¬ endsWith c (a ++ String.singleton d ++ b) := by
  intro he
  unfold endsWith at he
  have hdata : (a ++ String.singleton d ++ b).data = a.data ++ d :: b.data := by
    have hc : (String.singleton d).data = [d] := rfl
    simp [String.data_append, hc]
  rw [hdata, List.getLast?_append_cons] at he
  rcases List.mem_cons.mp (List.mem_of_getLast?_eq_some he) with h1 | h1
  · exact hd h1.symm
  · exact not_mem_of_occurrences c b hb h1

theorem endsWith_append_of_ne (c : Char) (a b : String) (hb : b ≠ "") :
    endsWith c (a ++ b) ↔ endsWith c b := by
  have hne : b.data ≠ [] := by
    intro h
    exact hb (String.ext h)
  unfold endsWith
  rw [String.data_append, List.getLast?_append_of_ne_nil _ hne]

theorem not_endsWith_of_occurrences (c : Char) (b : String) (hb : occurrences c b = 0) :
    ¬ endsWith c b := by
  intro he
  exact not_mem_of_occurrences c b hb (List.mem_of_getLast?_eq_some he)

/-- C30: for every string s that `TagFromString` accepts and that does not end with '#', the
`String` rendering of the returned tag equals s; for an accepted s that ends with '#' the
rendering is s without its trailing '#'; so parsing then printing gives back s exactly
for the accepted strings without a trailing '#'. -/
theorem TagFromString_then_String (s : String) (tag : Tag) (h : TagFromString s = .ok tag) :
    (¬ endsWith '#' s → tag.String = s) ∧
      (endsWith '#' s → tag.String ++ "#" = s) ∧
      (tag.String = s ↔ ¬ endsWith '#' s) := by
  have key : (¬ endsWith '#' s ∧ tag.String = s) ∨
      (endsWith '#' s ∧ tag.String ++ "#" = s) := by
    rcases TagFromString_shape s tag h with ⟨es, er, hi⟩ | ⟨es, hr⟩
    · left
      constructor
      · rw [es]
        exact not_endsWith_of_absent '#' tag.kind tag.id ':' (by decide) hi
      · rw [es]
        simp [Tag.String, er]
    · by_cases hrel : tag.relation = ""
      · right
        have es2 : s = tag.kind ++ ":" ++ tag.id ++ "#" := by
          rw [es, hrel]
          simp [String.append_assoc]
        constructor
        · rw [es2]
          exact (endsWith_append_of_ne '#' _ "#" (by decide)).mpr (by decide)
        · rw [es2]
          simp [Tag.String, hrel]
      · left
        have es2 : s = tag.kind ++ ":" ++ tag.id ++ "#" ++ tag.relation := by
          rw [es]
          simp [String.append_assoc]
        constructor
        · rw [es2]
          intro he
          exact not_endsWith_of_occurrences '#' _ hr
            ((endsWith_append_of_ne '#' _ tag.relation hrel).mp he)
        · rw [es2]
          simp [Tag.String, hrel]
  rcases key with ⟨hn, e⟩ | ⟨hy, e⟩
  · exact ⟨fun _ => e, fun hy => absurd hy hn, fun _ => hn, fun _ => e⟩
  · have hne : tag.String ≠ s := by
      intro e2
      have hl := congrArg String.length e
      rw [e2] at hl
      simp [String.length_append] at hl
      exact absurd hl (by decide)
    exact ⟨fun hn => absurd hy hn, fun _ => e, fun e2 => absurd e2 hne, fun hn => absurd hy hn⟩

theorem TagFromString_then_String_witness :
    TagFromString "user:alice#" = .ok (Tag.mk "user" "alice" "") ∧
      endsWith '#' "user:alice#" ∧
      (Tag.mk "user" "alice" "").String ++ "#" = "user:alice#" ∧
      (Tag.mk "user" "alice" "").String ≠ "user:alice#" :=
  ⟨rfl, by decide,
    (TagFromString_then_String "user:alice#" (Tag.mk "user" "alice" "") rfl).2.1 (by decide),
    fun e => (TagFromString_then_String "user:alice#" (Tag.mk "user" "alice" "") rfl).2.2.mp e
      (by decide)⟩

end Jimm
